import Mathlib

/-!
# Verification of the array-backed min-heap priority queue and the power-index calculator

Shallow embedding of `Priority_Queue_Heap.cpp` (class `PQHeap`) and of
`Voting_Backtracking.cpp` (`halfBlocks`, `computeCritical`, `computePowerIndexes`).

Modelling conventions.

* The headers `datapoint.h`, `pqheap.h` and the vector class are not among the sources.  A
  `DataPoint` is a label with an integer priority, as the specification describes it; the
  tests build records as `{ "R", 4 }` and the code only reads `.priority`.  Priorities are
  only compared, never computed with.
* The object state is the triple `_elements`, `_numAllocated`, `_numFilled`.  The buffer is a
  list; the counters are natural numbers.  Index values travel as `Int`, because the index
  helpers return the sentinel `NONE = -1`.
* `error(...)` raises an exception.  A member function that may raise returns the pair of its
  outcome (`Except PQError _`) and of the object state at the moment it returns or raises, so
  that "the failing call changed nothing" is a statement about the model.
* `while` and counting loops whose bound is not a list are functions by recursion on a step
  budget.  Exhausting the budget is the distinguished outcome `loopBound`, which is no
  behaviour of the C++ code; the theorems show that the budget the callers hand out is never
  exhausted.  The `for` loop of `validateInternalState`, whose bound `size() - 1` no
  iteration changes, runs over the list of its indices.
* The buffer accesses and the `swapElements` calls of `enqueue` and `dequeue` are listed by
  the `...Events` functions, which follow the control flow of the member they describe.
* `validateInternalState` reads `_elements[NONE]` before it tests the index; a read outside
  the buffer yields whatever a function `outside` says, and the theorems hold for every
  such function.
* In the queue `int` arithmetic is exact integer arithmetic: the only computed integers are
  indices below the capacity and the capacity itself.  `int` division is `Int.tdiv`
  (truncation toward zero).
* The power-index calculator computes sums, counts and products in 32-bit `int`s.  Its
  embedding is `halfBlocksWith`, `computeCriticalWith`, `criticalLoopWith`, `percentLoopWith`
  and `computePowerIndexesWith`, which pass the result of every `int` operation through a
  function `norm`; with `norm = wrap32`, wrap-around modulo `2^32`, this is the computation of
  the source, and the theorems about the calculator are stated about it.  The definitions
  `halfBlocks`, `computeCritical`, `criticalLoop`, `percentLoop` and `computePowerIndexes`
  without `With` are the same functions in exact integer arithmetic, which the 32-bit
  computation is compared with.  Dividing by zero is the distinguished outcome
  `divisionByZero`.
* The vector class of the power-index calculator is a list: `size()` is an `int`, `remove(i)`
  returns the removed value, `insert(i, v)` puts `v` at position `i`.
-/

namespace PQ

/-! ## The priority queue: data model and member functions -/

/-- Modelled from the spec: the record type `DataPoint` of the header `datapoint.h`, which is
not among the sources: a label and an integer priority. -/
structure DataPoint where
  label : String
  priority : Int
deriving DecidableEq, Repr, Inhabited

/-- The three ways a call is modelled to stop abnormally. -/
inductive PQError where
  | emptyQueue
  | invalidIndex (index : Int)
  | loopBound
deriving DecidableEq, Repr

/-- The member variables of `PQHeap`. -/
structure PQHeap where
  elements : List DataPoint
  numAllocated : Nat
  numFilled : Nat
deriving DecidableEq, Repr

/-- The constant `INITIAL_CAPACITY`. -/
def INITIAL_CAPACITY : Nat := 10

/-- The sentinel index `NONE`. -/
def NONE : Int := -1

/-- The constructor `PQHeap::PQHeap()`: capacity `INITIAL_CAPACITY`, no element stored, a
buffer of value-initialised records. -/
def PQHeap.construct : PQHeap :=
  { elements := List.replicate INITIAL_CAPACITY default
    numAllocated := INITIAL_CAPACITY
    numFilled := 0 }

/-- Reading `_elements[i]`. -/
def PQHeap.elemAt (h : PQHeap) (i : Int) : DataPoint :=
  h.elements.getD i.toNat default

/-- Writing `_elements[i] = v`. -/
def PQHeap.setElem (h : PQHeap) (i : Int) (v : DataPoint) : PQHeap :=
  { h with elements := h.elements.set i.toNat v }

/-- The member `expandMemory`: a buffer of twice the capacity receives the old cells
`0 .. _numAllocated - 1`; the remaining cells are fresh (modelled as default records). -/
def PQHeap.expandMemory (h : PQHeap) : PQHeap :=
  { h with
    elements := (List.range (h.numAllocated * 2)).map
      (fun i => if i < h.numAllocated then h.elements.getD i default else default)
    numAllocated := h.numAllocated * 2 }

/-- The member `size`. -/
def PQHeap.size (h : PQHeap) : Int := h.numFilled

/-- The member `isEmpty`. -/
def PQHeap.isEmpty (h : PQHeap) : Bool := h.size == 0

/-- The member `clear`. -/
def PQHeap.clear (h : PQHeap) : PQHeap := { h with numFilled := 0 }

/-- The member `getParentIndex`; `int` division truncates toward zero. -/
def PQHeap.getParentIndex (_h : PQHeap) (child : Int) : Int :=
  if child = 0 then NONE else (child - 1).tdiv 2

/-- The member `getLeftChildIndex`. -/
def PQHeap.getLeftChildIndex (h : PQHeap) (parent : Int) : Int :=
  let leftChild := (parent * 2) + 1
  if leftChild ≥ h.size then NONE else leftChild

/-- The member `getRightChildIndex`. -/
def PQHeap.getRightChildIndex (h : PQHeap) (parent : Int) : Int :=
  let rightChild := (parent * 2) + 2
  if rightChild ≥ h.size then NONE else rightChild

/-- The member `validateIndex`. -/
def PQHeap.validateIndex (h : PQHeap) (index : Int) : Except PQError Unit :=
  if index < 0 ∨ index ≥ h.numFilled then .error (.invalidIndex index) else .ok ()

/-- The member `swapElements`: both indices are validated before anything is written. -/
def PQHeap.swapElements (h : PQHeap) (indexA indexB : Int) : Except PQError Unit × PQHeap :=
  match h.validateIndex indexA with
  | .error e => (.error e, h)
  | .ok _ =>
    match h.validateIndex indexB with
    | .error e => (.error e, h)
    | .ok _ =>
      let tmp := h.elemAt indexA
      let h1 := h.setElem indexA (h.elemAt indexB)
      let h2 := h1.setElem indexB tmp
      (.ok (), h2)

/-- The `while` loop of `bubbleUp`, started at index `i`. -/
def PQHeap.bubbleUpLoop : Nat → PQHeap → DataPoint → Int → Except PQError Unit × PQHeap
  | 0, h, _, _ => (.error .loopBound, h)
  | fuel + 1, h, dp, i =>
    if h.getParentIndex i ≠ -1 ∧ dp.priority < (h.elemAt (h.getParentIndex i)).priority then
      match h.swapElements i (h.getParentIndex i) with
      | (.error e, h1) => (.error e, h1)
      | (.ok _, h1) =>
        let i1 := h1.getParentIndex i
        if i1 = 0 then (.ok (), h1) else PQHeap.bubbleUpLoop fuel h1 dp i1
    else (.ok (), h)

/-- The member `bubbleUp`: the walk starts at the last stored index. -/
def PQHeap.bubbleUp (h : PQHeap) (dp : DataPoint) : Except PQError Unit × PQHeap :=
  PQHeap.bubbleUpLoop (h.numFilled + 1) h dp (h.size - 1)

/-- The member `rightChildLess`. -/
def PQHeap.rightChildLess (h : PQHeap) (i : Int) : Bool :=
  decide ((h.elemAt (h.getRightChildIndex i)).priority ≤ (h.elemAt (h.getLeftChildIndex i)).priority)

/-- The loop condition of `bubbleDown`. -/
def PQHeap.bubbleDownCond (h : PQHeap) (dp : DataPoint) (i : Int) : Bool :=
  (h.getLeftChildIndex i != NONE && decide (dp.priority > (h.elemAt (h.getLeftChildIndex i)).priority)) ||
  (h.getRightChildIndex i != NONE && decide (dp.priority > (h.elemAt (h.getRightChildIndex i)).priority))

/-- The first `if` of the body of `bubbleDown`: only a left child. -/
def PQHeap.bubbleDownOnlyLeft (h : PQHeap) (dp : DataPoint) (i : Int) :
    Except PQError Unit × PQHeap × Int :=
  if h.getRightChildIndex i = NONE ∧ h.getLeftChildIndex i ≠ NONE then
    if dp.priority > (h.elemAt (h.getLeftChildIndex i)).priority then
      match h.swapElements i (h.getLeftChildIndex i) with
      | (.error e, h1) => (.error e, h1, i)
      | (.ok _, h1) => (.ok (), h1, h1.getLeftChildIndex i)
    else (.ok (), h, i)
  else (.ok (), h, i)

/-- The second `if` of the body of `bubbleDown`: both children, swap with the smaller one. -/
def PQHeap.bubbleDownBoth (h : PQHeap) (i : Int) : Except PQError Unit × PQHeap × Int :=
  if h.getRightChildIndex i ≠ NONE ∧ h.getLeftChildIndex i ≠ NONE then
    if h.rightChildLess i then
      match h.swapElements i (h.getRightChildIndex i) with
      | (.error e, h1) => (.error e, h1, i)
      | (.ok _, h1) => (.ok (), h1, h1.getRightChildIndex i)
    else
      match h.swapElements i (h.getLeftChildIndex i) with
      | (.error e, h1) => (.error e, h1, i)
      | (.ok _, h1) => (.ok (), h1, h1.getLeftChildIndex i)
  else (.ok (), h, i)

/-- The `while` loop of `bubbleDown`, started at index `i`.  The two `if` statements of the
body run one after the other, the second one on the index the first one left. -/
def PQHeap.bubbleDownLoop : Nat → PQHeap → DataPoint → Int → Except PQError Unit × PQHeap
  | 0, h, _, _ => (.error .loopBound, h)
  | fuel + 1, h, dp, i =>
    if h.bubbleDownCond dp i then
      match h.bubbleDownOnlyLeft dp i with
      | (.error e, h1, _) => (.error e, h1)
      | (.ok _, h1, i1) =>
        match h1.bubbleDownBoth i1 with
        | (.error e, h2, _) => (.error e, h2)
        | (.ok _, h2, i2) => PQHeap.bubbleDownLoop fuel h2 dp i2
    else (.ok (), h)

/-- The member `bubbleDown`: the walk starts at the root. -/
def PQHeap.bubbleDown (h : PQHeap) (dp : DataPoint) : Except PQError Unit × PQHeap :=
  PQHeap.bubbleDownLoop (h.numFilled + 1) h dp 0

/-- The member `enqueue`.  When the buffer is full the capacity is doubled and the call
returns; the record is stored, counted and sifted up only in the `else` branch. -/
def PQHeap.enqueue (h : PQHeap) (elem : DataPoint) : Except PQError Unit × PQHeap :=
  if h.numFilled = h.numAllocated then
    (.ok (), h.expandMemory)
  else
    let h1 := h.setElem h.numFilled elem
    let h2 := { h1 with numFilled := h1.numFilled + 1 }
    h2.bubbleUp elem

/-- The member `peek`.  It is a `const` member and writes no field; like every member that
may raise, it is modelled with the state it leaves. -/
def PQHeap.peek (h : PQHeap) : Except PQError DataPoint × PQHeap :=
  if h.isEmpty then (.error .emptyQueue, h) else (.ok (h.elemAt 0), h)

/-- The member `dequeue`.  The call to `peek` comes first, so an empty queue raises before
the count is decremented. -/
def PQHeap.dequeue (h : PQHeap) : Except PQError DataPoint × PQHeap :=
  match h.peek with
  | (.error e, h0) => (.error e, h0)
  | (.ok front, h0) =>
    let h1 := { h0 with numFilled := h0.numFilled - 1 }
    let h2 := h1.setElem 0 (h1.elemAt h1.size)
    let dp := h2.elemAt 0
    match h2.bubbleDown dp with
    | (.error e, h3) => (.error e, h3)
    | (.ok _, h3) => (.ok front, h3)

/-- The test loop `for (DataPoint dp : input) pq.enqueue(dp);`. -/
def enqueueAll : PQHeap → List DataPoint → Except PQError Unit × PQHeap
  | h, [] => (.ok (), h)
  | h, r :: rs =>
    match h.enqueue r with
    | (.error e, h1) => (.error e, h1)
    | (.ok _, h1) => enqueueAll h1 rs

/-- The test loop `while (!pq.isEmpty()) pq.dequeue();`, collecting what `dequeue` returns. -/
def drainLoop : Nat → PQHeap → Except PQError (List DataPoint) × PQHeap
  | 0, h => (.error .loopBound, h)
  | fuel + 1, h =>
    if h.isEmpty then (.ok [], h)
    else
      match h.dequeue with
      | (.error e, h1) => (.error e, h1)
      | (.ok front, h1) =>
        match drainLoop fuel h1 with
        | (.error e, h2) => (.error e, h2)
        | (.ok out, h2) => (.ok (front :: out), h2)

/-- Dequeue until the queue is empty. -/
def drain (h : PQHeap) : Except PQError (List DataPoint) × PQHeap :=
  drainLoop (h.numFilled + 1) h

/-- A given number of `dequeue` calls in a row, stopping at the first one that raises. -/
def dequeueN : Nat → PQHeap → Except PQError (List DataPoint) × PQHeap
  | 0, h => (.ok [], h)
  | k + 1, h =>
    match h.dequeue with
    | (.error e, h1) => (.error e, h1)
    | (.ok front, h1) =>
      match dequeueN k h1 with
      | (.error e, h2) => (.error e, h2)
      | (.ok out, h2) => (.ok (front :: out), h2)


/-! ## The priority queue: predicates of the statements and of the proofs -/

/-- The priority found at list position `k` (the default record's beyond the end). -/
def pr (l : List DataPoint) (k : Nat) : Int := (l.getD k default).priority

/-- The effect of `swapElements` on the buffer, for two positions `a` and `b`. -/
def swapL (l : List DataPoint) (a b : Nat) : List DataPoint :=
  (l.set a (l.getD b default)).set b (l.getD a default)

/-- Exchange of the values of a function at `a` and `b`. -/
def swapF (f : Nat → Int) (a b : Nat) : Nat → Int :=
  fun k => if k = b then f a else if k = a then f b else f k

/-- Heap order among the first `n` positions, stated from child to parent. -/
def HeapF (f : Nat → Int) (n : Nat) : Prop :=
  ∀ k, 0 < k → k < n → f ((k - 1) / 2) ≤ f k

/-- Loop invariant of the upward walk at position `i`: heap order everywhere except between
`i` and its parent, and the children of `i` already dominate the parent of `i`. -/
def UpInv (f : Nat → Int) (n i : Nat) : Prop :=
  ∀ k, 0 < k → k < n →
    (k ≠ i → f ((k - 1) / 2) ≤ f k) ∧ ((k - 1) / 2 = i → 0 < i → f ((i - 1) / 2) ≤ f k)

/-- Loop invariant of the downward walk at position `i`: heap order everywhere except
between `i` and its children, and the children of `i` already dominate the parent of `i`. -/
def DownInv (f : Nat → Int) (n i : Nat) : Prop :=
  ∀ k, 0 < k → k < n →
    ((k - 1) / 2 ≠ i → f ((k - 1) / 2) ≤ f k) ∧ ((k - 1) / 2 = i → 0 < i → f ((i - 1) / 2) ≤ f k)

/-- The priority stored at buffer position `k`. -/
def PQHeap.priorityAt (h : PQHeap) (k : Nat) : Int := (h.elemAt k).priority

/-- The heap invariant of the specification: every stored index is at most its stored
children. -/
def PQHeap.HeapOrdered (h : PQHeap) : Prop :=
  ∀ i : Nat, i < h.numFilled →
    (2 * i + 1 < h.numFilled → h.priorityAt i ≤ h.priorityAt (2 * i + 1)) ∧
    (2 * i + 2 < h.numFilled → h.priorityAt i ≤ h.priorityAt (2 * i + 2))

/-- The buffer has exactly `_numAllocated` cells and the count does not exceed them. -/
def PQHeap.WellFormed (h : PQHeap) : Prop :=
  h.elements.length = h.numAllocated ∧ h.numFilled ≤ h.numAllocated

/-- The stored records: buffer positions `0 .. size() - 1`. -/
def PQHeap.stored (h : PQHeap) : List DataPoint := h.elements.take h.numFilled

/-- The queue states reachable from a freshly constructed queue by `enqueue`, `dequeue`
(whatever its outcome) and `clear`. -/
inductive Reachable : PQHeap → Prop
  | construct : Reachable PQHeap.construct
  | enqueue {h : PQHeap} (elem : DataPoint) : Reachable h → Reachable (h.enqueue elem).2
  | dequeue {h : PQHeap} : Reachable h → Reachable h.dequeue.2
  | clear {h : PQHeap} : Reachable h → Reachable h.clear


/-! ## The priority queue: inputs of the tests -/

/-- The input of the test "PQHeap example from writeup". -/
def writeupInput : List DataPoint :=
  [⟨"R", 4⟩, ⟨"A", 5⟩, ⟨"B", 3⟩, ⟨"K", 7⟩, ⟨"G", 2⟩]

/-- The input of the test "PQHeap example with repeated DataPoints". -/
def repeatedInput : List DataPoint :=
  [⟨"R", 4⟩, ⟨"A", 5⟩, ⟨"B", 3⟩, ⟨"K", 7⟩, ⟨"G", 2⟩, ⟨"V", 9⟩, ⟨"T", 1⟩, ⟨"O", 8⟩, ⟨"O", 8⟩,
    ⟨"O", 8⟩, ⟨"O", 8⟩, ⟨"S", 6⟩]

/-- The input of the test "Validate small, hand-made good heap". -/
def goodHeapInput : List DataPoint := [⟨"Zoe", 3⟩, ⟨"Elmo", 2⟩, ⟨"Bert", 6⟩]

/-- The input of the test "Test peek on 2 element heap". -/
def peekInput : List DataPoint := [⟨"Casey", 1⟩, ⟨"Zoe", 3⟩]


/-- The queue after the first ten records of `repeatedInput` were enqueued into a fresh
queue: count and capacity are both ten. -/
def fullQueue : PQHeap := (enqueueAll PQHeap.construct (repeatedInput.take 10)).2

/-- The queue after `{Zoe,3}` and `{Elmo,2}` were enqueued into a fresh queue. -/
def twoQueue : PQHeap :=
  ((PQHeap.construct.enqueue ⟨"Zoe", 3⟩).2.enqueue ⟨"Elmo", 2⟩).2


/-! ## The priority queue: buffer accesses and `swapElements` calls of a call -/

/-- What a member function does to memory, in the order it does it: a read or a write of
cell `index` of a buffer of `capacity` cells, or a call `swapElements(indexA, indexB)` made
while the count is `count`. -/
inductive Event where
  | read (index : Int) (capacity : Nat)
  | write (index : Int) (capacity : Nat)
  | swapCall (indexA indexB : Int) (count : Nat)
deriving DecidableEq, Repr

/-- A read or write lies inside its buffer. -/
def Event.inBounds : Event → Prop
  | .read index capacity => 0 ≤ index ∧ index < capacity
  | .write index capacity => 0 ≤ index ∧ index < capacity
  | .swapCall _ _ _ => True

/-- A call of `swapElements` passes two indices that `validateIndex` accepts. -/
def Event.validSwap : Event → Prop
  | .read _ _ => True
  | .write _ _ => True
  | .swapCall indexA indexB count =>
    (0 ≤ indexA ∧ indexA < count) ∧ (0 ≤ indexB ∧ indexB < count)

/-- An event is safe: an access lies inside its buffer, a `swapElements` call is valid. -/
def Event.safe (e : Event) : Prop := e.inBounds ∧ e.validSwap

/-- The events of `swapElements(indexA, indexB)`: the call itself and, once both indices
are validated, `tmp = e[A]; e[A] = e[B]; e[B] = tmp`. -/
def PQHeap.swapElementsEvents (h : PQHeap) (indexA indexB : Int) : List Event :=
  .swapCall indexA indexB h.numFilled ::
    match h.swapElements indexA indexB with
    | (.error _, _) => []
    | (.ok _, _) =>
      [.read indexA h.numAllocated, .read indexB h.numAllocated,
        .write indexA h.numAllocated, .write indexB h.numAllocated]

/-- The events of the `while` loop of `bubbleUp`: the loop condition reads the parent cell
when there is a parent; the body calls `swapElements`. -/
def PQHeap.bubbleUpLoopEvents : Nat → PQHeap → DataPoint → Int → List Event
  | 0, _, _, _ => []
  | fuel + 1, h, dp, i =>
    (if h.getParentIndex i ≠ -1 then [Event.read (h.getParentIndex i) h.numAllocated] else []) ++
    if h.getParentIndex i ≠ -1 ∧ dp.priority < (h.elemAt (h.getParentIndex i)).priority then
      h.swapElementsEvents i (h.getParentIndex i) ++
        match h.swapElements i (h.getParentIndex i) with
        | (.error _, _) => []
        | (.ok _, h1) =>
          if h1.getParentIndex i = 0 then []
          else PQHeap.bubbleUpLoopEvents fuel h1 dp (h1.getParentIndex i)
    else []

/-- The events of the loop condition of `bubbleDown`: the left child cell is read when there
is a left child, the right child cell when the first disjunct is false and there is a right
child. -/
def PQHeap.bubbleDownCondEvents (h : PQHeap) (dp : DataPoint) (i : Int) : List Event :=
  (if h.getLeftChildIndex i ≠ NONE then [Event.read (h.getLeftChildIndex i) h.numAllocated]
    else []) ++
  if ¬ (h.getLeftChildIndex i ≠ NONE ∧
        dp.priority > (h.elemAt (h.getLeftChildIndex i)).priority) ∧
      h.getRightChildIndex i ≠ NONE then
    [Event.read (h.getRightChildIndex i) h.numAllocated]
  else []

/-- The events of the first `if` of the body of `bubbleDown`. -/
def PQHeap.bubbleDownOnlyLeftEvents (h : PQHeap) (dp : DataPoint) (i : Int) : List Event :=
  if h.getRightChildIndex i = NONE ∧ h.getLeftChildIndex i ≠ NONE then
    Event.read (h.getLeftChildIndex i) h.numAllocated ::
      if dp.priority > (h.elemAt (h.getLeftChildIndex i)).priority then
        h.swapElementsEvents i (h.getLeftChildIndex i)
      else []
  else []

/-- The events of the second `if` of the body of `bubbleDown`: `rightChildLess` reads both
child cells, then one `swapElements` call. -/
def PQHeap.bubbleDownBothEvents (h : PQHeap) (i : Int) : List Event :=
  if h.getRightChildIndex i ≠ NONE ∧ h.getLeftChildIndex i ≠ NONE then
    [Event.read (h.getRightChildIndex i) h.numAllocated,
      Event.read (h.getLeftChildIndex i) h.numAllocated] ++
      if h.rightChildLess i then h.swapElementsEvents i (h.getRightChildIndex i)
      else h.swapElementsEvents i (h.getLeftChildIndex i)
  else []

/-- The events of the `while` loop of `bubbleDown`. -/
def PQHeap.bubbleDownLoopEvents : Nat → PQHeap → DataPoint → Int → List Event
  | 0, _, _, _ => []
  | fuel + 1, h, dp, i =>
    h.bubbleDownCondEvents dp i ++
    if h.bubbleDownCond dp i then
      h.bubbleDownOnlyLeftEvents dp i ++
        match h.bubbleDownOnlyLeft dp i with
        | (.error _, _, _) => []
        | (.ok _, h1, i1) =>
          h1.bubbleDownBothEvents i1 ++
            match h1.bubbleDownBoth i1 with
            | (.error _, _, _) => []
            | (.ok _, h2, i2) => PQHeap.bubbleDownLoopEvents fuel h2 dp i2
    else []

/-- The events of `expandMemory`: cell `i` of the old buffer is read and cell `i` of the new
buffer, of twice the capacity, is written, for `i` below the old capacity. -/
def PQHeap.expandMemoryEvents (h : PQHeap) : List Event :=
  (List.range h.numAllocated).flatMap
    (fun i => [Event.read i h.numAllocated, Event.write i (h.numAllocated * 2)])

/-- The events of `enqueue`. -/
def PQHeap.enqueueEvents (h : PQHeap) (elem : DataPoint) : List Event :=
  if h.numFilled = h.numAllocated then
    h.expandMemoryEvents
  else
    let h1 := h.setElem h.numFilled elem
    let h2 := { h1 with numFilled := h1.numFilled + 1 }
    Event.write h.numFilled h.numAllocated ::
      PQHeap.bubbleUpLoopEvents (h2.numFilled + 1) h2 elem (h2.size - 1)

/-- The events of `dequeue`: `peek` reads cell 0 unless it raises; then
`_elements[0] = _elements[size()]` and `dp = _elements[0]`, then the walk. -/
def PQHeap.dequeueEvents (h : PQHeap) : List Event :=
  if h.isEmpty then []
  else
    let h1 := { h with numFilled := h.numFilled - 1 }
    let h2 := h1.setElem 0 (h1.elemAt h1.size)
    let dp := h2.elemAt 0
    [Event.read 0 h.numAllocated, Event.read h1.size h.numAllocated,
      Event.write 0 h.numAllocated, Event.read 0 h.numAllocated] ++
      PQHeap.bubbleDownLoopEvents (h2.numFilled + 1) h2 dp 0

/-! ## The priority queue: operations as values, paths, the diagnostic walk -/

/-- The public operations of the queue. -/
inductive Op where
  | enqueue (elem : DataPoint)
  | dequeue
  | peek
  | clear
  | isEmpty
  | size
deriving DecidableEq, Repr

/-- The state an operation leaves.  `isEmpty` and `size` are `const` members that only read
`_numFilled`; they leave the state they found. -/
def Op.post : Op → PQHeap → PQHeap
  | .enqueue elem, h => (h.enqueue elem).2
  | .dequeue, h => h.dequeue.2
  | .peek, h => h.peek.2
  | .clear, h => h.clear
  | .isEmpty, h => h
  | .size, h => h

/-- The positions on the path from index `i` up to the root: `i`, its parent, and so on. -/
inductive OnPath : Nat → Nat → Prop
  | self (i : Nat) : OnPath i i
  | up {i k : Nat} : 0 < i → OnPath ((i - 1) / 2) k → OnPath i k

/-- The two messages of `validateInternalState`. -/
inductive ValidationError where
  | tooManyElements
  | heapViolation (index : Int)
deriving DecidableEq, Repr

/-- Reading `_elements[i]` in `validateInternalState`, where the index may be the sentinel:
a cell of the buffer of `_numAllocated` cells is read as it is, and any other address yields
whatever `outside` finds there. -/
def PQHeap.readCell (h : PQHeap) (outside : Int → DataPoint) (i : Int) : DataPoint :=
  if 0 ≤ i ∧ i < h.numAllocated then h.elements.getD i.toNat default else outside i

/-- One iteration of the `for` loop of `validateInternalState`: the three priorities are
read first, the child indices are tested against `NONE` afterwards. -/
def PQHeap.validateAt (h : PQHeap) (outside : Int → DataPoint) (i : Int) :
    Except ValidationError Unit :=
  let elemPriority := (h.readCell outside i).priority
  let leftChildPriority := (h.readCell outside (h.getLeftChildIndex i)).priority
  let rightChildPriority := (h.readCell outside (h.getRightChildIndex i)).priority
  let leftChildIndex := h.getLeftChildIndex i
  let rightChildIndex := h.getRightChildIndex i
  if leftChildIndex ≠ NONE ∧ elemPriority > leftChildPriority then
    .error (.heapViolation i)
  else if rightChildIndex ≠ NONE ∧ elemPriority > rightChildPriority then
    .error (.heapViolation i)
  else .ok ()

/-- The `for` loop of `validateInternalState` over the indices it visits, stopping at the
first one that raises. -/
def PQHeap.validateFrom (h : PQHeap) (outside : Int → DataPoint) :
    List Int → Except ValidationError Unit
  | [] => .ok ()
  | i :: rest =>
    match h.validateAt outside i with
    | .error e => .error e
    | .ok _ => PQHeap.validateFrom h outside rest

/-- The member `validateInternalState` (its debug printing left out).  The loop runs over
`i = 0, 1, ..., size() - 2`; the bound does not change during the loop. -/
def PQHeap.validateInternalState (h : PQHeap) (outside : Int → DataPoint) :
    Except ValidationError Unit × PQHeap :=
  if h.numFilled > h.numAllocated then (.error .tooManyElements, h)
  else (h.validateFrom outside ((List.range (h.size - 1).toNat).map Int.ofNat), h)

/-- A two-record state that is no heap: the root is above its left child. -/
def badQueue : PQHeap :=
  { elements := [⟨"Zoe", 3⟩, ⟨"Casey", 1⟩] ++ List.replicate 8 default
    numAllocated := 10
    numFilled := 2 }

/-- The queue after `{root,1},{left,2},{right,2},{last,9}` were enqueued into a fresh queue:
the two children of the root have equal priority, smaller than that of the last record. -/
def tieQueue : PQHeap :=
  (enqueueAll PQHeap.construct [⟨"root", 1⟩, ⟨"left", 2⟩, ⟨"right", 2⟩, ⟨"last", 9⟩]).2

end PQ

namespace Voting

/-! ## The power-index calculator in exact integer arithmetic, and the reference definition

The definitions of this section compute with unbounded integers.  They are the exact side that
the computation on 32-bit `int`s, defined in the next section, is compared with. -/

/-- The two ways the power-index model stops abnormally: the integer division by a zero
`total`, and the exhaustion of a step budget (no behaviour of the C++ code). -/
inductive VoteError where
  | divisionByZero
  | loopBound
deriving DecidableEq, Repr

/-- The function `halfBlocks` in exact integer arithmetic: the sum of the blocks, halved by
division that truncates toward zero.  The source adds in a 32-bit `int`, which is
`halfBlocksWith wrap32`. -/
def halfBlocks (blocks : List Int) : Int :=
  let check := blocks.foldl (fun check block => check + block) 0
  check.tdiv 2

/-- The function `computeCritical` in exact integer arithmetic, by recursion on a step
budget.  `blocks.size()` is an `int` in the vector class used, so `blocks.size() - 1` is `-1`
on the empty vector.  The source adds in 32-bit `int`s, which is
`computeCriticalFuelWith wrap32`. -/
def computeCriticalFuel :
    Nat → List Int → Int → Int → Int → Int → Except VoteError Int
  | 0, _, _, _, _, _ => .error .loopBound
  | fuel + 1, blocks, blockRemoved, sum, i, majority =>
    if sum > majority then .ok 0
    else if i > (blocks.length : Int) - 1 then
      if sum + blockRemoved > majority then .ok 1 else .ok 0
    else
      match computeCriticalFuel fuel blocks blockRemoved (sum + blocks.getD i.toNat 0) (i + 1)
          majority with
      | .error e => .error e
      | .ok withBlock =>
        match computeCriticalFuel fuel blocks blockRemoved sum (i + 1) majority with
        | .error e => .error e
        | .ok withoutBlock => .ok (withBlock + withoutBlock)

/-- The function `computeCritical` in exact integer arithmetic; the recursion from index `i`
is at most `blocks.size() - i + 1` calls deep. -/
def computeCritical (blocks : List Int) (blockRemoved sum i majority : Int) :
    Except VoteError Int :=
  computeCriticalFuel (blocks.length + 1) blocks blockRemoved sum i majority

/-- The first loop of `computePowerIndexes` in exact integer arithmetic: block `i` is removed
from the vector, its critical votes are counted against the remaining blocks and appended to
`result`, and the block is inserted back at position `i`. -/
def criticalLoop (majority : Int) :
    Nat → Nat → List Int → List Int → Except VoteError (List Int × List Int)
  | 0, _, _, _ => .error .loopBound
  | fuel + 1, i, blocks, result =>
    if i < blocks.length then
      let blockRemoved := blocks.getD i 0
      let blocks1 := blocks.eraseIdx i
      match computeCritical blocks1 blockRemoved 0 0 majority with
      | .error e => .error e
      | .ok criticalVote =>
        let result1 := result ++ [criticalVote]
        let blocks2 := blocks1.insertIdx i blockRemoved
        criticalLoop majority fuel (i + 1) blocks2 result1
    else .ok (blocks, result)

/-- The third loop of `computePowerIndexes` in exact integer arithmetic: each critical count
becomes `(criticalVote * 100) / total` (division truncating toward zero); dividing by a zero
`total` is an error.  The source multiplies 32-bit `int`s, which is
`percentLoopWith wrap32`. -/
def percentLoop (total : Int) : List Int → Except VoteError (List Int)
  | [] => .ok []
  | criticalVote :: rest =>
    if total = 0 then .error .divisionByZero
    else
      match percentLoop total rest with
      | .error e => .error e
      | .ok realResult => .ok ((criticalVote * 100).tdiv total :: realResult)

/-- The function `computePowerIndexes` in exact integer arithmetic.  The source computes on
32-bit `int`s, which is `computePowerIndexesWith wrap32`. -/
def computePowerIndexes (blocks : List Int) : Except VoteError (List Int) :=
  let majority := halfBlocks blocks
  match criticalLoop majority (blocks.length + 1) 0 blocks [] with
  | .error e => .error e
  | .ok (_, result) =>
    let total := result.foldl (fun total criticalVote => total + criticalVote) 0
    percentLoop total result

/-- Reference definition, in the words of the specification: the number of sub-collections
`S` of the other blocks, chosen by position, with `sum S ≤ majority` and
`sum S + b > majority`. -/
def criticalCountRef (others : List Int) (b majority : Int) : Int :=
  ((others.sublists'.countP (fun S => decide (S.sum ≤ majority ∧ S.sum + b > majority)) : Nat) : Int)

/-- Reference definition of the critical count of the block at position `i`, with
`majority = floor (sum blocks / 2)`. -/
def criticalOfRef (blocks : List Int) (i : Nat) : Int :=
  criticalCountRef (blocks.eraseIdx i) (blocks.getD i 0) (Int.fdiv blocks.sum 2)

/-- Reference definition of the Banzhaf percentages: entry `i` is
`floor (100 * c_i / T)` with `T` the sum of all `c_j`. -/
def banzhafRef (blocks : List Int) : List Int :=
  let T := ((List.range blocks.length).map (criticalOfRef blocks)).sum
  (List.range blocks.length).map (fun i => Int.fdiv (100 * criticalOfRef blocks i) T)


/-! ## The power-index calculator on machine `int`s

The functions of `Voting_Backtracking.cpp` with the result of every `int` operation passed
through a function `norm`.  With `norm = wrap32` they are the computation of the source on
32-bit `int`s; the claims about the calculator are stated about `computePowerIndexesWith wrap32`
and the functions it calls. -/

/-- The value a signed 32-bit `int` holds for the integer `x`, by wrap-around modulo
`2^32`. -/
def wrap32 (x : Int) : Int := (x + 2147483648) % 4294967296 - 2147483648

/-- The integer lies in the signed 32-bit range. -/
def fits32 (x : Int) : Prop := -2147483648 ≤ x ∧ x < 2147483648

/-- The function `halfBlocks` with the result of every `int` operation passed through
`norm`: the sum of the blocks, accumulated in `check`, then halved by `int` division (which
truncates toward zero). -/
def halfBlocksWith (norm : Int → Int) (blocks : List Int) : Int :=
  let check := blocks.foldl (fun check block => norm (check + block)) 0
  norm (check.tdiv 2)

/-- The function `computeCritical` with the result of every `int` operation passed through
`norm`, by recursion on a step budget.  `blocks.size()` is an `int` in the vector class used,
so `blocks.size() - 1` is `-1` on the empty vector. -/
def computeCriticalFuelWith (norm : Int → Int) :
    Nat → List Int → Int → Int → Int → Int → Except VoteError Int
  | 0, _, _, _, _, _ => .error .loopBound
  | fuel + 1, blocks, blockRemoved, sum, i, majority =>
    if sum > majority then .ok 0
    else if i > norm ((blocks.length : Int) - 1) then
      if norm (sum + blockRemoved) > majority then .ok 1 else .ok 0
    else
      match computeCriticalFuelWith norm fuel blocks blockRemoved
          (norm (sum + blocks.getD i.toNat 0)) (norm (i + 1)) majority with
      | .error e => .error e
      | .ok withBlock =>
        match computeCriticalFuelWith norm fuel blocks blockRemoved sum (norm (i + 1))
            majority with
        | .error e => .error e
        | .ok withoutBlock => .ok (norm (withBlock + withoutBlock))

/-- The call `computeCritical(blocks, blockRemoved, sum, i, majority)` over `norm`; the
recursion from index `i` is at most `blocks.size() - i + 1` calls deep. -/
def computeCriticalWith (norm : Int → Int) (blocks : List Int)
    (blockRemoved sum i majority : Int) : Except VoteError Int :=
  computeCriticalFuelWith norm (blocks.length + 1) blocks blockRemoved sum i majority

/-- The first loop of `computePowerIndexes` over `norm`: block `i` is removed from the
vector, its critical votes are counted against the remaining blocks and appended to `result`,
and the block is inserted back at position `i`. -/
def criticalLoopWith (norm : Int → Int) (majority : Int) :
    Nat → Nat → List Int → List Int → Except VoteError (List Int × List Int)
  | 0, _, _, _ => .error .loopBound
  | fuel + 1, i, blocks, result =>
    if i < blocks.length then
      let blockRemoved := blocks.getD i 0
      let blocks1 := blocks.eraseIdx i
      match computeCriticalWith norm blocks1 blockRemoved 0 0 majority with
      | .error e => .error e
      | .ok criticalVote =>
        let result1 := result ++ [criticalVote]
        let blocks2 := blocks1.insertIdx i blockRemoved
        criticalLoopWith norm majority fuel (i + 1) blocks2 result1
    else .ok (blocks, result)

/-- The third loop of `computePowerIndexes` over `norm`: each critical count becomes
`(criticalVote * 100) / total` (`int` division); dividing by a zero `total` is an error. -/
def percentLoopWith (norm : Int → Int) (total : Int) : List Int → Except VoteError (List Int)
  | [] => .ok []
  | criticalVote :: rest =>
    if total = 0 then .error .divisionByZero
    else
      match percentLoopWith norm total rest with
      | .error e => .error e
      | .ok realResult => .ok (norm ((norm (criticalVote * 100)).tdiv total) :: realResult)

/-- The function `computePowerIndexes` with the result of every `int` operation passed
through `norm`; with `norm = wrap32` this is the computation of the source on 32-bit `int`s.
The second loop accumulates `total` with `+=`. -/
def computePowerIndexesWith (norm : Int → Int) (blocks : List Int) :
    Except VoteError (List Int) :=
  let majority := halfBlocksWith norm blocks
  match criticalLoopWith norm majority (blocks.length + 1) 0 blocks [] with
  | .error e => .error e
  | .ok (_, result) =>
    let total := result.foldl (fun total criticalVote => norm (total + criticalVote)) 0
    percentLoopWith norm total result


/-- Input of `n + 1` blocks: one block of weight 1 followed by `n` blocks of weight 0. -/
def oneAndZeros (n : Nat) : List Int := 1 :: List.replicate n 0

/-- The sums and counts of the computation fit a machine `int`: the size of the vector, the
sum of the blocks and the total of the critical counts are below `2^31`. -/
def countsFit32 (blocks : List Int) : Prop :=
  blocks.length < 2147483648 ∧ blocks.sum < 2147483648 ∧
  ((List.range blocks.length).map (criticalOfRef blocks)).sum < 2147483648

/-- The products `criticalVote * 100` of the third loop fit a machine `int`. -/
def productsFit32 (blocks : List Int) : Prop :=
  ∀ k : Nat, k < blocks.length → criticalOfRef blocks k * 100 < 2147483648

end Voting

namespace PQ

/-! ## The priority queue: the two walks restore heap order -/

theorem swapF_left (f : Nat → Int) (a b : Nat) : swapF f a b a = f b := by
  unfold swapF
  by_cases h : a = b
  · simp [h]
  · simp [h]

theorem swapF_right (f : Nat → Int) (a b : Nat) : swapF f a b b = f a := by
  simp [swapF]

theorem swapF_other (f : Nat → Int) (a b k : Nat) (ha : k ≠ a) (hb : k ≠ b) :
    swapF f a b k = f k := by
  simp [swapF, ha, hb]

theorem upInv_step (f : Nat → Int) (n i : Nat) (hi : 0 < i) (hin : i < n)
    (hlt : f i < f ((i - 1) / 2)) (H : UpInv f n i) :
    UpInv (swapF f i ((i - 1) / 2)) n ((i - 1) / 2) := by
  intro k hk0 hkn
  have hpi : (i - 1) / 2 ≠ i := by omega
  constructor
  · intro hne
    by_cases ek : k = i
    · rw [ek, swapF_right, swapF_left]; exact le_of_lt hlt
    · rw [swapF_other f _ _ k ek hne]
      by_cases e1 : (k - 1) / 2 = (i - 1) / 2
      · rw [e1, swapF_right]
        have h1 := (H k hk0 hkn).1 ek
        rw [e1] at h1
        exact le_trans (le_of_lt hlt) h1
      · by_cases e2 : (k - 1) / 2 = i
        · rw [e2, swapF_left]; exact (H k hk0 hkn).2 e2 hi
        · rw [swapF_other f _ _ _ e2 e1]; exact (H k hk0 hkn).1 ek
  · intro he hp0
    have hr1 : ((i - 1) / 2 - 1) / 2 ≠ i := by omega
    have hr2 : ((i - 1) / 2 - 1) / 2 ≠ (i - 1) / 2 := by omega
    rw [swapF_other f _ _ _ hr1 hr2]
    have h2 := (H ((i - 1) / 2) hp0 (by omega)).1 hpi
    by_cases ek : k = i
    · rw [ek, swapF_left]; exact h2
    · have hkp : k ≠ (i - 1) / 2 := by omega
      rw [swapF_other f _ _ k ek hkp]
      have h1 := (H k hk0 hkn).1 ek
      rw [he] at h1
      exact le_trans h2 h1

theorem upInv_exit (f : Nat → Int) (n i : Nat) (H : UpInv f n i)
    (hle : 0 < i → f ((i - 1) / 2) ≤ f i) : HeapF f n := by
  intro k hk0 hkn
  by_cases e : k = i
  · subst e; exact hle hk0
  · exact (H k hk0 hkn).1 e

theorem downInv_step (f : Nat → Int) (n i c : Nat) (hc : c = 2 * i + 1 ∨ c = 2 * i + 2)
    (hcn : c < n) (hmin : ∀ k, 0 < k → k < n → (k - 1) / 2 = i → f c ≤ f k)
    (hlt : f c < f i) (H : DownInv f n i) : DownInv (swapF f i c) n c := by
  intro k hk0 hkn
  have hci : c ≠ i := by omega
  have hpc : (c - 1) / 2 = i := by omega
  constructor
  · intro hne
    by_cases e : (k - 1) / 2 = i
    · have hki : k ≠ i := by omega
      rw [e, swapF_left]
      by_cases ec : k = c
      · rw [ec, swapF_right]; exact le_of_lt hlt
      · rw [swapF_other f _ _ k hki ec]; exact hmin k hk0 hkn e
    · rw [swapF_other f _ _ _ e hne]
      by_cases ek : k = i
      · have h4 := (H c (by omega) hcn).2 hpc (by omega)
        rw [ek, swapF_left]; exact h4
      · have ekc : k ≠ c := by
          intro h
          apply e
          rw [h]
          exact hpc
        rw [swapF_other f _ _ k ek ekc]; exact (H k hk0 hkn).1 e
  · intro he _
    rw [hpc, swapF_left]
    have hki : k ≠ i := by omega
    have hkc : k ≠ c := by omega
    rw [swapF_other f _ _ k hki hkc]
    have h1 := (H k hk0 hkn).1 (by omega)
    rw [he] at h1
    exact h1

theorem downInv_exit (f : Nat → Int) (n i : Nat) (H : DownInv f n i)
    (hle : ∀ k, 0 < k → k < n → (k - 1) / 2 = i → f i ≤ f k) : HeapF f n := by
  intro k hk0 hkn
  by_cases e : (k - 1) / 2 = i
  · rw [e]; exact hle k hk0 hkn e
  · exact (H k hk0 hkn).1 e

theorem heapF_root_le (f : Nat → Int) (n : Nat) (H : HeapF f n) :
    ∀ k, k < n → f 0 ≤ f k := by
  intro k
  induction k using Nat.strong_induction_on with
  | _ k ih =>
    intro hk
    by_cases h0 : k = 0
    · subst h0; exact le_refl _
    · have h1 := H k (by omega) hk
      have h2 := ih ((k - 1) / 2) (by omega) (by omega)
      exact le_trans h2 h1


theorem length_swapL (l : List DataPoint) (a b : Nat) : (swapL l a b).length = l.length := by
  simp [swapL]

theorem getD_swapL (l : List DataPoint) (a b k : Nat) (ha : a < l.length) (hb : b < l.length) :
    (swapL l a b).getD k default =
      if k = b then l.getD a default else if k = a then l.getD b default else l.getD k default := by
  simp only [swapL, List.getD_eq_getElem?_getD, List.getElem?_set, List.length_set]
  by_cases h1 : k = b
  · subst h1; simp [hb]
  · by_cases h2 : k = a
    · subst h2; simp [h1, ha, Ne.symm h1]
    · simp [h1, h2, Ne.symm h1, Ne.symm h2]

theorem pr_swapL (l : List DataPoint) (a b : Nat) (ha : a < l.length) (hb : b < l.length) :
    pr (swapL l a b) = swapF (pr l) a b := by
  funext k
  simp only [pr, swapF, getD_swapL l a b k ha hb]
  split_ifs <;> rfl

theorem swapL_perm (l : List DataPoint) (a b : Nat) (ha : a < l.length) (hb : b < l.length) :
    (swapL l a b).Perm l := by
  by_cases hab : a = b
  · subst hab
    have : swapL l a a = l := by
      apply List.ext_getElem?
      intro k
      simp only [swapL, List.getElem?_set, List.length_set, List.getD_eq_getElem?_getD]
      by_cases hk : a = k
      · subst hk; simp [ha]
      · simp [hk]
    rw [this]
  · rw [List.perm_iff_count]
    intro x
    have hb1 : b < (l.set a (l.getD b default)).length := by simpa using hb
    have e1 : (l.set a (l.getD b default))[b] = l[b] := by
      simp [List.getElem_set, hab]
    have e2 : l.getD b default = l[b] := List.getD_eq_getElem l default hb
    have e3 : l.getD a default = l[a] := List.getD_eq_getElem l default ha
    have hc : (if (l[a] == x) = true then 1 else 0) ≤ List.count x l := by
      split_ifs with hx
      · have hx1 : l[a] = x := by simpa using hx
        have : x ∈ l := hx1 ▸ List.getElem_mem ha
        exact List.count_pos_iff.mpr this
      · exact Nat.zero_le _
    simp only [swapL]
    rw [List.count_set _ _ _ _ hb1, List.count_set _ _ _ _ ha, e1, e2, e3]
    omega

theorem take_swapL_perm (l : List DataPoint) (n a b : Nat) (hn : n ≤ l.length)
    (ha : a < n) (hb : b < n) : ((swapL l a b).take n).Perm (l.take n) := by
  have e : (swapL l a b).take n = swapL (l.take n) a b := by
    simp only [swapL, List.set_take, List.getD_eq_getElem?_getD, List.getElem?_take, ha, hb,
      if_true]
  rw [e]
  exact swapL_perm _ a b (by simp; omega) (by simp; omega)


theorem elemAt_nat (h : PQHeap) (k : Nat) : h.elemAt (k : Int) = h.elements.getD k default := by
  simp [PQHeap.elemAt]

theorem priority_elemAt_nat (h : PQHeap) (k : Nat) :
    (h.elemAt (k : Int)).priority = pr h.elements k := by
  simp [PQHeap.elemAt, pr]

theorem getParentIndex_pos (h : PQHeap) (i : Nat) (hi : 0 < i) :
    h.getParentIndex (i : Int) = (((i - 1) / 2 : Nat) : Int) := by
  unfold PQHeap.getParentIndex
  have h0 : ¬ ((i : Int) = 0) := by omega
  rw [if_neg h0, Int.tdiv_eq_ediv (by omega) (by omega)]
  omega

theorem getParentIndex_zero (h : PQHeap) : h.getParentIndex ((0 : Nat) : Int) = -1 := by
  simp [PQHeap.getParentIndex, NONE]

theorem getLeftChildIndex_nat (h : PQHeap) (i : Nat) :
    h.getLeftChildIndex (i : Int) =
      if 2 * i + 1 < h.numFilled then (((2 * i + 1 : Nat)) : Int) else -1 := by
  simp only [PQHeap.getLeftChildIndex, PQHeap.size, NONE]
  split_ifs <;> omega

theorem getRightChildIndex_nat (h : PQHeap) (i : Nat) :
    h.getRightChildIndex (i : Int) =
      if 2 * i + 2 < h.numFilled then (((2 * i + 2 : Nat)) : Int) else -1 := by
  simp only [PQHeap.getRightChildIndex, PQHeap.size, NONE]
  split_ifs <;> omega

theorem swapElements_nat (h : PQHeap) (a b : Nat) (ha : a < h.numFilled) (hb : b < h.numFilled) :
    h.swapElements (a : Int) (b : Int) =
      (.ok (), { h with elements := swapL h.elements a b }) := by
  have va : h.validateIndex (a : Int) = .ok () := by
    unfold PQHeap.validateIndex
    rw [if_neg (by omega)]
  have vb : h.validateIndex (b : Int) = .ok () := by
    unfold PQHeap.validateIndex
    rw [if_neg (by omega)]
  simp [PQHeap.swapElements, va, vb, PQHeap.setElem, PQHeap.elemAt, swapL]

theorem bubbleUpLoop_spec (fuel : Nat) :
    ∀ (h : PQHeap) (dp : DataPoint) (i : Nat), i < fuel → i < h.numFilled →
      h.numFilled ≤ h.elements.length → pr h.elements i = dp.priority →
      UpInv (pr h.elements) h.numFilled i →
      ∃ l, h.bubbleUpLoop fuel dp (i : Int) = (.ok (), { h with elements := l }) ∧
        l.length = h.elements.length ∧ HeapF (pr l) h.numFilled ∧
        (l.take h.numFilled).Perm (h.elements.take h.numFilled) := by
  induction fuel with
  | zero => intro h dp i hf; omega
  | succ fuel ih =>
    intro h dp i hf hin hlen hdp H
    unfold PQHeap.bubbleUpLoop
    by_cases hi : i = 0
    · subst hi
      rw [getParentIndex_zero]
      simp only [ne_eq, not_true_eq_false, false_and, if_false]
      exact ⟨h.elements, rfl, rfl, upInv_exit _ _ 0 H (fun h0 => absurd h0 (lt_irrefl 0)),
        List.Perm.refl _⟩
    · have hi0 : 0 < i := Nat.pos_of_ne_zero hi
      rw [getParentIndex_pos h i hi0, priority_elemAt_nat]
      by_cases hc : dp.priority < pr h.elements ((i - 1) / 2)
      · have hne : ((((i - 1) / 2 : Nat)) : Int) ≠ -1 := by omega
        rw [if_pos ⟨hne, hc⟩, swapElements_nat h i ((i - 1) / 2) hin (by omega)]
        simp only
        rw [getParentIndex_pos _ i hi0]
        have hpl : (i - 1) / 2 < h.elements.length := by omega
        have hil : i < h.elements.length := by omega
        have Hs := upInv_step (pr h.elements) h.numFilled i hi0 hin (by rw [hdp]; exact hc) H
        rw [← pr_swapL h.elements i ((i - 1) / 2) hil hpl] at Hs
        have hperm := take_swapL_perm h.elements h.numFilled i ((i - 1) / 2) hlen hin (by omega)
        by_cases hz : (i - 1) / 2 = 0
        · have hz1 : ((((i - 1) / 2 : Nat)) : Int) = 0 := by omega
          rw [if_pos hz1]
          refine ⟨swapL h.elements i ((i - 1) / 2), rfl, length_swapL _ _ _, ?_, hperm⟩
          refine upInv_exit _ _ ((i - 1) / 2) Hs (fun h0 => ?_)
          omega
        · have hz1 : ¬ (((((i - 1) / 2 : Nat)) : Int) = 0) := by omega
          rw [if_neg hz1]
          have hdp1 : pr (swapL h.elements i ((i - 1) / 2)) ((i - 1) / 2) = dp.priority := by
            rw [pr_swapL h.elements i ((i - 1) / 2) hil hpl, swapF_right]; exact hdp
          obtain ⟨l, hl1, hl2, hl3, hl4⟩ :=
            ih { h with elements := swapL h.elements i ((i - 1) / 2) } dp ((i - 1) / 2)
              (by omega) (by simp; omega) (by simp [length_swapL]; omega) hdp1 Hs
          refine ⟨l, ?_, ?_, hl3, ?_⟩
          · rw [hl1]
          · rw [hl2]; exact length_swapL _ _ _
          · exact hl4.trans hperm
      · have hcf : ¬ (((((i - 1) / 2 : Nat)) : Int) ≠ -1 ∧
            dp.priority < pr h.elements ((i - 1) / 2)) := fun hh => hc hh.2
        rw [if_neg hcf]
        refine ⟨h.elements, rfl, rfl, upInv_exit _ _ i H (fun _ => ?_), List.Perm.refl _⟩
        rw [hdp]
        exact not_lt.mp hc


theorem natCast_ne_NONE (k : Nat) : (k : Int) ≠ NONE := by
  simp only [NONE]; omega

theorem getLeftChildIndex_some (h : PQHeap) (i : Nat) (hl : 2 * i + 1 < h.numFilled) :
    h.getLeftChildIndex (i : Int) = (((2 * i + 1 : Nat)) : Int) := by
  rw [getLeftChildIndex_nat, if_pos hl]

theorem getLeftChildIndex_none (h : PQHeap) (i : Nat) (hl : h.numFilled ≤ 2 * i + 1) :
    h.getLeftChildIndex (i : Int) = NONE := by
  rw [getLeftChildIndex_nat, if_neg (by omega)]; rfl

theorem getRightChildIndex_some (h : PQHeap) (i : Nat) (hr : 2 * i + 2 < h.numFilled) :
    h.getRightChildIndex (i : Int) = (((2 * i + 2 : Nat)) : Int) := by
  rw [getRightChildIndex_nat, if_pos hr]

theorem getRightChildIndex_none (h : PQHeap) (i : Nat) (hr : h.numFilled ≤ 2 * i + 2) :
    h.getRightChildIndex (i : Int) = NONE := by
  rw [getRightChildIndex_nat, if_neg (by omega)]; rfl

theorem bubbleDownCond_nat (h : PQHeap) (dp : DataPoint) (i : Nat) :
    h.bubbleDownCond dp (i : Int) = true ↔
      (2 * i + 1 < h.numFilled ∧ pr h.elements (2 * i + 1) < dp.priority) ∨
      (2 * i + 2 < h.numFilled ∧ pr h.elements (2 * i + 2) < dp.priority) := by
  unfold PQHeap.bubbleDownCond
  have e3 : ((NONE : Int) != NONE) = false := by simp
  have e4 : ∀ k : Nat, ((k : Int) != NONE) = true := fun k => by
    simp only [bne_iff_ne, ne_eq]; exact natCast_ne_NONE k
  by_cases hl : 2 * i + 1 < h.numFilled
  · by_cases hr : 2 * i + 2 < h.numFilled
    · simp only [getLeftChildIndex_some h i hl, getRightChildIndex_some h i hr, e4,
        priority_elemAt_nat, Bool.true_and, Bool.or_eq_true, decide_eq_true_eq, gt_iff_lt, hl, hr,
        true_and]
    · simp only [getLeftChildIndex_some h i hl, getRightChildIndex_none h i (by omega), e4, e3,
        priority_elemAt_nat, Bool.true_and, Bool.false_and, Bool.or_false, decide_eq_true_eq,
        gt_iff_lt, hl, hr, true_and, false_and, or_false]
  · have hr : ¬ (2 * i + 2 < h.numFilled) := by omega
    simp only [getLeftChildIndex_none h i (by omega), getRightChildIndex_none h i (by omega), e3,
      Bool.false_and, Bool.or_false, hl, hr, false_and, or_false]
    simp

theorem bubbleDownOnlyLeft_skip (h : PQHeap) (dp : DataPoint) (i : Nat)
    (hc : 2 * i + 2 < h.numFilled ∨ h.numFilled ≤ 2 * i + 1) :
    h.bubbleDownOnlyLeft dp (i : Int) = (.ok (), h, (i : Int)) := by
  unfold PQHeap.bubbleDownOnlyLeft
  rcases hc with hc | hc
  · have hn : ¬ (h.getRightChildIndex (i : Int) = NONE ∧ h.getLeftChildIndex (i : Int) ≠ NONE) := by
      rw [getRightChildIndex_some h i hc]
      exact fun hh => natCast_ne_NONE _ hh.1
    rw [if_neg hn]
  · have hn : ¬ (h.getRightChildIndex (i : Int) = NONE ∧ h.getLeftChildIndex (i : Int) ≠ NONE) := by
      rw [getLeftChildIndex_none h i hc]
      exact fun hh => hh.2 rfl
    rw [if_neg hn]

theorem bubbleDownOnlyLeft_swap (h : PQHeap) (dp : DataPoint) (i : Nat)
    (hl : 2 * i + 1 < h.numFilled) (hr : h.numFilled ≤ 2 * i + 2)
    (hgt : pr h.elements (2 * i + 1) < dp.priority) :
    h.bubbleDownOnlyLeft dp (i : Int) =
      (.ok (), { h with elements := swapL h.elements i (2 * i + 1) }, (((2 * i + 1 : Nat)) : Int)) := by
  unfold PQHeap.bubbleDownOnlyLeft
  have hc : (h.getRightChildIndex (i : Int) = NONE ∧ h.getLeftChildIndex (i : Int) ≠ NONE) := by
    rw [getRightChildIndex_none h i hr, getLeftChildIndex_some h i hl]
    exact ⟨rfl, natCast_ne_NONE _⟩
  rw [if_pos hc, getLeftChildIndex_some h i hl, priority_elemAt_nat]
  have hgt1 : dp.priority > pr h.elements (2 * i + 1) := hgt
  rw [if_pos hgt1, swapElements_nat h i (2 * i + 1) (by omega) hl]
  simp only
  rw [getLeftChildIndex_some _ i (by exact hl)]

theorem bubbleDownBoth_skip (h : PQHeap) (i : Nat) (hr : h.numFilled ≤ 2 * i + 2) :
    h.bubbleDownBoth (i : Int) = (.ok (), h, (i : Int)) := by
  unfold PQHeap.bubbleDownBoth
  have hn : ¬ (h.getRightChildIndex (i : Int) ≠ NONE ∧ h.getLeftChildIndex (i : Int) ≠ NONE) := by
    rw [getRightChildIndex_none h i hr]
    exact fun hh => hh.1 rfl
  rw [if_neg hn]

theorem bubbleDownBoth_swap (h : PQHeap) (i : Nat) (hr : 2 * i + 2 < h.numFilled) :
    h.bubbleDownBoth (i : Int) =
      if pr h.elements (2 * i + 2) ≤ pr h.elements (2 * i + 1) then
        (.ok (), { h with elements := swapL h.elements i (2 * i + 2) }, (((2 * i + 2 : Nat)) : Int))
      else
        (.ok (), { h with elements := swapL h.elements i (2 * i + 1) }, (((2 * i + 1 : Nat)) : Int)) := by
  unfold PQHeap.bubbleDownBoth PQHeap.rightChildLess
  have hl : 2 * i + 1 < h.numFilled := by omega
  have hc : (h.getRightChildIndex (i : Int) ≠ NONE ∧ h.getLeftChildIndex (i : Int) ≠ NONE) := by
    rw [getRightChildIndex_some h i hr, getLeftChildIndex_some h i hl]
    exact ⟨natCast_ne_NONE _, natCast_ne_NONE _⟩
  rw [if_pos hc, getLeftChildIndex_some h i hl, getRightChildIndex_some h i hr,
    priority_elemAt_nat, priority_elemAt_nat,
    swapElements_nat h i (2 * i + 2) (by omega) hr, swapElements_nat h i (2 * i + 1) (by omega) hl]
  simp only [decide_eq_true_eq]
  rw [getLeftChildIndex_some _ i (by exact hl), getRightChildIndex_some _ i (by exact hr)]


theorem bubbleDownLoop_spec (fuel : Nat) :
    ∀ (h : PQHeap) (dp : DataPoint) (i : Nat), i ≤ h.numFilled → h.numFilled < fuel + i →
      h.numFilled ≤ h.elements.length → pr h.elements i = dp.priority →
      DownInv (pr h.elements) h.numFilled i →
      ∃ l, h.bubbleDownLoop fuel dp (i : Int) = (.ok (), { h with elements := l }) ∧
        l.length = h.elements.length ∧ HeapF (pr l) h.numFilled ∧
        (l.take h.numFilled).Perm (h.elements.take h.numFilled) := by
  induction fuel with
  | zero =>
    intro h dp i hin hf
    omega
  | succ fuel ih =>
    intro h dp i hin hf hlen hdp H
    unfold PQHeap.bubbleDownLoop
    by_cases hcond : h.bubbleDownCond dp (i : Int) = true
    · rw [if_pos hcond]
      rw [bubbleDownCond_nat] at hcond
      have hl : 2 * i + 1 < h.numFilled := by omega
      -- the child the walk moves to, and the facts about it
      have key : ∀ c : Nat, (c = 2 * i + 1 ∨ c = 2 * i + 2) → c < h.numFilled →
          (∀ k, 0 < k → k < h.numFilled → (k - 1) / 2 = i →
            pr h.elements c ≤ pr h.elements k) →
          pr h.elements c < pr h.elements i →
          ∃ l, PQHeap.bubbleDownLoop fuel { h with elements := swapL h.elements i c } dp (c : Int) =
              (.ok (), { h with elements := l }) ∧
            l.length = h.elements.length ∧ HeapF (pr l) h.numFilled ∧
            (l.take h.numFilled).Perm (h.elements.take h.numFilled) := by
        intro c hc hcn hmin hlt
        have hil : i < h.elements.length := by omega
        have hcl : c < h.elements.length := by omega
        have Hs := downInv_step (pr h.elements) h.numFilled i c hc hcn hmin hlt H
        rw [← pr_swapL h.elements i c hil hcl] at Hs
        have hdp1 : pr (swapL h.elements i c) c = dp.priority := by
          rw [pr_swapL h.elements i c hil hcl, swapF_right]; exact hdp
        obtain ⟨l, hl1, hl2, hl3, hl4⟩ :=
          ih { h with elements := swapL h.elements i c } dp c
            (by simp only; omega) (by simp only; omega) (by simp only [length_swapL]; omega) hdp1 Hs
        refine ⟨l, ?_, ?_, hl3, ?_⟩
        · rw [hl1]
        · rw [hl2]; exact length_swapL _ _ _
        · exact hl4.trans (take_swapL_perm h.elements h.numFilled i c hlen (by omega) hcn)
      by_cases hr : 2 * i + 2 < h.numFilled
      · rw [bubbleDownOnlyLeft_skip h dp i (Or.inl hr)]
        simp only
        rw [bubbleDownBoth_swap h i hr]
        by_cases hrl : pr h.elements (2 * i + 2) ≤ pr h.elements (2 * i + 1)
        · rw [if_pos hrl]
          simp only
          refine key (2 * i + 2) (Or.inr rfl) hr ?_ ?_
          · intro k hk0 hkn hpk
            have hk : k = 2 * i + 1 ∨ k = 2 * i + 2 := by omega
            rcases hk with hk | hk
            · rw [hk]; exact hrl
            · rw [hk]
          · rw [hdp]; omega
        · rw [if_neg hrl]
          simp only
          refine key (2 * i + 1) (Or.inl rfl) hl ?_ ?_
          · intro k hk0 hkn hpk
            have hk : k = 2 * i + 1 ∨ k = 2 * i + 2 := by omega
            rcases hk with hk | hk
            · rw [hk]
            · rw [hk]; omega
          · rw [hdp]; omega
      · have hgt : pr h.elements (2 * i + 1) < dp.priority := by omega
        rw [bubbleDownOnlyLeft_swap h dp i hl (by omega) hgt]
        simp only
        rw [bubbleDownBoth_skip _ (2 * i + 1) (by simp only; omega)]
        simp only
        refine key (2 * i + 1) (Or.inl rfl) hl ?_ ?_
        · intro k hk0 hkn hpk
          have hk : k = 2 * i + 1 := by omega
          rw [hk]
        · rw [hdp]; exact hgt
    · rw [if_neg hcond]
      rw [bubbleDownCond_nat] at hcond
      refine ⟨h.elements, rfl, rfl, downInv_exit _ _ i H ?_, List.Perm.refl _⟩
      intro k hk0 hkn hpk
      have hk : k = 2 * i + 1 ∨ k = 2 * i + 2 := by omega
      rw [hdp]
      rcases hk with hk | hk
      · rw [hk]; rw [hk] at hkn; omega
      · rw [hk]; rw [hk] at hkn; omega


theorem priorityAt_eq (h : PQHeap) (k : Nat) : h.priorityAt k = pr h.elements k := by
  simp [PQHeap.priorityAt, PQHeap.elemAt, pr]

theorem heapOrdered_iff (h : PQHeap) : h.HeapOrdered ↔ HeapF (pr h.elements) h.numFilled := by
  constructor
  · intro H k hk0 hkn
    have hp := H ((k - 1) / 2) (by omega)
    simp only [priorityAt_eq] at hp
    have hk : k = 2 * ((k - 1) / 2) + 1 ∨ k = 2 * ((k - 1) / 2) + 2 := by omega
    rcases hk with hk | hk
    · have := hp.1 (by omega)
      rw [← hk] at this
      exact this
    · have := hp.2 (by omega)
      rw [← hk] at this
      exact this
  · intro H i _
    simp only [priorityAt_eq]
    constructor
    · intro hl
      have := H (2 * i + 1) (by omega) hl
      have e : (2 * i + 1 - 1) / 2 = i := by omega
      rw [e] at this
      exact this
    · intro hr
      have := H (2 * i + 2) (by omega) hr
      have e : (2 * i + 2 - 1) / 2 = i := by omega
      rw [e] at this
      exact this

theorem pr_set_of_ne (l : List DataPoint) (a k : Nat) (v : DataPoint) (hk : k ≠ a) :
    pr (l.set a v) k = pr l k := by
  simp [pr, List.getD_eq_getElem?_getD, List.getElem?_set, Ne.symm hk]

theorem pr_set_self (l : List DataPoint) (a : Nat) (v : DataPoint) (ha : a < l.length) :
    pr (l.set a v) a = v.priority := by
  simp [pr, List.getD_eq_getElem?_getD, List.getElem?_set, ha]

theorem take_succ_set (l : List DataPoint) (n : Nat) (v : DataPoint) (hn : n < l.length) :
    (l.set n v).take (n + 1) = l.take n ++ [v] := by
  rw [List.take_succ, List.set_take, List.set_eq_of_length_le (by simp)]
  simp [List.getElem?_set, hn]

/-- What `enqueue` does below capacity. -/
theorem enqueue_insert (h : PQHeap) (r : DataPoint) (hw : h.WellFormed) (ho : h.HeapOrdered)
    (hlt : h.numFilled ≠ h.numAllocated) :
    ∃ l, h.enqueue r =
        (.ok (), { elements := l, numAllocated := h.numAllocated, numFilled := h.numFilled + 1 }) ∧
      l.length = h.elements.length ∧ HeapF (pr l) (h.numFilled + 1) ∧
      (l.take (h.numFilled + 1)).Perm (h.stored ++ [r]) := by
  obtain ⟨hw1, hw2⟩ := hw
  have hn : h.numFilled < h.elements.length := by omega
  rw [heapOrdered_iff] at ho
  unfold PQHeap.enqueue
  rw [if_neg hlt]
  simp only [PQHeap.setElem, PQHeap.bubbleUp, PQHeap.size, Int.toNat_ofNat]
  have hcast : (((h.numFilled + 1 : Nat)) : Int) - 1 = ((h.numFilled : Nat) : Int) := by omega
  rw [hcast]
  have Hup : UpInv (pr (h.elements.set h.numFilled r)) (h.numFilled + 1) h.numFilled := by
    intro k hk0 hkn
    constructor
    · intro hne
      rw [pr_set_of_ne _ _ k _ hne, pr_set_of_ne _ _ ((k - 1) / 2) _ (by omega)]
      exact ho k hk0 (by omega)
    · intro he
      omega
  obtain ⟨l, hl1, hl2, hl3, hl4⟩ :=
    bubbleUpLoop_spec (h.numFilled + 1 + 1)
      { elements := h.elements.set h.numFilled r, numAllocated := h.numAllocated,
        numFilled := h.numFilled + 1 } r h.numFilled (by omega) (by simp only; omega)
      (by simp only [List.length_set]; omega) (pr_set_self _ _ _ hn) Hup
  refine ⟨l, hl1, ?_, hl3, ?_⟩
  · rw [hl2]; simp
  · refine hl4.trans ?_
    simp only [PQHeap.stored]
    rw [take_succ_set _ _ _ hn]


theorem getD_expandMemory (h : PQHeap) (k : Nat) (hk : k < h.numAllocated) :
    h.expandMemory.elements.getD k default = h.elements.getD k default := by
  simp only [PQHeap.expandMemory, List.getD_eq_getElem?_getD, List.getElem?_map]
  rw [List.getElem?_range (by omega)]
  simp [hk]

theorem length_expandMemory (h : PQHeap) :
    h.expandMemory.elements.length = h.numAllocated * 2 := by
  simp [PQHeap.expandMemory]

theorem take_expandMemory (h : PQHeap) (n : Nat) (hn : n ≤ h.numAllocated)
    (hlen : h.elements.length = h.numAllocated) :
    h.expandMemory.elements.take n = h.elements.take n := by
  apply List.ext_getElem?
  intro k
  simp only [List.getElem?_take]
  split_ifs with hk
  · have h1 := getD_expandMemory h k (by omega)
    have l1 : k < h.expandMemory.elements.length := by rw [length_expandMemory]; omega
    have l2 : k < h.elements.length := by omega
    rw [List.getD_eq_getElem _ _ l1, List.getD_eq_getElem _ _ l2] at h1
    rw [List.getElem?_eq_getElem l1, List.getElem?_eq_getElem l2, h1]
  · rfl

/-- What `enqueue` does on a full buffer: the capacity doubles and nothing is stored. -/
theorem enqueue_full (h : PQHeap) (r : DataPoint) (hfull : h.numFilled = h.numAllocated) :
    h.enqueue r = (.ok (), h.expandMemory) := by
  unfold PQHeap.enqueue
  rw [if_pos hfull]

theorem expandMemory_wellFormed (h : PQHeap) (hw : h.WellFormed) : h.expandMemory.WellFormed := by
  obtain ⟨_, hw2⟩ := hw
  refine ⟨length_expandMemory h, ?_⟩
  simp only [PQHeap.expandMemory]
  omega

theorem expandMemory_heapOrdered (h : PQHeap) (hw : h.WellFormed) (ho : h.HeapOrdered) :
    h.expandMemory.HeapOrdered := by
  obtain ⟨_, hw2⟩ := hw
  rw [heapOrdered_iff] at ho ⊢
  intro k hk0 hkn
  have hkn1 : k < h.numFilled := hkn
  have e : ∀ j, j < h.numFilled → pr h.expandMemory.elements j = pr h.elements j := fun j hj => by
    simp only [pr]
    rw [getD_expandMemory h j (by omega)]
  rw [e k hkn1, e _ (by omega)]
  exact ho k hk0 hkn1

theorem dequeue_empty (h : PQHeap) (he : h.numFilled = 0) :
    h.dequeue = (.error .emptyQueue, h) := by
  simp [PQHeap.dequeue, PQHeap.peek, PQHeap.isEmpty, PQHeap.size, he]

theorem peek_empty (h : PQHeap) (he : h.numFilled = 0) :
    h.peek = (.error .emptyQueue, h) := by
  simp [PQHeap.peek, PQHeap.isEmpty, PQHeap.size, he]

theorem peek_nonempty (h : PQHeap) (hn : 0 < h.numFilled) :
    h.peek = (.ok (h.elemAt 0), h) := by
  have : ¬ (h.numFilled = 0) := by omega
  simp [PQHeap.peek, PQHeap.isEmpty, PQHeap.size, this]

theorem dequeue_perm_aux (l : List DataPoint) (m : Nat) (hm : m < l.length) :
    (l.getD 0 default :: (l.set 0 (l.getD m default)).take m).Perm (l.take (m + 1)) := by
  have h1 := take_swapL_perm l (m + 1) 0 m (by omega) (by omega) (by omega)
  have e : (swapL l 0 m).take (m + 1) =
      (l.set 0 (l.getD m default)).take m ++ [l.getD 0 default] := by
    simp only [swapL]
    rw [take_succ_set _ _ _ (by simpa using hm)]
  rw [e] at h1
  exact (List.perm_append_singleton _ _).symm.trans h1

/-- What `dequeue` does on a non-empty, well-formed, heap-ordered queue. -/
theorem dequeue_remove (h : PQHeap) (hw : h.WellFormed) (ho : h.HeapOrdered)
    (hn : 0 < h.numFilled) :
    ∃ l, h.dequeue =
        (.ok (h.elemAt 0),
          { elements := l, numAllocated := h.numAllocated, numFilled := h.numFilled - 1 }) ∧
      l.length = h.elements.length ∧ HeapF (pr l) (h.numFilled - 1) ∧
      (h.elemAt 0 :: l.take (h.numFilled - 1)).Perm h.stored := by
  obtain ⟨hw1, hw2⟩ := hw
  rw [heapOrdered_iff] at ho
  unfold PQHeap.dequeue
  rw [peek_nonempty h hn]
  simp only [PQHeap.setElem, PQHeap.bubbleDown, PQHeap.size, PQHeap.elemAt, Int.toNat_ofNat,
    Int.toNat_zero]
  have Hd : DownInv (pr (h.elements.set 0 (h.elements.getD (h.numFilled - 1) default)))
      (h.numFilled - 1) 0 := by
    intro k hk0 hkn
    constructor
    · intro hne
      rw [pr_set_of_ne _ 0 ((k - 1) / 2) _ hne, pr_set_of_ne _ 0 k _ (by omega)]
      exact ho k hk0 (by omega)
    · intro _ h0
      omega
  obtain ⟨l, hl1, hl2, hl3, hl4⟩ :=
    bubbleDownLoop_spec (h.numFilled - 1 + 1)
      { elements := h.elements.set 0 (h.elements.getD (h.numFilled - 1) default),
        numAllocated := h.numAllocated, numFilled := h.numFilled - 1 }
      ((h.elements.set 0 (h.elements.getD (h.numFilled - 1) default)).getD 0 default) 0
      (Nat.zero_le _) (by simp only; omega) (by simp only [List.length_set]; omega) rfl Hd
  simp only [Nat.cast_zero] at hl1
  rw [hl1]
  refine ⟨l, rfl, ?_, hl3, ?_⟩
  · rw [hl2]; simp
  · refine (List.Perm.cons _ hl4).trans ?_
    have := dequeue_perm_aux h.elements (h.numFilled - 1) (by omega)
    simp only [PQHeap.stored]
    have e : h.numFilled - 1 + 1 = h.numFilled := by omega
    rw [e] at this
    exact this


theorem construct_wellFormed : PQHeap.construct.WellFormed := by
  simp [PQHeap.WellFormed, PQHeap.construct]

theorem heapOrdered_of_empty (h : PQHeap) (he : h.numFilled = 0) : h.HeapOrdered := by
  intro i hi
  omega

/-- Every reachable state is well formed and heap ordered. -/
theorem reachable_inv (h : PQHeap) (hr : Reachable h) : h.WellFormed ∧ h.HeapOrdered := by
  induction hr with
  | construct => exact ⟨construct_wellFormed, heapOrdered_of_empty _ rfl⟩
  | @enqueue h r _ ih =>
    obtain ⟨hw, ho⟩ := ih
    by_cases hfull : h.numFilled = h.numAllocated
    · rw [enqueue_full h r hfull]
      exact ⟨expandMemory_wellFormed h hw, expandMemory_heapOrdered h hw ho⟩
    · obtain ⟨l, hl1, hl2, hl3, _⟩ := enqueue_insert h r hw ho hfull
      rw [hl1]
      refine ⟨⟨?_, ?_⟩, ?_⟩
      · simp only; rw [hl2]; exact hw.1
      · simp only; have := hw.2; omega
      · rw [heapOrdered_iff]; exact hl3
  | @dequeue h _ ih =>
    obtain ⟨hw, ho⟩ := ih
    by_cases he : h.numFilled = 0
    · rw [dequeue_empty h he]; exact ⟨hw, ho⟩
    · obtain ⟨l, hl1, hl2, hl3, _⟩ := dequeue_remove h hw ho (by omega)
      rw [hl1]
      refine ⟨⟨?_, ?_⟩, ?_⟩
      · simp only; rw [hl2]; exact hw.1
      · simp only; have := hw.2; omega
      · rw [heapOrdered_iff]; exact hl3
  | @clear h _ ih =>
    exact ⟨⟨ih.1.1, Nat.zero_le _⟩, heapOrdered_of_empty _ rfl⟩

theorem root_le_stored (h : PQHeap) (ho : h.HeapOrdered) (k : Nat) (hk : k < h.numFilled) :
    (h.elemAt 0).priority ≤ h.priorityAt k := by
  rw [heapOrdered_iff] at ho
  have := heapF_root_le _ _ ho k hk
  simpa [PQHeap.elemAt, PQHeap.priorityAt, pr] using this

theorem root_le_of_mem (h : PQHeap) (ho : h.HeapOrdered) (x : DataPoint)
    (hx : x ∈ h.stored) : (h.elemAt 0).priority ≤ x.priority := by
  simp only [PQHeap.stored, List.mem_take_iff_getElem] at hx
  obtain ⟨k, hk, rfl⟩ := hx
  have hk1 : k < h.numFilled := by omega
  have hk2 : k < h.elements.length := by omega
  have := root_le_stored h ho k hk1
  rw [priorityAt_eq, pr, List.getD_eq_getElem _ _ hk2] at this
  exact this


theorem enqueue_ok (h : PQHeap) (r : DataPoint) (hw : h.WellFormed) (ho : h.HeapOrdered) :
    (h.enqueue r).1 = .ok () := by
  by_cases hfull : h.numFilled = h.numAllocated
  · rw [enqueue_full h r hfull]
  · obtain ⟨l, hl1, _⟩ := enqueue_insert h r hw ho hfull
    rw [hl1]

theorem enqueueAll_reachable (rs : List DataPoint) :
    ∀ h : PQHeap, Reachable h → ∃ h1, enqueueAll h rs = (.ok (), h1) ∧ Reachable h1 := by
  induction rs with
  | nil => intro h hr; exact ⟨h, rfl, hr⟩
  | cons r rs ih =>
    intro h hr
    obtain ⟨hw, ho⟩ := reachable_inv h hr
    have hok := enqueue_ok h r hw ho
    have hr1 : Reachable (h.enqueue r).2 := Reachable.enqueue r hr
    obtain ⟨h1, e1, e2⟩ := ih (h.enqueue r).2 hr1
    refine ⟨h1, ?_, e2⟩
    unfold enqueueAll
    generalize h.enqueue r = p at hok e1
    obtain ⟨o, s⟩ := p
    simp only at hok
    subst hok
    exact e1

theorem isEmpty_iff (h : PQHeap) : h.isEmpty = true ↔ h.numFilled = 0 := by
  simp [PQHeap.isEmpty, PQHeap.size]

theorem drainLoop_spec (fuel : Nat) :
    ∀ h : PQHeap, h.WellFormed → h.HeapOrdered → h.numFilled < fuel →
      ∃ out l, drainLoop fuel h =
          (.ok out, { elements := l, numAllocated := h.numAllocated, numFilled := 0 }) ∧
        out.Perm h.stored ∧ (out.map DataPoint.priority).Sorted (· ≤ ·) := by
  induction fuel with
  | zero => intro h _ _ hf; omega
  | succ fuel ih =>
    intro h hw ho hf
    unfold drainLoop
    by_cases he : h.numFilled = 0
    · rw [if_pos ((isEmpty_iff h).mpr he)]
      refine ⟨[], h.elements, ?_, ?_, ?_⟩
      · obtain ⟨e, a, n⟩ := h
        simp only at he
        subst he
        rfl
      · simp [PQHeap.stored, he]
      · simp
    · have hne : ¬ (h.isEmpty = true) := fun hh => he ((isEmpty_iff h).mp hh)
      rw [if_neg hne]
      obtain ⟨l, hl1, hl2, hl3, hl4⟩ := dequeue_remove h hw ho (by omega)
      rw [hl1]
      simp only
      have hw1 : PQHeap.WellFormed
          { elements := l, numAllocated := h.numAllocated, numFilled := h.numFilled - 1 } := by
        refine ⟨?_, ?_⟩
        · simp only; rw [hl2]; exact hw.1
        · simp only; have := hw.2; omega
      have ho1 : PQHeap.HeapOrdered
          { elements := l, numAllocated := h.numAllocated, numFilled := h.numFilled - 1 } := by
        rw [heapOrdered_iff]; exact hl3
      obtain ⟨out, l2, e1, e2, e3⟩ := ih _ hw1 ho1 (by simp only; omega)
      rw [e1]
      simp only
      refine ⟨h.elemAt 0 :: out, l2, rfl, ?_, ?_⟩
      · exact (List.Perm.cons _ e2).trans hl4
      · simp only [List.map_cons, List.sorted_cons]
        refine ⟨?_, e3⟩
        intro p hp
        obtain ⟨x, hx, rfl⟩ := List.mem_map.mp hp
        have hx1 : x ∈ h.stored := by
          have : x ∈ h.elemAt 0 :: List.take (h.numFilled - 1) l :=
            List.mem_cons_of_mem _ (e2.mem_iff.mp hx)
          exact hl4.mem_iff.mp this
        exact root_le_of_mem h ho x hx1


/-! ## The priority queue: every access and every `swapElements` call is safe -/

theorem read_safe (k c : Nat) (hk : k < c) : (Event.read (k : Int) c).safe := by
  refine ⟨⟨by omega, by omega⟩, trivial⟩

theorem write_safe (k c : Nat) (hk : k < c) : (Event.write (k : Int) c).safe := by
  refine ⟨⟨by omega, by omega⟩, trivial⟩

theorem swapElementsEvents_safe (h : PQHeap) (a b : Nat) (ha : a < h.numFilled)
    (hb : b < h.numFilled) (hn : h.numFilled ≤ h.numAllocated) :
    ∀ e ∈ h.swapElementsEvents (a : Int) (b : Int), e.safe := by
  unfold PQHeap.swapElementsEvents
  rw [swapElements_nat h a b ha hb]
  simp only [List.forall_mem_cons]
  refine ⟨⟨trivial, ⟨⟨by omega, by omega⟩, ⟨by omega, by omega⟩⟩⟩, read_safe _ _ (by omega),
    read_safe _ _ (by omega), write_safe _ _ (by omega), write_safe _ _ (by omega), ?_⟩
  intro e he
  simp at he

theorem bubbleUpLoopEvents_safe (fuel : Nat) :
    ∀ (h : PQHeap) (dp : DataPoint) (i : Nat), i < h.numFilled →
      h.numFilled ≤ h.numAllocated →
      ∀ e ∈ h.bubbleUpLoopEvents fuel dp (i : Int), e.safe := by
  induction fuel with
  | zero =>
    intro h dp i _ _ e he
    simp [PQHeap.bubbleUpLoopEvents] at he
  | succ fuel ih =>
    intro h dp i hin hn
    unfold PQHeap.bubbleUpLoopEvents
    by_cases hi : i = 0
    · subst hi
      rw [getParentIndex_zero]
      intro e he
      simp at he
    · have hi0 : 0 < i := Nat.pos_of_ne_zero hi
      rw [getParentIndex_pos h i hi0]
      have hne : ((((i - 1) / 2 : Nat)) : Int) ≠ -1 := by omega
      rw [if_pos hne, List.forall_mem_append]
      refine ⟨?_, ?_⟩
      · simp only [List.forall_mem_cons]
        exact ⟨read_safe _ _ (by omega), fun e he => by simp at he⟩
      · by_cases hc : dp.priority < (h.elemAt ((((i - 1) / 2 : Nat)) : Int)).priority
        · rw [if_pos ⟨hne, hc⟩, List.forall_mem_append]
          refine ⟨swapElementsEvents_safe h i ((i - 1) / 2) hin (by omega) hn, ?_⟩
          rw [swapElements_nat h i ((i - 1) / 2) hin (by omega)]
          simp only
          rw [getParentIndex_pos _ i hi0]
          by_cases hz : ((((i - 1) / 2 : Nat)) : Int) = 0
          · rw [if_pos hz]
            intro e he
            simp at he
          · rw [if_neg hz]
            exact ih _ dp ((i - 1) / 2) (by simp only; omega) (by simp only; omega)
        · rw [if_neg (fun hh => hc hh.2)]
          intro e he
          simp at he

theorem getLeftChildIndex_ne_NONE (h : PQHeap) (i : Nat) (hne : h.getLeftChildIndex (i : Int) ≠ NONE) :
    2 * i + 1 < h.numFilled := by
  by_contra hl
  exact hne (getLeftChildIndex_none h i (by omega))

theorem getRightChildIndex_ne_NONE (h : PQHeap) (i : Nat)
    (hne : h.getRightChildIndex (i : Int) ≠ NONE) : 2 * i + 2 < h.numFilled := by
  by_contra hr
  exact hne (getRightChildIndex_none h i (by omega))

theorem left_read_safe (h : PQHeap) (i : Nat) (hn : h.numFilled ≤ h.numAllocated)
    (hne : h.getLeftChildIndex (i : Int) ≠ NONE) :
    (Event.read (h.getLeftChildIndex (i : Int)) h.numAllocated).safe := by
  have hl := getLeftChildIndex_ne_NONE h i hne
  rw [getLeftChildIndex_some h i hl]
  exact read_safe _ _ (by omega)

theorem right_read_safe (h : PQHeap) (i : Nat) (hn : h.numFilled ≤ h.numAllocated)
    (hne : h.getRightChildIndex (i : Int) ≠ NONE) :
    (Event.read (h.getRightChildIndex (i : Int)) h.numAllocated).safe := by
  have hr := getRightChildIndex_ne_NONE h i hne
  rw [getRightChildIndex_some h i hr]
  exact read_safe _ _ (by omega)

theorem left_swap_safe (h : PQHeap) (i : Nat) (hn : h.numFilled ≤ h.numAllocated)
    (hne : h.getLeftChildIndex (i : Int) ≠ NONE) :
    ∀ e ∈ h.swapElementsEvents (i : Int) (h.getLeftChildIndex (i : Int)), e.safe := by
  have hl := getLeftChildIndex_ne_NONE h i hne
  rw [getLeftChildIndex_some h i hl]
  exact swapElementsEvents_safe h i (2 * i + 1) (by omega) hl hn

theorem right_swap_safe (h : PQHeap) (i : Nat) (hn : h.numFilled ≤ h.numAllocated)
    (hne : h.getRightChildIndex (i : Int) ≠ NONE) :
    ∀ e ∈ h.swapElementsEvents (i : Int) (h.getRightChildIndex (i : Int)), e.safe := by
  have hr := getRightChildIndex_ne_NONE h i hne
  rw [getRightChildIndex_some h i hr]
  exact swapElementsEvents_safe h i (2 * i + 2) (by omega) hr hn

theorem forall_mem_nil_safe : ∀ e ∈ ([] : List Event), e.safe := by
  intro e he
  simp at he

theorem bubbleDownCondEvents_safe (h : PQHeap) (dp : DataPoint) (i : Nat)
    (hn : h.numFilled ≤ h.numAllocated) :
    ∀ e ∈ h.bubbleDownCondEvents dp (i : Int), e.safe := by
  unfold PQHeap.bubbleDownCondEvents
  rw [List.forall_mem_append]
  constructor
  · by_cases hne : h.getLeftChildIndex (i : Int) ≠ NONE
    · rw [if_pos hne, List.forall_mem_cons]
      exact ⟨left_read_safe h i hn hne, forall_mem_nil_safe⟩
    · rw [if_neg hne]
      exact forall_mem_nil_safe
  · split_ifs with hc
    · rw [List.forall_mem_cons]
      exact ⟨right_read_safe h i hn hc.2, forall_mem_nil_safe⟩
    · exact forall_mem_nil_safe

theorem bubbleDownOnlyLeftEvents_safe (h : PQHeap) (dp : DataPoint) (i : Nat)
    (hn : h.numFilled ≤ h.numAllocated) :
    ∀ e ∈ h.bubbleDownOnlyLeftEvents dp (i : Int), e.safe := by
  unfold PQHeap.bubbleDownOnlyLeftEvents
  split_ifs with hc hgt
  · rw [List.forall_mem_cons]
    exact ⟨left_read_safe h i hn hc.2, left_swap_safe h i hn hc.2⟩
  · rw [List.forall_mem_cons]
    exact ⟨left_read_safe h i hn hc.2, forall_mem_nil_safe⟩
  · exact forall_mem_nil_safe

theorem bubbleDownBothEvents_safe (h : PQHeap) (i : Nat)
    (hn : h.numFilled ≤ h.numAllocated) :
    ∀ e ∈ h.bubbleDownBothEvents (i : Int), e.safe := by
  unfold PQHeap.bubbleDownBothEvents
  split_ifs with hc hless
  · simp only [List.cons_append, List.nil_append, List.forall_mem_cons]
    exact ⟨right_read_safe h i hn hc.1, left_read_safe h i hn hc.2, right_swap_safe h i hn hc.1⟩
  · simp only [List.cons_append, List.nil_append, List.forall_mem_cons]
    exact ⟨right_read_safe h i hn hc.1, left_read_safe h i hn hc.2, left_swap_safe h i hn hc.2⟩
  · exact forall_mem_nil_safe

/-- The state and index the first `if` of the body of `bubbleDown` leaves. -/
theorem bubbleDownOnlyLeft_shape (h : PQHeap) (dp : DataPoint) (i : Nat) :
    ∃ (l : List DataPoint) (i1 : Nat),
      h.bubbleDownOnlyLeft dp (i : Int) = (.ok (), { h with elements := l }, (i1 : Int)) := by
  by_cases hl : 2 * i + 1 < h.numFilled
  · by_cases hr : 2 * i + 2 < h.numFilled
    · exact ⟨h.elements, i, bubbleDownOnlyLeft_skip h dp i (Or.inl hr)⟩
    · by_cases hgt : pr h.elements (2 * i + 1) < dp.priority
      · exact ⟨_, _, bubbleDownOnlyLeft_swap h dp i hl (by omega) hgt⟩
      · refine ⟨h.elements, i, ?_⟩
        unfold PQHeap.bubbleDownOnlyLeft
        rw [getLeftChildIndex_some h i hl, priority_elemAt_nat]
        have hgt1 : ¬ (dp.priority > pr h.elements (2 * i + 1)) := hgt
        rw [if_neg hgt1]
        simp
  · exact ⟨h.elements, i, bubbleDownOnlyLeft_skip h dp i (Or.inr (by omega))⟩

/-- The state and index the second `if` of the body of `bubbleDown` leaves. -/
theorem bubbleDownBoth_shape (h : PQHeap) (i : Nat) :
    ∃ (l : List DataPoint) (i1 : Nat),
      h.bubbleDownBoth (i : Int) = (.ok (), { h with elements := l }, (i1 : Int)) := by
  by_cases hr : 2 * i + 2 < h.numFilled
  · rw [bubbleDownBoth_swap h i hr]
    split_ifs
    · exact ⟨_, _, rfl⟩
    · exact ⟨_, _, rfl⟩
  · exact ⟨h.elements, i, bubbleDownBoth_skip h i (by omega)⟩

theorem bubbleDownLoopEvents_safe (fuel : Nat) :
    ∀ (h : PQHeap) (dp : DataPoint) (i : Nat), h.numFilled ≤ h.numAllocated →
      ∀ e ∈ h.bubbleDownLoopEvents fuel dp (i : Int), e.safe := by
  induction fuel with
  | zero =>
    intro h dp i _
    unfold PQHeap.bubbleDownLoopEvents
    exact forall_mem_nil_safe
  | succ fuel ih =>
    intro h dp i hn
    unfold PQHeap.bubbleDownLoopEvents
    rw [List.forall_mem_append]
    refine ⟨bubbleDownCondEvents_safe h dp i hn, ?_⟩
    split_ifs with hc
    · rw [List.forall_mem_append]
      refine ⟨bubbleDownOnlyLeftEvents_safe h dp i hn, ?_⟩
      obtain ⟨l1, i1, e1⟩ := bubbleDownOnlyLeft_shape h dp i
      rw [e1]
      simp only
      rw [List.forall_mem_append]
      refine ⟨bubbleDownBothEvents_safe _ i1 (by simp only; exact hn), ?_⟩
      obtain ⟨l2, i2, e2⟩ := bubbleDownBoth_shape { h with elements := l1 } i1
      rw [e2]
      simp only
      exact ih _ dp i2 (by simp only; exact hn)
    · exact forall_mem_nil_safe

theorem expandMemoryEvents_safe (h : PQHeap) : ∀ e ∈ h.expandMemoryEvents, e.safe := by
  intro e he
  simp only [PQHeap.expandMemoryEvents, List.mem_flatMap, List.mem_range, List.mem_cons,
    List.mem_singleton, List.not_mem_nil, or_false] at he
  obtain ⟨k, hk, he⟩ := he
  rcases he with rfl | rfl
  · exact read_safe _ _ hk
  · exact write_safe _ _ (by omega)

theorem enqueueEvents_safe (h : PQHeap) (elem : DataPoint) (hn : h.numFilled ≤ h.numAllocated) :
    ∀ e ∈ h.enqueueEvents elem, e.safe := by
  unfold PQHeap.enqueueEvents
  split_ifs with hfull
  · exact expandMemoryEvents_safe h
  · simp only [PQHeap.setElem, PQHeap.size, List.forall_mem_cons]
    refine ⟨write_safe _ _ (by omega), ?_⟩
    have hcast : (((h.numFilled + 1 : Nat)) : Int) - 1 = ((h.numFilled : Nat) : Int) := by omega
    rw [hcast]
    exact bubbleUpLoopEvents_safe _ _ elem h.numFilled (by simp only; omega) (by simp only; omega)

theorem dequeueEvents_safe (h : PQHeap) (hn : h.numFilled ≤ h.numAllocated) :
    ∀ e ∈ h.dequeueEvents, e.safe := by
  unfold PQHeap.dequeueEvents
  split_ifs with he
  · exact forall_mem_nil_safe
  · have hpos : 0 < h.numFilled := by
      rcases Nat.eq_zero_or_pos h.numFilled with h0 | h0
      · exact absurd ((isEmpty_iff h).mpr h0) he
      · exact h0
    simp only [PQHeap.setElem, PQHeap.size, List.cons_append, List.nil_append,
      List.forall_mem_cons]
    have hz : (0 : Int) = ((0 : Nat) : Int) := rfl
    refine ⟨?_, read_safe _ _ (by omega), ?_, ?_, ?_⟩
    · rw [hz]; exact read_safe _ _ (by omega)
    · rw [hz]; exact write_safe _ _ (by omega)
    · rw [hz]; exact read_safe _ _ (by omega)
    · rw [hz]
      exact bubbleDownLoopEvents_safe _ _ _ 0 (by simp only; omega)

/-! ## The priority queue: what the members leave untouched -/

theorem swapElements_frame (h : PQHeap) (a b : Int) :
    (h.swapElements a b).2.numAllocated = h.numAllocated ∧
    (h.swapElements a b).2.numFilled = h.numFilled := by
  unfold PQHeap.swapElements
  cases h.validateIndex a with
  | error e => exact ⟨rfl, rfl⟩
  | ok u =>
    cases h.validateIndex b with
    | error e => exact ⟨rfl, rfl⟩
    | ok v => exact ⟨rfl, rfl⟩

theorem bubbleUpLoop_frame (fuel : Nat) :
    ∀ (h : PQHeap) (dp : DataPoint) (i : Int),
      (h.bubbleUpLoop fuel dp i).2.numAllocated = h.numAllocated ∧
      (h.bubbleUpLoop fuel dp i).2.numFilled = h.numFilled := by
  induction fuel with
  | zero => intro h dp i; exact ⟨rfl, rfl⟩
  | succ fuel ih =>
    intro h dp i
    unfold PQHeap.bubbleUpLoop
    split_ifs with hc
    · have hs := swapElements_frame h i (h.getParentIndex i)
      generalize h.swapElements i (h.getParentIndex i) = p at hs
      obtain ⟨o, h1⟩ := p
      cases o with
      | error e => exact hs
      | ok u =>
        simp only
        split_ifs
        · exact hs
        · have := ih h1 dp (h1.getParentIndex i)
          exact ⟨this.1.trans hs.1, this.2.trans hs.2⟩
    · exact ⟨rfl, rfl⟩

theorem bubbleDownOnlyLeft_frame (h : PQHeap) (dp : DataPoint) (i : Int) :
    (h.bubbleDownOnlyLeft dp i).2.1.numAllocated = h.numAllocated ∧
    (h.bubbleDownOnlyLeft dp i).2.1.numFilled = h.numFilled := by
  unfold PQHeap.bubbleDownOnlyLeft
  split_ifs
  · have hs := swapElements_frame h i (h.getLeftChildIndex i)
    generalize h.swapElements i (h.getLeftChildIndex i) = p at hs
    obtain ⟨o, h1⟩ := p
    cases o with
    | error e => exact hs
    | ok u => exact hs
  · exact ⟨rfl, rfl⟩
  · exact ⟨rfl, rfl⟩

theorem bubbleDownBoth_frame (h : PQHeap) (i : Int) :
    (h.bubbleDownBoth i).2.1.numAllocated = h.numAllocated ∧
    (h.bubbleDownBoth i).2.1.numFilled = h.numFilled := by
  unfold PQHeap.bubbleDownBoth
  split_ifs
  · have hs := swapElements_frame h i (h.getRightChildIndex i)
    generalize h.swapElements i (h.getRightChildIndex i) = p at hs
    obtain ⟨o, h1⟩ := p
    cases o with
    | error e => exact hs
    | ok u => exact hs
  · have hs := swapElements_frame h i (h.getLeftChildIndex i)
    generalize h.swapElements i (h.getLeftChildIndex i) = p at hs
    obtain ⟨o, h1⟩ := p
    cases o with
    | error e => exact hs
    | ok u => exact hs
  · exact ⟨rfl, rfl⟩

theorem bubbleDownLoop_frame (fuel : Nat) :
    ∀ (h : PQHeap) (dp : DataPoint) (i : Int),
      (h.bubbleDownLoop fuel dp i).2.numAllocated = h.numAllocated ∧
      (h.bubbleDownLoop fuel dp i).2.numFilled = h.numFilled := by
  induction fuel with
  | zero => intro h dp i; exact ⟨rfl, rfl⟩
  | succ fuel ih =>
    intro h dp i
    unfold PQHeap.bubbleDownLoop
    split_ifs with hc
    · have hs1 := bubbleDownOnlyLeft_frame h dp i
      generalize h.bubbleDownOnlyLeft dp i = p at hs1
      obtain ⟨o1, h1, i1⟩ := p
      cases o1 with
      | error e => exact hs1
      | ok u =>
        simp only
        have hs2 := bubbleDownBoth_frame h1 i1
        generalize h1.bubbleDownBoth i1 = q at hs2
        obtain ⟨o2, h2, i2⟩ := q
        cases o2 with
        | error e => exact ⟨hs2.1.trans hs1.1, hs2.2.trans hs1.2⟩
        | ok v =>
          simp only
          have := ih h2 dp i2
          exact ⟨this.1.trans (hs2.1.trans hs1.1), this.2.trans (hs2.2.trans hs1.2)⟩
    · exact ⟨rfl, rfl⟩

theorem enqueue_numAllocated (h : PQHeap) (elem : DataPoint) :
    (h.numFilled = h.numAllocated → (h.enqueue elem).2.numAllocated = h.numAllocated * 2) ∧
    (h.numFilled ≠ h.numAllocated → (h.enqueue elem).2.numAllocated = h.numAllocated) := by
  constructor
  · intro hfull
    rw [enqueue_full h elem hfull]
    rfl
  · intro hne
    unfold PQHeap.enqueue
    rw [if_neg hne]
    simp only [PQHeap.bubbleUp]
    exact (bubbleUpLoop_frame _ _ _ _).1

theorem peek_post (h : PQHeap) : h.peek.2 = h := by
  unfold PQHeap.peek
  split_ifs <;> rfl

theorem dequeue_numAllocated (h : PQHeap) : h.dequeue.2.numAllocated = h.numAllocated := by
  unfold PQHeap.dequeue
  have hp := peek_post h
  generalize h.peek = p at hp
  obtain ⟨o, h0⟩ := p
  simp only at hp
  subst hp
  cases o with
  | error e => rfl
  | ok front =>
    simp only [PQHeap.bubbleDown]
    have hs := bubbleDownLoop_frame
      (((({ h0 with numFilled := h0.numFilled - 1 } : PQHeap).setElem 0
        (({ h0 with numFilled := h0.numFilled - 1 } : PQHeap).elemAt
          ({ h0 with numFilled := h0.numFilled - 1 } : PQHeap).size)).numFilled) + 1)
      (({ h0 with numFilled := h0.numFilled - 1 } : PQHeap).setElem 0
        (({ h0 with numFilled := h0.numFilled - 1 } : PQHeap).elemAt
          ({ h0 with numFilled := h0.numFilled - 1 } : PQHeap).size))
      ((({ h0 with numFilled := h0.numFilled - 1 } : PQHeap).setElem 0
        (({ h0 with numFilled := h0.numFilled - 1 } : PQHeap).elemAt
          ({ h0 with numFilled := h0.numFilled - 1 } : PQHeap).size)).elemAt 0) 0
    generalize PQHeap.bubbleDownLoop _ _ _ _ = q at hs ⊢
    obtain ⟨o2, h3⟩ := q
    cases o2 with
    | error e => exact hs.1
    | ok v => exact hs.1

theorem getD_swapL_other (l : List DataPoint) (a b k : Nat) (ha : k ≠ a) (hb : k ≠ b) :
    (swapL l a b).getD k default = l.getD k default := by
  simp [swapL, List.getD_eq_getElem?_getD, List.getElem?_set, Ne.symm ha, Ne.symm hb]

/-- The upward walk from `i` leaves every position off the path from `i` to the root as it
was. -/
theorem bubbleUpLoop_offPath (fuel : Nat) :
    ∀ (h : PQHeap) (dp : DataPoint) (i : Nat), i < h.numFilled →
      ∀ k : Nat, ¬ OnPath i k →
        (h.bubbleUpLoop fuel dp (i : Int)).2.elements.getD k default =
          h.elements.getD k default := by
  induction fuel with
  | zero => intro h dp i _ k _; rfl
  | succ fuel ih =>
    intro h dp i hin k hk
    unfold PQHeap.bubbleUpLoop
    by_cases hi : i = 0
    · subst hi
      rw [getParentIndex_zero]
      simp
    · have hi0 : 0 < i := Nat.pos_of_ne_zero hi
      rw [getParentIndex_pos h i hi0]
      split_ifs with hc
      · rw [swapElements_nat h i ((i - 1) / 2) hin (by omega)]
        simp only
        rw [getParentIndex_pos _ i hi0]
        have hki : k ≠ i := fun e => hk (e ▸ OnPath.self i)
        have hkp : ¬ OnPath ((i - 1) / 2) k := fun hp => hk (OnPath.up hi0 hp)
        have hkp1 : k ≠ (i - 1) / 2 := fun e => hkp (e ▸ OnPath.self _)
        split_ifs with hz
        · simp only
          exact getD_swapL_other _ _ _ _ hki hkp1
        · rw [ih _ dp ((i - 1) / 2) (by simp only; omega) k hkp]
          simp only
          exact getD_swapL_other _ _ _ _ hki hkp1
      · rfl

theorem enqueue_offPath (h : PQHeap) (r : DataPoint) (hne : h.numFilled ≠ h.numAllocated)
    (k : Nat) (hk : ¬ OnPath h.numFilled k) :
    (h.enqueue r).2.elemAt (k : Int) = h.elemAt (k : Int) := by
  unfold PQHeap.enqueue
  rw [if_neg hne]
  simp only [PQHeap.setElem, PQHeap.bubbleUp, PQHeap.size, Int.toNat_ofNat]
  have hcast : (((h.numFilled + 1 : Nat)) : Int) - 1 = ((h.numFilled : Nat) : Int) := by omega
  rw [hcast, elemAt_nat, elemAt_nat,
    bubbleUpLoop_offPath _ _ r h.numFilled (by simp only; omega) k hk]
  simp only
  have hkn : k ≠ h.numFilled := fun e => hk (e ▸ OnPath.self _)
  simp [List.getD_eq_getElem?_getD, List.getElem?_set, Ne.symm hkn]

/-- One iteration of the downward walk at an index with two children. -/
theorem bubbleDownLoop_step_both (h : PQHeap) (dp : DataPoint) (i fuel : Nat)
    (hr : 2 * i + 2 < h.numFilled) (hc : h.bubbleDownCond dp (i : Int) = true) :
    h.bubbleDownLoop (fuel + 1) dp (i : Int) =
      if pr h.elements (2 * i + 2) ≤ pr h.elements (2 * i + 1) then
        PQHeap.bubbleDownLoop fuel { h with elements := swapL h.elements i (2 * i + 2) } dp
          (((2 * i + 2 : Nat)) : Int)
      else
        PQHeap.bubbleDownLoop fuel { h with elements := swapL h.elements i (2 * i + 1) } dp
          (((2 * i + 1 : Nat)) : Int) := by
  rw [PQHeap.bubbleDownLoop, if_pos hc, bubbleDownOnlyLeft_skip h dp i (Or.inl hr)]
  simp only
  rw [bubbleDownBoth_swap h i hr]
  split_ifs <;> rfl

/-! ## The priority queue: the diagnostic walk -/

theorem readCell_nat (h : PQHeap) (outside : Int → DataPoint) (k : Nat)
    (hk : k < h.numAllocated) :
    (h.readCell outside (k : Int)).priority = pr h.elements k := by
  unfold PQHeap.readCell pr
  rw [if_pos ⟨by omega, by omega⟩, Int.toNat_ofNat]

/-- One iteration of the diagnostic loop, in terms of the stored priorities only. -/
theorem validateAt_nat (h : PQHeap) (outside : Int → DataPoint) (i : Nat)
    (hi : i < h.numFilled) (hn : h.numFilled ≤ h.numAllocated) :
    h.validateAt outside (i : Int) =
      if 2 * i + 1 < h.numFilled ∧ pr h.elements (2 * i + 1) < pr h.elements i then
        .error (.heapViolation (i : Int))
      else if 2 * i + 2 < h.numFilled ∧ pr h.elements (2 * i + 2) < pr h.elements i then
        .error (.heapViolation (i : Int))
      else .ok () := by
  unfold PQHeap.validateAt
  simp only
  rw [readCell_nat h outside i (by omega)]
  have c1 : (h.getLeftChildIndex (i : Int) ≠ NONE ∧
      pr h.elements i > (h.readCell outside (h.getLeftChildIndex (i : Int))).priority) ↔
      (2 * i + 1 < h.numFilled ∧ pr h.elements (2 * i + 1) < pr h.elements i) := by
    by_cases hl : 2 * i + 1 < h.numFilled
    · rw [getLeftChildIndex_some h i hl, readCell_nat h outside _ (by omega)]
      exact ⟨fun hh => ⟨hl, hh.2⟩, fun hh => ⟨natCast_ne_NONE _, hh.2⟩⟩
    · rw [getLeftChildIndex_none h i (by omega)]
      exact ⟨fun hh => absurd rfl hh.1, fun hh => absurd hh.1 hl⟩
  have c2 : (h.getRightChildIndex (i : Int) ≠ NONE ∧
      pr h.elements i > (h.readCell outside (h.getRightChildIndex (i : Int))).priority) ↔
      (2 * i + 2 < h.numFilled ∧ pr h.elements (2 * i + 2) < pr h.elements i) := by
    by_cases hr : 2 * i + 2 < h.numFilled
    · rw [getRightChildIndex_some h i hr, readCell_nat h outside _ (by omega)]
      exact ⟨fun hh => ⟨hr, hh.2⟩, fun hh => ⟨natCast_ne_NONE _, hh.2⟩⟩
    · rw [getRightChildIndex_none h i (by omega)]
      exact ⟨fun hh => absurd rfl hh.1, fun hh => absurd hh.1 hr⟩
  simp only [c1, c2]

theorem validateFrom_ok_iff (h : PQHeap) (outside : Int → DataPoint) (L : List Int) :
    h.validateFrom outside L = .ok () ↔ ∀ i ∈ L, h.validateAt outside i = .ok () := by
  induction L with
  | nil => simp [PQHeap.validateFrom]
  | cons i rest ih =>
    unfold PQHeap.validateFrom
    cases hv : h.validateAt outside i with
    | error e => simp [hv]
    | ok u => simp [hv, ih]

theorem validateFrom_congr (h h1 : PQHeap) (outside outside1 : Int → DataPoint) (L : List Int)
    (hL : ∀ i ∈ L, h.validateAt outside i = h1.validateAt outside1 i) :
    h.validateFrom outside L = h1.validateFrom outside1 L := by
  induction L with
  | nil => rfl
  | cons i rest ih =>
    unfold PQHeap.validateFrom
    rw [hL i (List.mem_cons_self _ _), ih (fun j hj => hL j (List.mem_cons_of_mem _ hj))]

/-- The diagnostic walk raises exactly on a count above the capacity or on a stored index
above one of its stored children. -/
theorem validateInternalState_fails_iff (h : PQHeap) (outside : Int → DataPoint) :
    (h.validateInternalState outside).1 ≠ .ok () ↔
      (h.numFilled > h.numAllocated ∨
        ∃ i : Nat, i < h.numFilled ∧
          ((2 * i + 1 < h.numFilled ∧ pr h.elements (2 * i + 1) < pr h.elements i) ∨
           (2 * i + 2 < h.numFilled ∧ pr h.elements (2 * i + 2) < pr h.elements i))) := by
  unfold PQHeap.validateInternalState
  by_cases hgt : h.numFilled > h.numAllocated
  · rw [if_pos hgt]
    simp [hgt]
  · rw [if_neg hgt]
    simp only [hgt, false_or, ne_eq, validateFrom_ok_iff, List.mem_map, List.mem_range,
      PQHeap.size]
    constructor
    · intro hex
      by_contra hno
      apply hex
      rintro _ ⟨i, hi, rfl⟩
      have hi1 : i < h.numFilled := by omega
      have hv := validateAt_nat h outside i hi1 (by omega)
      rw [Int.ofNat_eq_coe, hv]
      have h1 : ¬ (2 * i + 1 < h.numFilled ∧ pr h.elements (2 * i + 1) < pr h.elements i) :=
        fun hh => hno ⟨i, hi1, Or.inl hh⟩
      have h2 : ¬ (2 * i + 2 < h.numFilled ∧ pr h.elements (2 * i + 2) < pr h.elements i) :=
        fun hh => hno ⟨i, hi1, Or.inr hh⟩
      rw [if_neg h1, if_neg h2]
    · rintro ⟨i, hi, hv⟩ hall
      have hi2 : i < ((h.numFilled : Int) - 1).toNat := by
        rcases hv with hv | hv <;> omega
      have := hall (Int.ofNat i) ⟨i, hi2, rfl⟩
      rw [Int.ofNat_eq_coe, validateAt_nat h outside i hi (by omega)] at this
      rcases hv with hv | hv
      · rw [if_pos hv] at this
        cases this
      · by_cases h1 : 2 * i + 1 < h.numFilled ∧ pr h.elements (2 * i + 1) < pr h.elements i
        · rw [if_pos h1] at this
          cases this
        · rw [if_neg h1, if_pos hv] at this
          cases this

/-- The outcome of the diagnostic walk depends only on count, capacity and the stored
records, not on the rest of the buffer nor on what lies outside it. -/
theorem validateInternalState_congr (h h1 : PQHeap) (outside outside1 : Int → DataPoint)
    (hc : h1.numFilled = h.numFilled) (ha : h1.numAllocated = h.numAllocated)
    (hs : ∀ k : Nat, k < h.numFilled → h1.elements.getD k default = h.elements.getD k default) :
    (h1.validateInternalState outside1).1 = (h.validateInternalState outside).1 := by
  unfold PQHeap.validateInternalState
  rw [hc, ha]
  by_cases hgt : h.numFilled > h.numAllocated
  · rw [if_pos hgt, if_pos hgt]
  · rw [if_neg hgt, if_neg hgt]
    simp only [PQHeap.size, hc]
    apply validateFrom_congr
    intro j hj
    obtain ⟨i, hi, rfl⟩ := List.mem_map.mp hj
    rw [List.mem_range] at hi
    have hi1 : i < h.numFilled := by omega
    have hp : ∀ k : Nat, k < h.numFilled → pr h1.elements k = pr h.elements k := fun k hk => by
      simp only [pr, hs k hk]
    rw [Int.ofNat_eq_coe, validateAt_nat h outside i hi1 (by omega),
      validateAt_nat h1 outside1 i (by omega) (by omega), hc, hp i hi1]
    by_cases hl : 2 * i + 1 < h.numFilled
    · by_cases hr : 2 * i + 2 < h.numFilled
      · rw [hp _ hl, hp _ hr]
      · rw [hp _ hl]
        simp [hr]
    · have hr : ¬ (2 * i + 2 < h.numFilled) := by omega
      simp [hl, hr]

end PQ

namespace Voting

/-! ## The power-index calculator: the recursion counts sub-collections -/

/-- The counting predicate behind `computeCritical` at running sum `sum`. -/
theorem countP_pruned (l : List Int) (br sum majority : Int) (hl : ∀ b ∈ l, 0 ≤ b)
    (h : sum > majority) :
    l.sublists'.countP
      (fun S => decide (sum + S.sum ≤ majority ∧ sum + S.sum + br > majority)) = 0 := by
  rw [List.countP_eq_zero]
  intro S hS
  rw [List.mem_sublists'] at hS
  have hs : 0 ≤ S.sum := List.sum_nonneg (fun b hb => hl b (hS.subset hb))
  simp only [decide_eq_true_eq, not_and]
  intro h1
  omega

theorem computeCriticalFuel_eq (fuel : Nat) (blocks : List Int) (br majority : Int)
    (hb : ∀ b ∈ blocks, 0 ≤ b) :
    ∀ (i : Nat) (sum : Int), i ≤ blocks.length → blocks.length < fuel + i →
      computeCriticalFuel fuel blocks br sum (i : Int) majority =
        .ok (((blocks.drop i).sublists'.countP
          (fun S => decide (sum + S.sum ≤ majority ∧ sum + S.sum + br > majority)) : Nat) : Int) := by
  induction fuel with
  | zero => intro i sum h1 h2; omega
  | succ fuel ih =>
    intro i sum h1 h2
    unfold computeCriticalFuel
    by_cases hs : sum > majority
    · rw [if_pos hs, countP_pruned _ br sum majority
        (fun b hb' => hb b (List.mem_of_mem_drop hb')) hs]
      rfl
    · rw [if_neg hs]
      by_cases hi : i = blocks.length
      · have hgt : (i : Int) > (blocks.length : Int) - 1 := by omega
        rw [if_pos hgt, hi, List.drop_length]
        simp only [List.sublists'_nil, List.countP_cons, List.countP_nil, List.sum_nil, add_zero,
          zero_add]
        have hle : sum ≤ majority := not_lt.mp hs
        by_cases hc : sum + br > majority
        · simp [hc, hle]
        · simp [hc]
      · have hlt : i < blocks.length := by omega
        have hgt : ¬ ((i : Int) > (blocks.length : Int) - 1) := by omega
        rw [if_neg hgt]
        have hcast : (i : Int) + 1 = ((i + 1 : Nat) : Int) := by omega
        rw [hcast, ih (i + 1) _ (by omega) (by omega), ih (i + 1) _ (by omega) (by omega)]
        simp only
        rw [List.drop_eq_getElem_cons hlt, List.sublists'_cons, List.countP_append,
          List.countP_map]
        have hget : blocks.getD (i : Int).toNat 0 = blocks[i] := by
          rw [Int.toNat_ofNat]
          exact List.getD_eq_getElem _ _ hlt
        rw [hget]
        have hfun : ((fun S : List Int =>
              decide (sum + S.sum ≤ majority ∧ sum + S.sum + br > majority)) ∘ List.cons blocks[i]) =
            (fun S : List Int =>
              decide (sum + blocks[i] + S.sum ≤ majority ∧ sum + blocks[i] + S.sum + br > majority)) := by
          funext S
          simp only [Function.comp, List.sum_cons, add_assoc]
        rw [hfun]
        congr 1
        push_cast
        ring

theorem computeCritical_eq (others : List Int) (br majority : Int)
    (hb : ∀ b ∈ others, 0 ≤ b) :
    computeCritical others br 0 0 majority = .ok (criticalCountRef others br majority) := by
  have := computeCriticalFuel_eq (others.length + 1) others br majority hb 0 0 (Nat.zero_le _)
    (by omega)
  simp only [Nat.cast_zero, List.drop_zero, zero_add] at this
  unfold computeCritical criticalCountRef
  exact this


theorem insertIdx_eraseIdx_getD (l : List Int) :
    ∀ i : Nat, i < l.length → (l.eraseIdx i).insertIdx i (l.getD i 0) = l := by
  induction l with
  | nil => intro i hi; simp at hi
  | cons a t ih =>
    intro i hi
    cases i with
    | zero => simp [List.insertIdx_zero]
    | succ j =>
      have hj : j < t.length := by simpa using hi
      have := ih j hj
      simp only [List.eraseIdx_cons_succ, List.insertIdx_succ_cons, List.getD_cons_succ]
      rw [this]

theorem mem_eraseIdx_nonneg (blocks : List Int) (i : Nat) (hb : ∀ b ∈ blocks, 0 ≤ b) :
    ∀ b ∈ blocks.eraseIdx i, 0 ≤ b := by
  intro b hmem
  rw [List.eraseIdx_eq_take_drop_succ] at hmem
  rcases List.mem_append.mp hmem with h | h
  · exact hb b (List.mem_of_mem_take h)
  · exact hb b (List.mem_of_mem_drop h)

theorem criticalLoop_eq (majority : Int) (blocks : List Int) (hb : ∀ b ∈ blocks, 0 ≤ b)
    (fuel : Nat) :
    ∀ (i : Nat) (result : List Int), i ≤ blocks.length → blocks.length < fuel + i →
      criticalLoop majority fuel i blocks result =
        .ok (blocks, result ++ (List.range' i (blocks.length - i)).map
          (fun j => criticalCountRef (blocks.eraseIdx j) (blocks.getD j 0) majority)) := by
  induction fuel with
  | zero => intro i result h1 h2; omega
  | succ fuel ih =>
    intro i result h1 h2
    unfold criticalLoop
    by_cases hi : i < blocks.length
    · rw [if_pos hi]
      simp only
      rw [computeCritical_eq _ _ _ (mem_eraseIdx_nonneg blocks i hb)]
      simp only
      rw [insertIdx_eraseIdx_getD blocks i hi, ih (i + 1) _ (by omega) (by omega)]
      have e : blocks.length - i = (blocks.length - (i + 1)) + 1 := by omega
      rw [e, List.range'_succ]
      simp
    · rw [if_neg hi]
      have e : blocks.length - i = 0 := by omega
      rw [e]
      simp

theorem halfBlocks_eq (blocks : List Int) (hb : ∀ b ∈ blocks, 0 ≤ b) :
    halfBlocks blocks = Int.fdiv blocks.sum 2 := by
  have hs : 0 ≤ blocks.sum := List.sum_nonneg hb
  unfold halfBlocks
  simp only
  rw [← List.sum_eq_foldl, Int.tdiv_eq_ediv hs (by omega), Int.fdiv_eq_ediv _ (by omega)]

theorem percentLoop_eq (total : Int) (ht : total ≠ 0) (result : List Int) :
    percentLoop total result = .ok (result.map (fun c => (c * 100).tdiv total)) := by
  induction result with
  | nil => rfl
  | cons c rest ih =>
    unfold percentLoop
    rw [if_neg ht, ih]
    rfl

theorem percentLoop_zero (c : Int) (rest : List Int) :
    percentLoop 0 (c :: rest) = .error .divisionByZero := by
  unfold percentLoop
  rw [if_pos rfl]

theorem criticalOfRef_nonneg (blocks : List Int) (i : Nat) : 0 ≤ criticalOfRef blocks i := by
  unfold criticalOfRef criticalCountRef
  exact Int.natCast_nonneg _

/-- The function `computePowerIndexes`, unfolded into its three loops over the reference
critical counts. -/
theorem computePowerIndexes_eq (blocks : List Int) (hb : ∀ b ∈ blocks, 0 ≤ b) :
    computePowerIndexes blocks =
      percentLoop ((List.range blocks.length).map (criticalOfRef blocks)).sum
        ((List.range blocks.length).map (criticalOfRef blocks)) := by
  unfold computePowerIndexes
  simp only
  rw [criticalLoop_eq _ blocks hb (blocks.length + 1) 0 [] (Nat.zero_le _) (by omega)]
  simp only [halfBlocks_eq blocks hb, List.nil_append, Nat.sub_zero, ← List.sum_eq_foldl]
  rw [← List.range_eq_range']
  rfl

theorem computePowerIndexes_ref (blocks : List Int) (hb : ∀ b ∈ blocks, 0 ≤ b)
    (r : List Int) (hr : computePowerIndexes blocks = .ok r) : r = banzhafRef blocks := by
  rw [computePowerIndexes_eq blocks hb] at hr
  have hT : 0 ≤ ((List.range blocks.length).map (criticalOfRef blocks)).sum := by
    apply List.sum_nonneg
    intro x hx
    obtain ⟨i, _, rfl⟩ := List.mem_map.mp hx
    exact criticalOfRef_nonneg blocks i
  by_cases h0 : ((List.range blocks.length).map (criticalOfRef blocks)).sum = 0
  · rw [h0] at hr
    cases hl : (List.range blocks.length).map (criticalOfRef blocks) with
    | nil =>
      rw [hl] at hr
      have hlen : blocks.length = 0 := by
        have := congrArg List.length hl
        simpa using this
      have hr1 : r = [] := by
        simp only [percentLoop] at hr
        exact (Except.ok.inj hr).symm
      rw [hr1]
      simp [banzhafRef, hlen]
    | cons c rest =>
      rw [hl, percentLoop_zero] at hr
      cases hr
  · rw [percentLoop_eq _ h0] at hr
    have hr1 := (Except.ok.inj hr).symm
    rw [hr1]
    unfold banzhafRef
    simp only [List.map_map]
    apply List.map_congr_left
    intro i _
    simp only [Function.comp]
    have hc := criticalOfRef_nonneg blocks i
    rw [Int.tdiv_eq_ediv (by omega) hT, Int.fdiv_eq_ediv _ hT, mul_comm]


/-- Adding non-negative blocks one at a time, some block is the first to carry the running
sum over the threshold. -/
theorem exists_crossing (l : List Int) :
    ∀ m : Int, 0 ≤ m → (∀ b ∈ l, 0 ≤ b) → m < l.sum →
      ∃ k, k < l.length ∧ (l.take k).sum ≤ m ∧ (l.take k).sum + l.getD k 0 > m := by
  induction l with
  | nil => intro m hm _ hs; simp at hs; omega
  | cons a t ih =>
    intro m hm hb hs
    by_cases ha : a > m
    · exact ⟨0, by simp, by simpa using hm, by simpa using ha⟩
    · have hs1 : m - a < t.sum := by
        simp only [List.sum_cons] at hs; omega
      have ha0 : 0 ≤ a := hb a (List.mem_cons_self _ _)
      obtain ⟨k, hk1, hk2, hk3⟩ := ih (m - a) (by omega)
        (fun b hb' => hb b (List.mem_cons_of_mem _ hb')) hs1
      refine ⟨k + 1, by simpa using hk1, ?_, ?_⟩
      · simp only [List.take_succ_cons, List.sum_cons]; omega
      · simp only [List.take_succ_cons, List.sum_cons, List.getD_cons_succ]; omega

theorem exists_critical (blocks : List Int) (hb : ∀ b ∈ blocks, 0 ≤ b) (hs : 0 < blocks.sum) :
    ∃ k, k < blocks.length ∧ 1 ≤ criticalOfRef blocks k := by
  have hm0 : 0 ≤ Int.fdiv blocks.sum 2 := by
    rw [Int.fdiv_eq_ediv _ (by omega)]; omega
  have hm1 : Int.fdiv blocks.sum 2 < blocks.sum := by
    rw [Int.fdiv_eq_ediv _ (by omega)]; omega
  obtain ⟨k, hk1, hk2, hk3⟩ := exists_crossing blocks _ hm0 hb hm1
  refine ⟨k, hk1, ?_⟩
  unfold criticalOfRef criticalCountRef
  have hpos : 0 < (blocks.eraseIdx k).sublists'.countP
      (fun S => decide (S.sum ≤ Int.fdiv blocks.sum 2 ∧
        S.sum + blocks.getD k 0 > Int.fdiv blocks.sum 2)) := by
    rw [List.countP_pos_iff]
    refine ⟨blocks.take k, ?_, ?_⟩
    · rw [List.mem_sublists', List.eraseIdx_eq_take_drop_succ]
      exact List.sublist_append_left _ _
    · simp only [decide_eq_true_eq]
      exact ⟨hk2, hk3⟩
  omega

theorem total_pos (blocks : List Int) (hb : ∀ b ∈ blocks, 0 ≤ b) (hs : 0 < blocks.sum) :
    0 < ((List.range blocks.length).map (criticalOfRef blocks)).sum := by
  obtain ⟨k, hk1, hk2⟩ := exists_critical blocks hb hs
  have hmem : criticalOfRef blocks k ∈ (List.range blocks.length).map (criticalOfRef blocks) :=
    List.mem_map.mpr ⟨k, List.mem_range.mpr hk1, rfl⟩
  have hle := List.single_le_sum (l := (List.range blocks.length).map (criticalOfRef blocks))
    (by
      intro x hx
      obtain ⟨i, _, rfl⟩ := List.mem_map.mp hx
      exact criticalOfRef_nonneg blocks i) _ hmem
  omega

theorem computePowerIndexes_defined (blocks : List Int) (hb : ∀ b ∈ blocks, 0 ≤ b)
    (hs : blocks = [] ∨ 0 < blocks.sum) :
    ∃ r, computePowerIndexes blocks = .ok r ∧ r.length = blocks.length := by
  rw [computePowerIndexes_eq blocks hb]
  rcases hs with hs | hs
  · subst hs
    exact ⟨[], rfl, rfl⟩
  · have hT := total_pos blocks hb hs
    rw [percentLoop_eq _ (by omega)]
    exact ⟨_, rfl, by simp⟩

theorem criticalOfRef_zeros (blocks : List Int) (hz : ∀ b ∈ blocks, b = 0) (i : Nat) :
    criticalOfRef blocks i = 0 := by
  unfold criticalOfRef criticalCountRef
  have hsum : blocks.sum = 0 := List.sum_eq_zero hz
  have hget : blocks.getD i 0 = 0 := by
    rw [List.getD_eq_getElem?_getD]
    cases h : blocks[i]? with
    | none => rfl
    | some v => exact hz v (List.getElem?_mem h)
  rw [hsum, hget]
  have : (blocks.eraseIdx i).sublists'.countP
      (fun S => decide (S.sum ≤ Int.fdiv 0 2 ∧ S.sum + 0 > Int.fdiv 0 2)) = 0 := by
    rw [List.countP_eq_zero]
    intro S _
    simp only [decide_eq_true_eq, not_and, add_zero]
    intro h1
    omega
  rw [this]
  rfl

theorem computePowerIndexes_zeros (blocks : List Int) (hne : blocks ≠ [])
    (hz : ∀ b ∈ blocks, b = 0) : computePowerIndexes blocks = .error .divisionByZero := by
  have hb : ∀ b ∈ blocks, 0 ≤ b := fun b hb' => le_of_eq (hz b hb').symm
  rw [computePowerIndexes_eq blocks hb]
  have hmap : (List.range blocks.length).map (criticalOfRef blocks) =
      List.replicate blocks.length 0 := by
    rw [List.eq_replicate_iff]
    refine ⟨by simp, ?_⟩
    intro x hx
    obtain ⟨i, _, rfl⟩ := List.mem_map.mp hx
    exact criticalOfRef_zeros blocks hz i
  rw [hmap]
  obtain ⟨n, hn⟩ : ∃ n, blocks.length = n + 1 := by
    cases blocks with
    | nil => exact absurd rfl hne
    | cons a t => exact ⟨t.length, rfl⟩
  rw [hn, List.replicate_succ]
  simp only [List.sum_cons, List.sum_replicate, smul_zero, add_zero]
  exact percentLoop_zero _ _


/-! ## The power-index calculator: bounds on the percentages -/

/-- The result of `computePowerIndexes` on a non-empty input. -/
theorem computePowerIndexes_ok_shape (blocks : List Int) (hb : ∀ b ∈ blocks, 0 ≤ b)
    (hne : blocks ≠ []) (r : List Int) (hr : computePowerIndexes blocks = .ok r) :
    0 < ((List.range blocks.length).map (criticalOfRef blocks)).sum ∧
    r = ((List.range blocks.length).map (criticalOfRef blocks)).map
      (fun c => (c * 100) / ((List.range blocks.length).map (criticalOfRef blocks)).sum) := by
  rw [computePowerIndexes_eq blocks hb] at hr
  have hT : 0 ≤ ((List.range blocks.length).map (criticalOfRef blocks)).sum := by
    apply List.sum_nonneg
    intro x hx
    obtain ⟨i, _, rfl⟩ := List.mem_map.mp hx
    exact criticalOfRef_nonneg blocks i
  by_cases h0 : ((List.range blocks.length).map (criticalOfRef blocks)).sum = 0
  · exfalso
    rw [h0] at hr
    obtain ⟨n, hn⟩ : ∃ n, blocks.length = n + 1 := by
      cases blocks with
      | nil => exact absurd rfl hne
      | cons a t => exact ⟨t.length, rfl⟩
    rw [hn, List.range_succ_eq_map, List.map_cons, percentLoop_zero] at hr
    cases hr
  · refine ⟨by omega, ?_⟩
    rw [percentLoop_eq _ h0] at hr
    rw [← Except.ok.inj hr]
    apply List.map_congr_left
    intro c hc
    obtain ⟨i, _, rfl⟩ := List.mem_map.mp hc
    have := criticalOfRef_nonneg blocks i
    exact Int.tdiv_eq_ediv (by omega) hT

/-- Truncated percentages of non-negative counts against a positive total lose less than one
unit each. -/
theorem percent_sum_bounds (T : Int) (hT : 0 < T) (cs : List Int) (hc : ∀ c ∈ cs, 0 ≤ c) :
    T * (cs.map (fun c => (c * 100) / T)).sum ≤ 100 * cs.sum ∧
    100 * cs.sum + cs.length ≤ T * (cs.map (fun c => (c * 100) / T)).sum + T * cs.length := by
  induction cs with
  | nil => simp
  | cons c rest ih =>
    obtain ⟨ih1, ih2⟩ := ih (fun x hx => hc x (List.mem_cons_of_mem _ hx))
    have h1 := Int.ediv_mul_le (c * 100) (by omega : T ≠ 0)
    have h2 := Int.lt_ediv_add_one_mul_self (c * 100) hT
    simp only [List.map_cons, List.sum_cons, List.length_cons, Nat.cast_add, Nat.cast_one]
    constructor
    · nlinarith
    · nlinarith

theorem percent_entry_bounds (T : Int) (hT : 0 < T) (c : Int) (h0 : 0 ≤ c) (hcT : c ≤ T) :
    0 ≤ (c * 100) / T ∧ (c * 100) / T ≤ 100 := by
  constructor
  · exact Int.ediv_nonneg (by omega) (by omega)
  · have : (c * 100) / T ≤ (T * 100) / T := Int.ediv_le_ediv hT (by nlinarith)
    rw [Int.mul_ediv_cancel_left _ (by omega : T ≠ 0)] at this
    exact this

/-- Bounds on the result of `computePowerIndexes` on a non-empty input. -/
theorem computePowerIndexes_bounds (blocks : List Int) (hb : ∀ b ∈ blocks, 0 ≤ b)
    (hne : blocks ≠ []) (r : List Int) (hr : computePowerIndexes blocks = .ok r) :
    (∀ x ∈ r, 0 ≤ x ∧ x ≤ 100) ∧ r.sum ≤ 100 ∧ 100 - (blocks.length : Int) < r.sum := by
  obtain ⟨hT, hrs⟩ := computePowerIndexes_ok_shape blocks hb hne r hr
  have hnn : ∀ c ∈ (List.range blocks.length).map (criticalOfRef blocks), 0 ≤ c := by
    intro x hx
    obtain ⟨i, _, rfl⟩ := List.mem_map.mp hx
    exact criticalOfRef_nonneg blocks i
  obtain ⟨s1, s2⟩ := percent_sum_bounds _ hT _ hnn
  rw [← hrs] at s1 s2
  simp only [List.length_map, List.length_range] at s2
  have hlen : 0 < (blocks.length : Int) := by
    have : blocks.length ≠ 0 := fun h0 => hne (List.length_eq_zero.mp h0)
    omega
  refine ⟨?_, ?_, ?_⟩
  · intro x hx
    rw [hrs] at hx
    obtain ⟨c, hc, rfl⟩ := List.mem_map.mp hx
    exact percent_entry_bounds _ hT c (hnn c hc) (List.single_le_sum hnn c hc)
  · by_contra hcon
    nlinarith
  · by_contra hcon
    nlinarith

/-! ## The power-index calculator: heavier blocks are critical at least as often -/

/-- The reference count over the multiset of the other blocks. -/
theorem criticalCountRef_eq_multiset (others : List Int) (b m : Int) :
    criticalCountRef others b m =
      ((Multiset.countP (fun S : Multiset Int => S.sum ≤ m ∧ S.sum + b > m)
        (Multiset.powerset (others : Multiset Int)) : Nat) : Int) := by
  unfold criticalCountRef
  rw [Multiset.powerset_coe', Multiset.coe_countP, List.countP_map]
  rfl

theorem countP_powerset_cons (x b m : Int) (R : Multiset Int) :
    Multiset.countP (fun S : Multiset Int => S.sum ≤ m ∧ S.sum + b > m)
        (Multiset.powerset (x ::ₘ R)) =
      Multiset.countP (fun S : Multiset Int => S.sum ≤ m ∧ S.sum + b > m) (Multiset.powerset R) +
      Multiset.countP (fun S : Multiset Int => x + S.sum ≤ m ∧ x + S.sum + b > m)
        (Multiset.powerset R) := by
  rw [Multiset.powerset_cons, Multiset.countP_add, Multiset.countP_map,
    ← Multiset.countP_eq_card_filter]
  simp only [Multiset.sum_cons]

theorem countP_le_of_imp (p q : Multiset Int → Prop) [DecidablePred p] [DecidablePred q]
    (s : Multiset (Multiset Int)) (hpq : ∀ S, p S → q S) :
    Multiset.countP p s ≤ Multiset.countP q s := by
  rw [Multiset.countP_eq_card_filter, Multiset.countP_eq_card_filter]
  exact Multiset.card_le_card (Multiset.monotone_filter_right s hpq)

theorem coe_eq_cons_eraseIdx (blocks : List Int) (i : Nat) (hi : i < blocks.length) :
    (blocks : Multiset Int) = blocks.getD i 0 ::ₘ ((blocks.eraseIdx i : List Int) : Multiset Int) := by
  rw [Multiset.cons_coe, Multiset.coe_eq_coe]
  have h1 := insertIdx_eraseIdx_getD blocks i hi
  have h2 := List.perm_insertIdx (blocks.getD i 0) (blocks.eraseIdx i)
    (by rw [List.length_eraseIdx, if_pos hi]; omega : i ≤ (blocks.eraseIdx i).length)
  rw [h1] at h2
  exact h2

/-- A block at least as heavy as another has at least as many critical sub-collections. -/
theorem criticalOfRef_mono (blocks : List Int) (i j : Nat) (hi : i < blocks.length)
    (hj : j < blocks.length) (hij : blocks.getD j 0 ≤ blocks.getD i 0) :
    criticalOfRef blocks j ≤ criticalOfRef blocks i := by
  unfold criticalOfRef
  rw [criticalCountRef_eq_multiset, criticalCountRef_eq_multiset]
  have hA := coe_eq_cons_eraseIdx blocks i hi
  have hB := coe_eq_cons_eraseIdx blocks j hj
  rw [hA] at hB
  generalize Int.fdiv blocks.sum 2 = m
  generalize blocks.getD i 0 = a at hij hB
  generalize blocks.getD j 0 = b at hij hB
  generalize ((blocks.eraseIdx i : List Int) : Multiset Int) = A at hB
  generalize ((blocks.eraseIdx j : List Int) : Multiset Int) = B at hB
  rcases Multiset.cons_eq_cons.mp hB with ⟨hab, hAB⟩ | ⟨_, R, hA1, hB1⟩
  · rw [hab, hAB]
  · rw [hA1, hB1, countP_powerset_cons, countP_powerset_cons]
    have h1 := countP_le_of_imp
      (fun S : Multiset Int => S.sum ≤ m ∧ S.sum + b > m)
      (fun S : Multiset Int => S.sum ≤ m ∧ S.sum + a > m) (Multiset.powerset R)
      (fun S hS => ⟨hS.1, by have := hS.2; omega⟩)
    have h2 := countP_le_of_imp
      (fun S : Multiset Int => a + S.sum ≤ m ∧ a + S.sum + b > m)
      (fun S : Multiset Int => b + S.sum ≤ m ∧ b + S.sum + a > m) (Multiset.powerset R)
      (fun S hS => ⟨by have := hS.1; omega, by have := hS.2; omega⟩)
    omega

theorem getD_range_map (f : Nat → Int) (n i : Nat) (hi : i < n) :
    ((List.range n).map f).getD i 0 = f i := by
  rw [List.getD_eq_getElem _ _ (by simpa using hi)]
  simp

/-- The percentages follow the order of the critical counts. -/
theorem computePowerIndexes_mono (blocks : List Int) (hb : ∀ b ∈ blocks, 0 ≤ b) (r : List Int)
    (hr : computePowerIndexes blocks = .ok r) (i j : Nat) (hi : i < blocks.length)
    (hj : j < blocks.length) (hij : criticalOfRef blocks j ≤ criticalOfRef blocks i) :
    r.getD j 0 ≤ r.getD i 0 := by
  have hne : blocks ≠ [] := by
    intro h0
    rw [h0] at hi
    simp at hi
  obtain ⟨hT, hrs⟩ := computePowerIndexes_ok_shape blocks hb hne r hr
  rw [hrs, List.map_map, getD_range_map _ _ i hi, getD_range_map _ _ j hj]
  simp only [Function.comp]
  exact Int.ediv_le_ediv hT (by omega)

/-! ## The power-index calculator: 32-bit `int`s suffice for at most 25 blocks -/

theorem foldl_norm_eq (norm : Int → Int) (hn : ∀ x, fits32 x → norm x = x) (l : List Int) :
    ∀ acc : Int, 0 ≤ acc → (∀ b ∈ l, 0 ≤ b) → acc + l.sum < 2147483648 →
      l.foldl (fun c b => norm (c + b)) acc = l.foldl (fun c b => c + b) acc := by
  induction l with
  | nil => intro acc _ _ _; rfl
  | cons b t ih =>
    intro acc h0 hb hs
    have hb0 : 0 ≤ b := hb b (List.mem_cons_self _ _)
    have ht : ∀ x ∈ t, 0 ≤ x := fun x hx => hb x (List.mem_cons_of_mem _ hx)
    have ht0 : 0 ≤ t.sum := List.sum_nonneg ht
    simp only [List.sum_cons] at hs
    simp only [List.foldl_cons]
    rw [hn (acc + b) ⟨by omega, by omega⟩]
    exact ih (acc + b) (by omega) ht (by omega)

theorem halfBlocksWith_eq (norm : Int → Int) (hn : ∀ x, fits32 x → norm x = x)
    (blocks : List Int) (hb : ∀ b ∈ blocks, 0 ≤ b) (hs : blocks.sum < 2147483648) :
    halfBlocksWith norm blocks = halfBlocks blocks := by
  unfold halfBlocksWith halfBlocks
  simp only
  rw [foldl_norm_eq norm hn blocks 0 (le_refl _) hb (by omega), ← List.sum_eq_foldl]
  have h0 : 0 ≤ blocks.sum := List.sum_nonneg hb
  apply hn
  rw [Int.tdiv_eq_ediv h0 (by omega)]
  exact ⟨by omega, by omega⟩

theorem countP_sublists_le (l : List Int) (p : List Int → Bool) (k : Nat) (hk : l.length ≤ k) :
    ((l.sublists'.countP p : Nat) : Int) ≤ 2 ^ k := by
  have h1 : l.sublists'.countP p ≤ 2 ^ l.length := by
    have := List.countP_le_length p (l := l.sublists')
    rw [List.length_sublists'] at this
    exact this
  have h2 : 2 ^ l.length ≤ 2 ^ k := Nat.pow_le_pow_right (by omega) hk
  have h3 : l.sublists'.countP p ≤ 2 ^ k := le_trans h1 h2
  exact_mod_cast h3

theorem computeCriticalFuelWith_eq (norm : Int → Int) (hn : ∀ x, fits32 x → norm x = x)
    (fuel : Nat) (blocks : List Int) (br majority : Int) (hb : ∀ b ∈ blocks, 0 ≤ b)
    (hbr : 0 ≤ br) (hlen : blocks.length ≤ 30) :
    ∀ (i : Nat) (sum : Int), i ≤ blocks.length → blocks.length < fuel + i → 0 ≤ sum →
      sum + (blocks.drop i).sum + br < 2147483648 →
      computeCriticalFuelWith norm fuel blocks br sum (i : Int) majority =
        computeCriticalFuel fuel blocks br sum (i : Int) majority := by
  induction fuel with
  | zero => intro i sum h1 h2; omega
  | succ fuel ih =>
    intro i sum h1 h2 h0 hs
    unfold computeCriticalFuelWith computeCriticalFuel
    have hd0 : 0 ≤ (blocks.drop i).sum :=
      List.sum_nonneg (fun b hb' => hb b (List.mem_of_mem_drop hb'))
    rw [hn ((blocks.length : Int) - 1) ⟨by omega, by omega⟩,
      hn (sum + br) ⟨by omega, by omega⟩]
    by_cases hsm : sum > majority
    · rw [if_pos hsm, if_pos hsm]
    · rw [if_neg hsm, if_neg hsm]
      by_cases hi : i = blocks.length
      · have hgt : (i : Int) > (blocks.length : Int) - 1 := by omega
        rw [if_pos hgt, if_pos hgt]
      · have hlt : i < blocks.length := by omega
        have hgt : ¬ ((i : Int) > (blocks.length : Int) - 1) := by omega
        rw [if_neg hgt, if_neg hgt]
        have hget : blocks.getD (i : Int).toNat 0 = blocks[i] := by
          rw [Int.toNat_ofNat]
          exact List.getD_eq_getElem _ _ hlt
        have hbi : 0 ≤ blocks[i] := hb _ (List.getElem_mem hlt)
        have hdrop : (blocks.drop i).sum = blocks[i] + (blocks.drop (i + 1)).sum := by
          rw [List.drop_eq_getElem_cons hlt, List.sum_cons]
        have hd1 : 0 ≤ (blocks.drop (i + 1)).sum :=
          List.sum_nonneg (fun b hb' => hb b (List.mem_of_mem_drop hb'))
        have hcast : (i : Int) + 1 = ((i + 1 : Nat) : Int) := by omega
        rw [hget, hn (sum + blocks[i]) ⟨by omega, by omega⟩,
          hn ((i : Int) + 1) ⟨by omega, by omega⟩, hcast,
          ih (i + 1) (sum + blocks[i]) (by omega) (by omega) (by omega) (by omega),
          ih (i + 1) sum (by omega) (by omega) h0 (by omega),
          computeCriticalFuel_eq fuel blocks br majority hb (i + 1) (sum + blocks[i]) (by omega)
            (by omega),
          computeCriticalFuel_eq fuel blocks br majority hb (i + 1) sum (by omega) (by omega)]
        simp only
        have hl29 : (blocks.drop (i + 1)).length ≤ 29 := by
          rw [List.length_drop]; omega
        have c1 := countP_sublists_le (blocks.drop (i + 1))
          (fun S => decide (sum + blocks[i] + S.sum ≤ majority ∧
            sum + blocks[i] + S.sum + br > majority)) 29 hl29
        have c2 := countP_sublists_le (blocks.drop (i + 1))
          (fun S => decide (sum + S.sum ≤ majority ∧ sum + S.sum + br > majority)) 29 hl29
        have e29 : (2 : Int) ^ 29 = 536870912 := by norm_num
        rw [e29] at c1 c2
        rw [hn _ ⟨by omega, by omega⟩]

theorem wrap32_of_fits (x : Int) (hx : fits32 x) : wrap32 x = x := by
  unfold wrap32
  obtain ⟨h1, h2⟩ := hx
  omega

theorem sum_eq_getD_add_eraseIdx (blocks : List Int) (i : Nat) (hi : i < blocks.length) :
    blocks.sum = blocks.getD i 0 + (blocks.eraseIdx i).sum := by
  have := congrArg Multiset.sum (coe_eq_cons_eraseIdx blocks i hi)
  rw [Multiset.sum_cons, Multiset.sum_coe, Multiset.sum_coe] at this
  exact this

theorem getD_nonneg (blocks : List Int) (hb : ∀ b ∈ blocks, 0 ≤ b) (i : Nat) :
    0 ≤ blocks.getD i 0 := by
  rw [List.getD_eq_getElem?_getD]
  cases h : blocks[i]? with
  | none => exact le_refl _
  | some v => exact hb v (List.getElem?_mem h)

theorem computeCriticalWith_eq (norm : Int → Int) (hn : ∀ x, fits32 x → norm x = x)
    (blocks : List Int) (hb : ∀ b ∈ blocks, 0 ≤ b) (hlen : blocks.length ≤ 31)
    (hs : blocks.sum < 2147483648) (i : Nat) (hi : i < blocks.length) (majority : Int) :
    computeCriticalWith norm (blocks.eraseIdx i) (blocks.getD i 0) 0 0 majority =
      computeCritical (blocks.eraseIdx i) (blocks.getD i 0) 0 0 majority := by
  unfold computeCriticalWith computeCritical
  have hsum := sum_eq_getD_add_eraseIdx blocks i hi
  have hl : (blocks.eraseIdx i).length = blocks.length - 1 := by
    rw [List.length_eraseIdx, if_pos hi]
  have := computeCriticalFuelWith_eq norm hn ((blocks.eraseIdx i).length + 1) (blocks.eraseIdx i)
    (blocks.getD i 0) majority (mem_eraseIdx_nonneg blocks i hb) (getD_nonneg blocks hb i)
    (by omega) 0 0 (Nat.zero_le _) (by omega) (le_refl _)
    (by rw [List.drop_zero]; omega)
  simpa using this

theorem criticalLoopWith_eq (norm : Int → Int) (hn : ∀ x, fits32 x → norm x = x)
    (majority : Int) (blocks : List Int) (hb : ∀ b ∈ blocks, 0 ≤ b) (hlen : blocks.length ≤ 31)
    (hs : blocks.sum < 2147483648) (fuel : Nat) :
    ∀ (i : Nat) (result : List Int),
      criticalLoopWith norm majority fuel i blocks result =
        criticalLoop majority fuel i blocks result := by
  induction fuel with
  | zero => intro i result; rfl
  | succ fuel ih =>
    intro i result
    unfold criticalLoopWith criticalLoop
    by_cases hi : i < blocks.length
    · rw [if_pos hi, if_pos hi]
      simp only
      rw [computeCriticalWith_eq norm hn blocks hb hlen hs i hi majority]
      cases computeCritical (blocks.eraseIdx i) (blocks.getD i 0) 0 0 majority with
      | error e => rfl
      | ok c =>
        simp only
        rw [insertIdx_eraseIdx_getD blocks i hi]
        exact ih (i + 1) (result ++ [c])
    · rw [if_neg hi, if_neg hi]

theorem percentLoopWith_eq (norm : Int → Int) (hn : ∀ x, fits32 x → norm x = x) (total : Int)
    (ht : 0 ≤ total) (result : List Int) (hr : ∀ c ∈ result, 0 ≤ c ∧ c ≤ 16777216) :
    percentLoopWith norm total result = percentLoop total result := by
  induction result with
  | nil => rfl
  | cons c rest ih =>
    unfold percentLoopWith percentLoop
    by_cases h0 : total = 0
    · rw [if_pos h0, if_pos h0]
    · rw [if_neg h0, if_neg h0, ih (fun x hx => hr x (List.mem_cons_of_mem _ hx))]
      obtain ⟨c0, c1⟩ := hr c (List.mem_cons_self _ _)
      have hq0 : 0 ≤ (c * 100) / total := Int.ediv_nonneg (by omega) ht
      have hq1 : (c * 100) / total ≤ c * 100 := Int.ediv_le_self _ (by omega)
      rw [hn (c * 100) ⟨by omega, by omega⟩,
        hn ((c * 100).tdiv total)
          (by rw [Int.tdiv_eq_ediv (by omega) ht]; exact ⟨by omega, by omega⟩)]

theorem take_sum_bounds (blocks : List Int) (hb : ∀ b ∈ blocks, 0 ≤ b) (k : Nat) :
    0 ≤ (blocks.take k).sum ∧ (blocks.take k).sum ≤ blocks.sum := by
  have h1 : 0 ≤ (blocks.take k).sum :=
    List.sum_nonneg (fun b hb' => hb b (List.mem_of_mem_take hb'))
  have h2 : 0 ≤ (blocks.drop k).sum :=
    List.sum_nonneg (fun b hb' => hb b (List.mem_of_mem_drop hb'))
  have h3 : (blocks.take k).sum + (blocks.drop k).sum = blocks.sum := by
    rw [← List.sum_append, List.take_append_drop]
  exact ⟨h1, by omega⟩

theorem criticalOfRef_le_pow (blocks : List Int) (i : Nat) (hi : i < blocks.length) :
    criticalOfRef blocks i ≤ 2 ^ (blocks.length - 1) := by
  unfold criticalOfRef criticalCountRef
  exact countP_sublists_le _ _ _ (by rw [List.length_eraseIdx, if_pos hi])

theorem pow_pred_le (n : Nat) (hn : n ≤ 25) : (2 : Int) ^ (n - 1) ≤ 16777216 := by
  have h : (2 : Int) ^ (n - 1) ≤ 2 ^ 24 :=
    pow_le_pow_right₀ (by norm_num) (by omega)
  have e : (2 : Int) ^ 24 = 16777216 := by norm_num
  rw [e] at h
  exact h

/-- The critical counts of at most 25 blocks and their total. -/
theorem critical_counts_bounds (blocks : List Int) (hlen : blocks.length ≤ 25) :
    (∀ c ∈ (List.range blocks.length).map (criticalOfRef blocks),
      0 ≤ c ∧ c ≤ 2 ^ (blocks.length - 1) ∧ c ≤ 16777216) ∧
    0 ≤ ((List.range blocks.length).map (criticalOfRef blocks)).sum ∧
    ((List.range blocks.length).map (criticalOfRef blocks)).sum ≤
      (blocks.length : Int) * 2 ^ (blocks.length - 1) ∧
    ((List.range blocks.length).map (criticalOfRef blocks)).sum ≤ 419430400 := by
  have hc : ∀ c ∈ (List.range blocks.length).map (criticalOfRef blocks),
      0 ≤ c ∧ c ≤ 2 ^ (blocks.length - 1) ∧ c ≤ 16777216 := by
    intro c hc
    obtain ⟨i, hi, rfl⟩ := List.mem_map.mp hc
    rw [List.mem_range] at hi
    have h1 := criticalOfRef_le_pow blocks i hi
    exact ⟨criticalOfRef_nonneg blocks i, h1, le_trans h1 (pow_pred_le _ hlen)⟩
  have hsum := List.sum_le_card_nsmul ((List.range blocks.length).map (criticalOfRef blocks))
    ((2 : Int) ^ (blocks.length - 1)) (fun c hc' => (hc c hc').2.1)
  simp only [List.length_map, List.length_range, nsmul_eq_mul] at hsum
  have hp := pow_pred_le _ hlen
  have hp0 : (0 : Int) ≤ 2 ^ (blocks.length - 1) := by positivity
  refine ⟨hc, List.sum_nonneg (fun c hc' => (hc c hc').1), hsum, ?_⟩
  have hl : (blocks.length : Int) ≤ 25 := by exact_mod_cast hlen
  nlinarith

theorem computePowerIndexesWith_eq (norm : Int → Int) (hn : ∀ x, fits32 x → norm x = x)
    (blocks : List Int) (hb : ∀ b ∈ blocks, 0 ≤ b) (hlen : blocks.length ≤ 25)
    (hs : blocks.sum < 2147483648) :
    computePowerIndexesWith norm blocks = computePowerIndexes blocks := by
  unfold computePowerIndexesWith computePowerIndexes
  simp only
  rw [halfBlocksWith_eq norm hn blocks hb hs,
    criticalLoopWith_eq norm hn _ blocks hb (by omega) hs,
    criticalLoop_eq _ blocks hb (blocks.length + 1) 0 [] (Nat.zero_le _) (by omega)]
  simp only [halfBlocks_eq blocks hb, List.nil_append, Nat.sub_zero, ← List.range_eq_range']
  obtain ⟨hc, hs0, _, hs1⟩ := critical_counts_bounds blocks hlen
  have e1 : (List.map (fun j => criticalCountRef (blocks.eraseIdx j) (blocks.getD j 0)
      (blocks.sum.fdiv 2)) (List.range blocks.length)) =
      (List.range blocks.length).map (criticalOfRef blocks) := rfl
  rw [e1, foldl_norm_eq norm hn _ 0 (le_refl _) (fun c hc' => (hc c hc').1) (by omega),
    ← List.sum_eq_foldl]
  exact percentLoopWith_eq norm hn _ hs0 _ (fun c hc' => ⟨(hc c hc').1, (hc c hc').2.2⟩)


/-! ## The power-index calculator on 32-bit `int`s: the first loop over given counts -/

/-- The first loop of `computePowerIndexes` over `norm`, when the call of `computeCritical`
for position `k` returns `f k`: the blocks are restored and the counts are appended in
order. -/
theorem criticalLoopWith_spec (norm : Int → Int) (majority : Int) (blocks : List Int)
    (f : Nat → Int)
    (hf : ∀ k : Nat, k < blocks.length →
      computeCriticalWith norm (blocks.eraseIdx k) (blocks.getD k 0) 0 0 majority = .ok (f k))
    (fuel : Nat) :
    ∀ (i : Nat) (result : List Int), i ≤ blocks.length → blocks.length < fuel + i →
      criticalLoopWith norm majority fuel i blocks result =
        .ok (blocks, result ++ (List.range' i (blocks.length - i)).map f) := by
  induction fuel with
  | zero => intro i result h1 h2; omega
  | succ fuel ih =>
    intro i result h1 h2
    unfold criticalLoopWith
    by_cases hi : i < blocks.length
    · rw [if_pos hi]
      simp only
      rw [hf i hi]
      simp only
      rw [insertIdx_eraseIdx_getD blocks i hi, ih (i + 1) _ (by omega) (by omega)]
      have e : blocks.length - i = (blocks.length - (i + 1)) + 1 := by omega
      rw [e, List.range'_succ]
      simp
    · rw [if_neg hi]
      have e : blocks.length - i = 0 := by omega
      rw [e]
      simp

/-- The function `computePowerIndexes` over `norm`, unfolded into its second and third loop
over the counts `f k` that `computeCritical` returns. -/
theorem computePowerIndexesWith_of_counts (norm : Int → Int) (blocks : List Int) (f : Nat → Int)
    (hf : ∀ k : Nat, k < blocks.length →
      computeCriticalWith norm (blocks.eraseIdx k) (blocks.getD k 0) 0 0
        (halfBlocksWith norm blocks) = .ok (f k)) :
    computePowerIndexesWith norm blocks =
      percentLoopWith norm
        (((List.range blocks.length).map f).foldl (fun total c => norm (total + c)) 0)
        ((List.range blocks.length).map f) := by
  unfold computePowerIndexesWith
  simp only
  rw [criticalLoopWith_spec norm _ blocks f hf (blocks.length + 1) 0 [] (Nat.zero_le _)
    (by omega)]
  simp only [List.nil_append, Nat.sub_zero, ← List.range_eq_range']

/-! ## The power-index calculator on 32-bit `int`s: at most 25 blocks of any weight -/

/-- Whatever the weights of at most 30 blocks, the recursion of `computeCritical` returns,
and what it returns from position `i` lies between 0 and `2 ^ (size - i)`. -/
theorem computeCriticalFuelWith_bounds (norm : Int → Int) (hn : ∀ x, fits32 x → norm x = x)
    (fuel : Nat) (blocks : List Int) (br majority : Int) (hlen : blocks.length ≤ 30) :
    ∀ (i : Nat) (sum : Int), i ≤ blocks.length → blocks.length < fuel + i →
      ∃ v : Int, computeCriticalFuelWith norm fuel blocks br sum (i : Int) majority = .ok v ∧
        0 ≤ v ∧ v ≤ 2 ^ (blocks.length - i) := by
  induction fuel with
  | zero => intro i sum h1 h2; omega
  | succ fuel ih =>
    intro i sum h1 h2
    unfold computeCriticalFuelWith
    rw [hn ((blocks.length : Int) - 1) ⟨by omega, by omega⟩]
    by_cases hsm : sum > majority
    · rw [if_pos hsm]
      exact ⟨0, rfl, le_refl _, by positivity⟩
    · rw [if_neg hsm]
      by_cases hi : i = blocks.length
      · have hgt : (i : Int) > (blocks.length : Int) - 1 := by omega
        rw [if_pos hgt]
        have e : blocks.length - i = 0 := by omega
        rw [e]
        by_cases hc : norm (sum + br) > majority
        · rw [if_pos hc]
          exact ⟨1, rfl, by omega, by norm_num⟩
        · rw [if_neg hc]
          exact ⟨0, rfl, le_refl _, by norm_num⟩
      · have hgt : ¬ ((i : Int) > (blocks.length : Int) - 1) := by omega
        rw [if_neg hgt]
        have hcast : (i : Int) + 1 = ((i + 1 : Nat) : Int) := by omega
        rw [hn ((i : Int) + 1) ⟨by omega, by omega⟩, hcast]
        obtain ⟨w, hw, w0, w1⟩ := ih (i + 1) (norm (sum + blocks.getD (i : Int).toNat 0))
          (by omega) (by omega)
        obtain ⟨wo, hwo, wo0, wo1⟩ := ih (i + 1) sum (by omega) (by omega)
        rw [hw, hwo]
        simp only
        have e : blocks.length - i = (blocks.length - (i + 1)) + 1 := by omega
        have hp : (2 : Int) ^ (blocks.length - (i + 1)) ≤ 2 ^ 29 :=
          pow_le_pow_right₀ (by norm_num) (by omega)
        have e29 : (2 : Int) ^ 29 = 536870912 := by norm_num
        rw [e29] at hp
        rw [hn (w + wo) ⟨by omega, by omega⟩]
        refine ⟨w + wo, rfl, by omega, ?_⟩
        rw [e, pow_succ]
        omega

/-- Whatever the weights of at most 25 blocks, every call of `computeCritical` made by
`computePowerIndexes` returns a count between 0 and `2^24`. -/
theorem computeCriticalWith_bounds (norm : Int → Int) (hn : ∀ x, fits32 x → norm x = x)
    (blocks : List Int) (hlen : blocks.length ≤ 25) (majority : Int) (k : Nat)
    (hk : k < blocks.length) :
    ∃ v : Int, computeCriticalWith norm (blocks.eraseIdx k) (blocks.getD k 0) 0 0 majority
      = .ok v ∧ 0 ≤ v ∧ v ≤ 16777216 := by
  have hl : (blocks.eraseIdx k).length = blocks.length - 1 := by
    rw [List.length_eraseIdx, if_pos hk]
  obtain ⟨v, hv, v0, v1⟩ := computeCriticalFuelWith_bounds norm hn
    ((blocks.eraseIdx k).length + 1) (blocks.eraseIdx k) (blocks.getD k 0) majority
    (by omega) 0 0 (Nat.zero_le _) (by omega)
  refine ⟨v, ?_, v0, ?_⟩
  · unfold computeCriticalWith
    simpa using hv
  · have hp : (2 : Int) ^ ((blocks.eraseIdx k).length - 0) ≤ 2 ^ 24 :=
      pow_le_pow_right₀ (by norm_num) (by omega)
    have e24 : (2 : Int) ^ 24 = 16777216 := by norm_num
    rw [e24] at hp
    exact le_trans v1 hp

/-- The third loop on exact integers, run on non-negative counts and their sum: every
percentage is between 0 and 100, they sum to at most 100, and to more than 100 minus their
number when there is at least one. -/
theorem percentLoop_bounds (cs : List Int) (hc : ∀ c ∈ cs, 0 ≤ c) (r : List Int)
    (hr : percentLoop cs.sum cs = .ok r) :
    (∀ x ∈ r, 0 ≤ x ∧ x ≤ 100) ∧ r.sum ≤ 100 ∧ (cs ≠ [] → 100 - (cs.length : Int) < r.sum) := by
  have hT : 0 ≤ cs.sum := List.sum_nonneg hc
  cases cs with
  | nil =>
    have hr1 : r = [] := by
      simp only [percentLoop] at hr
      exact (Except.ok.inj hr).symm
    subst hr1
    exact ⟨fun x hx => by simp at hx, by decide, fun h => absurd rfl h⟩
  | cons c rest =>
    by_cases h0 : (c :: rest).sum = 0
    · rw [h0, percentLoop_zero] at hr
      cases hr
    · have hT1 : 0 < (c :: rest).sum := by omega
      rw [percentLoop_eq _ h0] at hr
      have hrs : r = (c :: rest).map (fun x => (x * 100) / (c :: rest).sum) := by
        rw [← Except.ok.inj hr]
        apply List.map_congr_left
        intro x hx
        have := hc x hx
        exact Int.tdiv_eq_ediv (by omega) hT
      obtain ⟨s1, s2⟩ := percent_sum_bounds _ hT1 _ hc
      rw [← hrs] at s1 s2
      have hlen : 0 < (((c :: rest).length : Nat) : Int) := by
        simp only [List.length_cons]
        omega
      refine ⟨?_, ?_, ?_⟩
      · intro x hx
        rw [hrs] at hx
        obtain ⟨y, hy, rfl⟩ := List.mem_map.mp hx
        exact percent_entry_bounds _ hT1 y (hc y hy) (List.single_le_sum hc y hy)
      · by_contra hcon
        nlinarith
      · intro _
        by_contra hcon
        nlinarith

/-- Whatever the weights of at most 25 blocks, the percentages `computePowerIndexes` returns
on 32-bit `int`s are the truncated percentages of non-negative counts. -/
theorem computePowerIndexesWith_bounds (norm : Int → Int) (hn : ∀ x, fits32 x → norm x = x)
    (blocks : List Int) (hlen : blocks.length ≤ 25) (r : List Int)
    (hr : computePowerIndexesWith norm blocks = .ok r) :
    (∀ x ∈ r, 0 ≤ x ∧ x ≤ 100) ∧ r.sum ≤ 100 ∧
    (blocks ≠ [] → 100 - (blocks.length : Int) < r.sum) := by
  have hex := computeCriticalWith_bounds norm hn blocks hlen (halfBlocksWith norm blocks)
  let f : Nat → Int := fun k =>
    match computeCriticalWith norm (blocks.eraseIdx k) (blocks.getD k 0) 0 0
      (halfBlocksWith norm blocks) with
    | .ok v => v
    | .error _ => 0
  have hf : ∀ k : Nat, k < blocks.length →
      computeCriticalWith norm (blocks.eraseIdx k) (blocks.getD k 0) 0 0
        (halfBlocksWith norm blocks) = .ok (f k) ∧ 0 ≤ f k ∧ f k ≤ 16777216 := by
    intro k hk
    obtain ⟨v, hv, v0, v1⟩ := hex k hk
    have e : f k = v := by
      show (match computeCriticalWith norm (blocks.eraseIdx k) (blocks.getD k 0) 0 0
        (halfBlocksWith norm blocks) with
        | .ok v => v
        | .error _ => 0) = v
      rw [hv]
    rw [e]
    exact ⟨hv, v0, v1⟩
  have hc : ∀ c ∈ (List.range blocks.length).map f, 0 ≤ c ∧ c ≤ 16777216 := by
    intro c hc
    obtain ⟨k, hk, rfl⟩ := List.mem_map.mp hc
    rw [List.mem_range] at hk
    exact (hf k hk).2
  have hsum := List.sum_le_card_nsmul ((List.range blocks.length).map f) 16777216
    (fun c hc' => (hc c hc').2)
  simp only [List.length_map, List.length_range, nsmul_eq_mul] at hsum
  have hl : (blocks.length : Int) ≤ 25 := by exact_mod_cast hlen
  have hT0 : 0 ≤ ((List.range blocks.length).map f).sum :=
    List.sum_nonneg (fun c hc' => (hc c hc').1)
  rw [computePowerIndexesWith_of_counts norm blocks f (fun k hk => (hf k hk).1),
    foldl_norm_eq norm hn _ 0 (le_refl _) (fun c hc' => (hc c hc').1) (by omega),
    ← List.sum_eq_foldl, percentLoopWith_eq norm hn _ hT0 _ hc] at hr
  obtain ⟨b1, b2, b3⟩ := percentLoop_bounds _ (fun c hc' => (hc c hc').1) r hr
  refine ⟨b1, b2, ?_⟩
  intro hne
  have hne1 : (List.range blocks.length).map f ≠ [] := by
    intro h0
    have := congrArg List.length h0
    simp only [List.length_map, List.length_range, List.length_nil] at this
    exact hne (List.length_eq_zero.mp this)
  have := b3 hne1
  simpa using this

/-! ## The power-index calculator on 32-bit `int`s: exact while the sums and counts fit -/

/-- The sub-collections counted from position `i` are those counted from position `i + 1`
with and without block `i`. -/
theorem countP_drop_split (blocks : List Int) (br sum majority : Int) (i : Nat)
    (hlt : i < blocks.length) :
    (blocks.drop i).sublists'.countP
        (fun S => decide (sum + S.sum ≤ majority ∧ sum + S.sum + br > majority)) =
      (blocks.drop (i + 1)).sublists'.countP
        (fun S => decide (sum + blocks[i] + S.sum ≤ majority ∧
          sum + blocks[i] + S.sum + br > majority)) +
      (blocks.drop (i + 1)).sublists'.countP
        (fun S => decide (sum + S.sum ≤ majority ∧ sum + S.sum + br > majority)) := by
  rw [List.drop_eq_getElem_cons hlt, List.sublists'_cons, List.countP_append, List.countP_map]
  have hfun : ((fun S : List Int =>
        decide (sum + S.sum ≤ majority ∧ sum + S.sum + br > majority)) ∘ List.cons blocks[i]) =
      (fun S : List Int =>
        decide (sum + blocks[i] + S.sum ≤ majority ∧ sum + blocks[i] + S.sum + br > majority)) := by
    funext S
    simp only [Function.comp, List.sum_cons, add_assoc]
  rw [hfun]
  exact Nat.add_comm _ _

/-- On non-negative blocks whose running sums fit 32 bits, the recursion of `computeCritical`
on machine `int`s is the exact recursion as long as the count it returns fits 32 bits. -/
theorem computeCriticalFuelWith_eq_of_count (norm : Int → Int)
    (hn : ∀ x, fits32 x → norm x = x) (fuel : Nat) (blocks : List Int) (br majority : Int)
    (hb : ∀ b ∈ blocks, 0 ≤ b) (hbr : 0 ≤ br) (hlen : blocks.length < 2147483648) :
    ∀ (i : Nat) (sum : Int), i ≤ blocks.length → blocks.length < fuel + i → 0 ≤ sum →
      sum + (blocks.drop i).sum + br < 2147483648 →
      (((blocks.drop i).sublists'.countP
        (fun S => decide (sum + S.sum ≤ majority ∧ sum + S.sum + br > majority)) : Nat) : Int)
        < 2147483648 →
      computeCriticalFuelWith norm fuel blocks br sum (i : Int) majority =
        computeCriticalFuel fuel blocks br sum (i : Int) majority := by
  induction fuel with
  | zero => intro i sum h1 h2; omega
  | succ fuel ih =>
    intro i sum h1 h2 h0 hs hcount
    unfold computeCriticalFuelWith computeCriticalFuel
    have hd0 : 0 ≤ (blocks.drop i).sum :=
      List.sum_nonneg (fun b hb' => hb b (List.mem_of_mem_drop hb'))
    rw [hn ((blocks.length : Int) - 1) ⟨by omega, by omega⟩,
      hn (sum + br) ⟨by omega, by omega⟩]
    by_cases hsm : sum > majority
    · rw [if_pos hsm, if_pos hsm]
    · rw [if_neg hsm, if_neg hsm]
      by_cases hi : i = blocks.length
      · have hgt : (i : Int) > (blocks.length : Int) - 1 := by omega
        rw [if_pos hgt, if_pos hgt]
      · have hlt : i < blocks.length := by omega
        have hgt : ¬ ((i : Int) > (blocks.length : Int) - 1) := by omega
        rw [if_neg hgt, if_neg hgt]
        have hget : blocks.getD (i : Int).toNat 0 = blocks[i] := by
          rw [Int.toNat_ofNat]
          exact List.getD_eq_getElem _ _ hlt
        have hbi : 0 ≤ blocks[i] := hb _ (List.getElem_mem hlt)
        have hdrop : (blocks.drop i).sum = blocks[i] + (blocks.drop (i + 1)).sum := by
          rw [List.drop_eq_getElem_cons hlt, List.sum_cons]
        have hd1 : 0 ≤ (blocks.drop (i + 1)).sum :=
          List.sum_nonneg (fun b hb' => hb b (List.mem_of_mem_drop hb'))
        have hcast : (i : Int) + 1 = ((i + 1 : Nat) : Int) := by omega
        have hsplit := countP_drop_split blocks br sum majority i hlt
        rw [hsplit] at hcount
        rw [hget, hn (sum + blocks[i]) ⟨by omega, by omega⟩,
          hn ((i : Int) + 1) ⟨by omega, by omega⟩, hcast,
          ih (i + 1) (sum + blocks[i]) (by omega) (by omega) (by omega) (by omega) (by omega),
          ih (i + 1) sum (by omega) (by omega) h0 (by omega) (by omega),
          computeCriticalFuel_eq fuel blocks br majority hb (i + 1) (sum + blocks[i]) (by omega)
            (by omega),
          computeCriticalFuel_eq fuel blocks br majority hb (i + 1) sum (by omega) (by omega)]
        simp only
        rw [hn _ ⟨by omega, by omega⟩]

/-- On non-negative blocks of sum below `2^31`, the call of `computeCritical` for position `k`
on machine `int`s returns the reference count as long as that count fits 32 bits. -/
theorem computeCriticalWith_ref (norm : Int → Int) (hn : ∀ x, fits32 x → norm x = x)
    (blocks : List Int) (hb : ∀ b ∈ blocks, 0 ≤ b) (hlen : blocks.length < 2147483648)
    (hs : blocks.sum < 2147483648) (k : Nat) (hk : k < blocks.length)
    (hc : criticalOfRef blocks k < 2147483648) :
    computeCriticalWith norm (blocks.eraseIdx k) (blocks.getD k 0) 0 0
      (halfBlocksWith norm blocks) = .ok (criticalOfRef blocks k) := by
  have hsum := sum_eq_getD_add_eraseIdx blocks k hk
  have hl : (blocks.eraseIdx k).length = blocks.length - 1 := by
    rw [List.length_eraseIdx, if_pos hk]
  rw [halfBlocksWith_eq norm hn blocks hb hs, halfBlocks_eq blocks hb]
  have h1 := computeCriticalFuelWith_eq_of_count norm hn ((blocks.eraseIdx k).length + 1)
    (blocks.eraseIdx k) (blocks.getD k 0) (Int.fdiv blocks.sum 2)
    (mem_eraseIdx_nonneg blocks k hb) (getD_nonneg blocks hb k) (by omega) 0 0 (Nat.zero_le _)
    (by omega) (le_refl _) (by rw [List.drop_zero]; omega)
    (by
      simp only [List.drop_zero, zero_add]
      exact hc)
  have h2 := computeCritical_eq (blocks.eraseIdx k) (blocks.getD k 0) (Int.fdiv blocks.sum 2)
    (mem_eraseIdx_nonneg blocks k hb)
  unfold computeCriticalWith
  unfold computeCritical at h2
  simp only [Nat.cast_zero] at h1
  rw [h1]
  exact h2

/-- The critical counts are non-negative, so each is at most their total. -/
theorem criticalOfRef_le_total (blocks : List Int) (k : Nat) (hk : k < blocks.length) :
    criticalOfRef blocks k ≤ ((List.range blocks.length).map (criticalOfRef blocks)).sum := by
  apply List.single_le_sum
  · intro x hx
    obtain ⟨i, _, rfl⟩ := List.mem_map.mp hx
    exact criticalOfRef_nonneg blocks i
  · exact List.mem_map.mpr ⟨k, List.mem_range.mpr hk, rfl⟩

/-- On non-negative blocks whose sum and whose total of critical counts fit 32 bits, the
first two loops of `computePowerIndexes` on machine `int`s compute the reference counts and
their total, which the third loop then divides by. -/
theorem computePowerIndexesWith_counts (norm : Int → Int) (hn : ∀ x, fits32 x → norm x = x)
    (blocks : List Int) (hb : ∀ b ∈ blocks, 0 ≤ b) (hlen : blocks.length < 2147483648)
    (hs : blocks.sum < 2147483648)
    (hT : ((List.range blocks.length).map (criticalOfRef blocks)).sum < 2147483648) :
    computePowerIndexesWith norm blocks =
      percentLoopWith norm ((List.range blocks.length).map (criticalOfRef blocks)).sum
        ((List.range blocks.length).map (criticalOfRef blocks)) := by
  rw [computePowerIndexesWith_of_counts norm blocks (criticalOfRef blocks)
    (fun k hk => computeCriticalWith_ref norm hn blocks hb hlen hs k hk
      (lt_of_le_of_lt (criticalOfRef_le_total blocks k hk) hT)),
    foldl_norm_eq norm hn _ 0 (le_refl _)
      (fun c hc => by
        obtain ⟨i, _, rfl⟩ := List.mem_map.mp hc
        exact criticalOfRef_nonneg blocks i)
      (by omega),
    ← List.sum_eq_foldl]

/-- The third loop on machine `int`s returns one entry per count when the total is not 0. -/
theorem percentLoopWith_ok (norm : Int → Int) (total : Int) (ht : total ≠ 0) (cs : List Int) :
    percentLoopWith norm total cs =
      .ok (cs.map (fun c => norm ((norm (c * 100)).tdiv total))) := by
  induction cs with
  | nil => rfl
  | cons c rest ih =>
    unfold percentLoopWith
    rw [if_neg ht, ih]
    rfl

/-- The third loop on machine `int`s is the exact third loop while the products
`criticalVote * 100` fit 32 bits. -/
theorem percentLoopWith_eq_of_products (norm : Int → Int) (hn : ∀ x, fits32 x → norm x = x)
    (total : Int) (ht : 0 ≤ total) (result : List Int)
    (hr : ∀ c ∈ result, 0 ≤ c ∧ c * 100 < 2147483648) :
    percentLoopWith norm total result = percentLoop total result := by
  induction result with
  | nil => rfl
  | cons c rest ih =>
    unfold percentLoopWith percentLoop
    by_cases h0 : total = 0
    · rw [if_pos h0, if_pos h0]
    · rw [if_neg h0, if_neg h0, ih (fun x hx => hr x (List.mem_cons_of_mem _ hx))]
      obtain ⟨c0, c1⟩ := hr c (List.mem_cons_self _ _)
      have hq0 : 0 ≤ (c * 100) / total := Int.ediv_nonneg (by omega) ht
      have hq1 : (c * 100) / total ≤ c * 100 := Int.ediv_le_self _ (by omega)
      rw [hn (c * 100) ⟨by omega, by omega⟩,
        hn ((c * 100).tdiv total)
          (by rw [Int.tdiv_eq_ediv (by omega) ht]; exact ⟨by omega, by omega⟩)]

/-- On non-negative blocks for which the sum, the total of the critical counts and every
product `count * 100` fit 32 bits, `computePowerIndexes` on machine `int`s returns what exact
arithmetic returns. -/
theorem computePowerIndexesWith_eq_of_range (norm : Int → Int)
    (hn : ∀ x, fits32 x → norm x = x) (blocks : List Int) (hb : ∀ b ∈ blocks, 0 ≤ b)
    (hlen : blocks.length < 2147483648) (hs : blocks.sum < 2147483648)
    (hT : ((List.range blocks.length).map (criticalOfRef blocks)).sum < 2147483648)
    (hp : ∀ k : Nat, k < blocks.length → criticalOfRef blocks k * 100 < 2147483648) :
    computePowerIndexesWith norm blocks = computePowerIndexes blocks := by
  rw [computePowerIndexesWith_counts norm hn blocks hb hlen hs hT,
    computePowerIndexes_eq blocks hb]
  apply percentLoopWith_eq_of_products norm hn
  · apply List.sum_nonneg
    intro x hx
    obtain ⟨i, _, rfl⟩ := List.mem_map.mp hx
    exact criticalOfRef_nonneg blocks i
  · intro c hc
    obtain ⟨i, hi, rfl⟩ := List.mem_map.mp hc
    exact ⟨criticalOfRef_nonneg blocks i, hp i (List.mem_range.mp hi)⟩

/-! ## The power-index calculator on 32-bit `int`s: one block of weight 1 among blocks of weight 0 -/

theorem wrap32_fits (x : Int) : fits32 (wrap32 x) := by
  unfold wrap32 fits32
  omega

theorem wrap32_add_wrap32 (x y : Int) : wrap32 (wrap32 x + wrap32 y) = wrap32 (x + y) := by
  unfold wrap32
  omega

theorem getD_replicate_zero (n k : Nat) : (List.replicate n (0 : Int)).getD k 0 = 0 := by
  rw [List.getD_eq_getElem?_getD]
  cases h : (List.replicate n (0 : Int))[k]? with
  | none => rfl
  | some v => exact List.eq_of_mem_replicate (List.getElem?_mem h)

/-- Against blocks of weight 0 and majority 0, the recursion of `computeCritical` for a
removed block of weight 1 never stops early: from position `i` it returns `2 ^ (n - i)`
wrapped into 32 bits. -/
theorem computeCriticalFuelWith_zeros (fuel n : Nat) (hn : n < 2147483648) :
    ∀ i : Nat, i ≤ n → n < fuel + i →
      computeCriticalFuelWith wrap32 fuel (List.replicate n 0) 1 0 (i : Int) 0 =
        .ok (wrap32 (2 ^ (n - i))) := by
  induction fuel with
  | zero => intro i h1 h2; omega
  | succ fuel ih =>
    intro i h1 h2
    unfold computeCriticalFuelWith
    rw [if_neg (by decide), List.length_replicate,
      wrap32_of_fits ((n : Int) - 1) ⟨by omega, by omega⟩]
    by_cases hi : i = n
    · have hgt : (i : Int) > (n : Int) - 1 := by omega
      have e : n - i = 0 := by omega
      rw [if_pos hgt, e]
      rfl
    · have hgt : ¬ ((i : Int) > (n : Int) - 1) := by omega
      have hcast : (i : Int) + 1 = ((i + 1 : Nat) : Int) := by omega
      have e : n - i = (n - (i + 1)) + 1 := by omega
      have h00 : wrap32 (0 + 0) = 0 := by decide
      rw [if_neg hgt, getD_replicate_zero, h00,
        wrap32_of_fits ((i : Int) + 1) ⟨by omega, by omega⟩, hcast,
        ih (i + 1) (by omega) (by omega)]
      simp only
      rw [wrap32_add_wrap32, e, pow_succ]
      congr 2
      ring

/-- For a removed block of weight 0 the recursion of `computeCritical` returns 0, whatever
the other blocks. -/
theorem computeCriticalFuelWith_zero_block (fuel : Nat) (blocks : List Int) (majority : Int)
    (hlen : blocks.length < 2147483648) :
    ∀ (i : Nat) (sum : Int), fits32 sum → i ≤ blocks.length → blocks.length < fuel + i →
      computeCriticalFuelWith wrap32 fuel blocks 0 sum (i : Int) majority = .ok 0 := by
  induction fuel with
  | zero => intro i sum _ h1 h2; omega
  | succ fuel ih =>
    intro i sum hs h1 h2
    unfold computeCriticalFuelWith
    rw [wrap32_of_fits ((blocks.length : Int) - 1) ⟨by omega, by omega⟩]
    by_cases hsm : sum > majority
    · rw [if_pos hsm]
    · rw [if_neg hsm]
      by_cases hi : i = blocks.length
      · have hgt : (i : Int) > (blocks.length : Int) - 1 := by omega
        rw [if_pos hgt, add_zero, wrap32_of_fits sum hs, if_neg hsm]
      · have hgt : ¬ ((i : Int) > (blocks.length : Int) - 1) := by omega
        have hcast : (i : Int) + 1 = ((i + 1 : Nat) : Int) := by omega
        rw [if_neg hgt, wrap32_of_fits ((i : Int) + 1) ⟨by omega, by omega⟩, hcast,
          ih (i + 1) _ (wrap32_fits _) (by omega) (by omega),
          ih (i + 1) sum hs (by omega) (by omega)]
        rfl

theorem oneAndZeros_nonneg (n : Nat) : ∀ b ∈ oneAndZeros n, 0 ≤ b := by
  intro b hb
  unfold oneAndZeros at hb
  rcases List.mem_cons.mp hb with h | h
  · omega
  · have := List.eq_of_mem_replicate h
    omega

theorem oneAndZeros_sum (n : Nat) : (oneAndZeros n).sum = 1 := by
  unfold oneAndZeros
  simp

theorem oneAndZeros_length (n : Nat) : (oneAndZeros n).length = n + 1 := by
  unfold oneAndZeros
  simp

theorem halfBlocksWith_oneAndZeros (n : Nat) : halfBlocksWith wrap32 (oneAndZeros n) = 0 := by
  rw [halfBlocksWith_eq wrap32 wrap32_of_fits _ (oneAndZeros_nonneg n)
    (by rw [oneAndZeros_sum]; omega), halfBlocks_eq _ (oneAndZeros_nonneg n), oneAndZeros_sum]
  decide

/-- The counts `computeCritical` returns on 32-bit `int`s for the blocks `1, 0, ..., 0`: the
block of weight 1 gets `2 ^ n` wrapped into 32 bits, every block of weight 0 gets 0. -/
theorem computeCriticalWith_oneAndZeros (n : Nat) (hn : n < 2147483647) (k : Nat)
    (hk : k < (oneAndZeros n).length) :
    computeCriticalWith wrap32 ((oneAndZeros n).eraseIdx k) ((oneAndZeros n).getD k 0) 0 0
      (halfBlocksWith wrap32 (oneAndZeros n)) =
      .ok (if k = 0 then wrap32 (2 ^ n) else 0) := by
  rw [halfBlocksWith_oneAndZeros]
  unfold computeCriticalWith
  cases k with
  | zero =>
    have e1 : (oneAndZeros n).eraseIdx 0 = List.replicate n 0 := rfl
    have e2 : (oneAndZeros n).getD 0 0 = 1 := rfl
    rw [e1, e2, List.length_replicate, if_pos rfl]
    have := computeCriticalFuelWith_zeros (n + 1) n (by omega) 0 (Nat.zero_le _) (by omega)
    simpa using this
  | succ k =>
    have e2 : (oneAndZeros n).getD (k + 1) 0 = 0 := by
      unfold oneAndZeros
      rw [List.getD_cons_succ]
      exact getD_replicate_zero n k
    have hl : ((oneAndZeros n).eraseIdx (k + 1)).length = n := by
      rw [List.length_eraseIdx, if_pos hk, oneAndZeros_length]
      omega
    rw [e2, if_neg (by omega), hl]
    have := computeCriticalFuelWith_zero_block (n + 1) ((oneAndZeros n).eraseIdx (k + 1)) 0
      (by omega) 0 0 ⟨by omega, by omega⟩ (Nat.zero_le _) (by omega)
    simpa using this

theorem counts_oneAndZeros (n : Nat) (w : Int) :
    (List.range (n + 1)).map (fun k => if k = 0 then w else 0) = w :: List.replicate n 0 := by
  rw [List.range_succ_eq_map, List.map_cons, List.map_map]
  simp only [if_pos]
  congr 1
  rw [List.eq_replicate_iff]
  refine ⟨by simp, ?_⟩
  intro b hb
  obtain ⟨k, _, rfl⟩ := List.mem_map.mp hb
  simp

theorem foldl_wrap32_zeros (n : Nat) (acc : Int) (ha : fits32 acc) :
    (List.replicate n (0 : Int)).foldl (fun total c => wrap32 (total + c)) acc = acc := by
  induction n with
  | zero => rfl
  | succ n ih =>
    rw [List.replicate_succ, List.foldl_cons, add_zero, wrap32_of_fits acc ha]
    exact ih

/-- The function `computePowerIndexes` on 32-bit `int`s, on the blocks `1, 0, ..., 0`: the
third loop runs on the counts `wrap32 (2 ^ n), 0, ..., 0` and on the total `wrap32 (2 ^ n)`. -/
theorem computePowerIndexesWith_oneAndZeros (n : Nat) (hn : n < 2147483647) :
    computePowerIndexesWith wrap32 (oneAndZeros n) =
      percentLoopWith wrap32 (wrap32 (2 ^ n)) (wrap32 (2 ^ n) :: List.replicate n 0) := by
  rw [computePowerIndexesWith_of_counts wrap32 (oneAndZeros n) _
    (computeCriticalWith_oneAndZeros n hn), oneAndZeros_length, counts_oneAndZeros,
    List.foldl_cons, zero_add, wrap32_of_fits _ (wrap32_fits _),
    foldl_wrap32_zeros n _ (wrap32_fits _)]

/-- With 26 blocks `1, 0, ..., 0` the product `criticalVote * 100` leaves the 32-bit range:
the block of weight 1 gets the percentage -28. -/
theorem computePowerIndexesWith_26_blocks :
    computePowerIndexesWith wrap32 (oneAndZeros 25) = .ok (-28 :: List.replicate 25 0) := by
  rw [computePowerIndexesWith_oneAndZeros 25 (by omega)]
  rfl

/-- With 33 blocks `1, 0, ..., 0` the count of the block of weight 1 wraps to 0 and so does
the total. -/
theorem computePowerIndexesWith_33_blocks :
    computePowerIndexesWith wrap32 (oneAndZeros 32) = .error .divisionByZero := by
  rw [computePowerIndexesWith_oneAndZeros 32 (by omega)]
  rfl

/-- The reference counts of the 26 blocks `1, 0, ..., 0`. -/
theorem criticalOfRef_26_blocks (k : Nat) (hk : k < 26) :
    criticalOfRef (oneAndZeros 25) k = if k = 0 then 33554432 else 0 := by
  have hk1 : k < (oneAndZeros 25).length := by rw [oneAndZeros_length]; omega
  have hc : criticalOfRef (oneAndZeros 25) k < 2147483648 := by
    have h := criticalOfRef_le_pow (oneAndZeros 25) k hk1
    rw [oneAndZeros_length] at h
    have e : (2 : Int) ^ (25 + 1 - 1) = 33554432 := by norm_num
    rw [e] at h
    omega
  have h1 := computeCriticalWith_ref wrap32 wrap32_of_fits (oneAndZeros 25)
    (oneAndZeros_nonneg 25) (by rw [oneAndZeros_length]; omega)
    (by rw [oneAndZeros_sum]; omega) k hk1 hc
  rw [computeCriticalWith_oneAndZeros 25 (by omega) k (by rw [oneAndZeros_length]; omega)] at h1
  have h2 := (Except.ok.inj h1).symm
  rw [h2]
  by_cases h0 : k = 0
  · rw [if_pos h0, if_pos h0]
    decide
  · rw [if_neg h0, if_neg h0]

/-- The reference percentages of the 26 blocks `1, 0, ..., 0`. -/
theorem banzhafRef_26_blocks : banzhafRef (oneAndZeros 25) = 100 :: List.replicate 25 0 := by
  have e : (List.range (oneAndZeros 25).length).map (criticalOfRef (oneAndZeros 25)) =
      (List.range 26).map (fun k => if k = 0 then (33554432 : Int) else 0) := by
    rw [oneAndZeros_length]
    apply List.map_congr_left
    intro k hk
    exact criticalOfRef_26_blocks k (List.mem_range.mp hk)
  have e2 : (List.range (oneAndZeros 25).length).map
      (fun i => Int.fdiv (100 * criticalOfRef (oneAndZeros 25) i)
        ((List.range 26).map (fun k => if k = 0 then (33554432 : Int) else 0)).sum) =
      (List.range 26).map (fun i => Int.fdiv (100 * (if i = 0 then (33554432 : Int) else 0))
        ((List.range 26).map (fun k => if k = 0 then (33554432 : Int) else 0)).sum) := by
    rw [oneAndZeros_length]
    apply List.map_congr_left
    intro k hk
    rw [criticalOfRef_26_blocks k (List.mem_range.mp hk)]
  unfold banzhafRef
  simp only
  rw [e, e2]
  decide

/-! ## The power-index calculator on 32-bit `int`s: the claims' hypotheses -/

/-- At most 25 non-negative blocks of sum below `2^31` keep the sums, the counts and the
products of the computation in the 32-bit range. -/
theorem fit32_of_25_blocks (blocks : List Int) (hlen : blocks.length ≤ 25)
    (hs : blocks.sum < 2147483648) : countsFit32 blocks ∧ productsFit32 blocks := by
  obtain ⟨hc, _, _, hs1⟩ := critical_counts_bounds blocks hlen
  refine ⟨⟨by omega, hs, by omega⟩, ?_⟩
  intro k hk
  have hmem : criticalOfRef blocks k ∈ (List.range blocks.length).map (criticalOfRef blocks) :=
    List.mem_map.mpr ⟨k, List.mem_range.mpr hk, rfl⟩
  obtain ⟨_, _, c2⟩ := hc _ hmem
  omega

theorem percentLoopWith_zero (norm : Int → Int) (c : Int) (rest : List Int) :
    percentLoopWith norm 0 (c :: rest) = .error .divisionByZero := by
  unfold percentLoopWith
  rw [if_pos rfl]

/-- On machine `int`s whose sums and counts fit: `computePowerIndexes` returns one entry per
block when there is no block or the sum is positive, and divides by zero on a non-empty
sequence of zeros. -/
theorem computePowerIndexesWith_defined (blocks : List Int) (hb : ∀ b ∈ blocks, 0 ≤ b)
    (hc : countsFit32 blocks) :
    ((blocks = [] ∨ 0 < blocks.sum) →
      ∃ r : List Int, computePowerIndexesWith wrap32 blocks = .ok r ∧
        r.length = blocks.length) ∧
    ((blocks ≠ [] ∧ blocks.sum = 0) →
      computePowerIndexesWith wrap32 blocks = .error .divisionByZero) := by
  obtain ⟨hlen, hs, hT⟩ := hc
  rw [computePowerIndexesWith_counts wrap32 wrap32_of_fits blocks hb hlen hs hT]
  refine ⟨?_, ?_⟩
  · rintro (h | h)
    · subst h
      exact ⟨[], rfl, rfl⟩
    · have hT0 := total_pos blocks hb h
      rw [percentLoopWith_ok wrap32 _ (by omega)]
      exact ⟨_, rfl, by simp⟩
  · rintro ⟨hne, h0⟩
    have hz : ∀ b ∈ blocks, b = 0 := by
      intro b hmem
      have hle := List.single_le_sum hb b hmem
      have hb0 := hb b hmem
      omega
    have hmap : (List.range blocks.length).map (criticalOfRef blocks) =
        List.replicate blocks.length 0 := by
      rw [List.eq_replicate_iff]
      refine ⟨by simp, ?_⟩
      intro c hc
      obtain ⟨i, _, rfl⟩ := List.mem_map.mp hc
      exact criticalOfRef_zeros blocks hz i
    obtain ⟨n, hn⟩ : ∃ n, blocks.length = n + 1 := by
      cases blocks with
      | nil => exact absurd rfl hne
      | cons a t => exact ⟨t.length, rfl⟩
    rw [hmap, hn, List.replicate_succ]
    have e : ((0 : Int) :: List.replicate n 0).sum = 0 := by simp
    rw [e, percentLoopWith_zero]

/-- The first loop of `computePowerIndexes` on 32-bit `int`s, on the blocks `1, 0, ..., 0`. -/
theorem criticalLoopWith_oneAndZeros (n : Nat) (hn : n < 2147483647) :
    criticalLoopWith wrap32 (halfBlocksWith wrap32 (oneAndZeros n)) ((oneAndZeros n).length + 1)
        0 (oneAndZeros n) [] =
      .ok (oneAndZeros n, wrap32 (2 ^ n) :: List.replicate n 0) := by
  rw [criticalLoopWith_spec wrap32 _ (oneAndZeros n) _ (computeCriticalWith_oneAndZeros n hn)
    ((oneAndZeros n).length + 1) 0 [] (Nat.zero_le _) (by omega)]
  simp only [List.nil_append, Nat.sub_zero, ← List.range_eq_range']
  rw [oneAndZeros_length, counts_oneAndZeros]

/-- On non-negative blocks that keep the computation in the 32-bit range, the percentages
`computePowerIndexes` returns on machine `int`s are within the truncation bounds. -/
theorem computePowerIndexesWith_bounds_of_range (blocks : List Int) (hb : ∀ b ∈ blocks, 0 ≤ b)
    (hc : countsFit32 blocks) (hp : productsFit32 blocks) (r : List Int)
    (hr : computePowerIndexesWith wrap32 blocks = .ok r) :
    (∀ x ∈ r, 0 ≤ x ∧ x ≤ 100) ∧ r.sum ≤ 100 ∧
    (blocks ≠ [] → 100 - (blocks.length : Int) < r.sum) := by
  rw [computePowerIndexesWith_eq_of_range wrap32 wrap32_of_fits blocks hb hc.1 hc.2.1 hc.2.2 hp]
    at hr
  by_cases hne : blocks = []
  · subst hne
    have h0 : computePowerIndexes [] = .ok [] := by rfl
    rw [h0] at hr
    have hr1 : r = [] := (Except.ok.inj hr).symm
    subst hr1
    exact ⟨fun x hx => by simp at hx, by decide, fun h => absurd rfl h⟩
  · obtain ⟨h1, h2, h3⟩ := computePowerIndexes_bounds blocks hb hne r hr
    exact ⟨h1, h2, fun _ => h3⟩

end Voting

namespace PQ

/-! ## The claims about the priority queue -/

/-- C1. Heap invariant: in every queue state reachable from a freshly constructed queue by
`enqueue`, `dequeue` and `clear`, every index `i < size()` has a priority at most that of its
left child `2i+1` and of its right child `2i+2`, whenever that child is below `size()`. -/
theorem heap_invariant_reachable (h : PQHeap) (hr : Reachable h) :
    ∀ i : Nat, (i : Int) < h.size →
      (((2 * i + 1 : Nat) : Int) < h.size → h.priorityAt i ≤ h.priorityAt (2 * i + 1)) ∧
      (((2 * i + 2 : Nat) : Int) < h.size → h.priorityAt i ≤ h.priorityAt (2 * i + 2)) := by
  intro i hi
  have ho := (reachable_inv h hr).2
  simp only [PQHeap.size, Nat.cast_lt] at hi ⊢
  exact ho i hi

/-- Witness of C1 at the queue holding `{Zoe,3}` and `{Elmo,2}`. -/
theorem heap_invariant_reachable_witness :
    Reachable twoQueue ∧
    ∀ i : Nat, (i : Int) < twoQueue.size →
      (((2 * i + 1 : Nat) : Int) < twoQueue.size →
        twoQueue.priorityAt i ≤ twoQueue.priorityAt (2 * i + 1)) ∧
      (((2 * i + 2 : Nat) : Int) < twoQueue.size →
        twoQueue.priorityAt i ≤ twoQueue.priorityAt (2 * i + 2)) :=
  ⟨Reachable.enqueue _ (Reachable.enqueue _ Reachable.construct),
    heap_invariant_reachable twoQueue
      (Reachable.enqueue _ (Reachable.enqueue _ Reachable.construct))⟩

/-- C2, evaluated where it fails.  The queue `fullQueue` is reachable and full (count and
capacity ten).  Enqueuing `{O,8}` returns normally, doubles the capacity to twenty, and leaves
the count at ten and the stored records as they were: the record is not inserted. -/
theorem enqueue_on_full_queue_drops_record :
    Reachable fullQueue ∧ fullQueue.size = 10 ∧ fullQueue.numAllocated = 10 ∧
    (fullQueue.enqueue ⟨"O", 8⟩).1 = .ok () ∧
    (fullQueue.enqueue ⟨"O", 8⟩).2.numAllocated = 20 ∧
    (fullQueue.enqueue ⟨"O", 8⟩).2.size = 10 ∧
    (fullQueue.enqueue ⟨"O", 8⟩).2.stored = fullQueue.stored := by
  refine ⟨?_, by rfl, by rfl, by rfl, by rfl, by rfl, by rfl⟩
  obtain ⟨h1, e1, e2⟩ := enqueueAll_reachable (repeatedInput.take 10) _ Reachable.construct
  have : fullQueue = h1 := by unfold fullQueue; rw [e1]
  rw [this]; exact e2

/-- C3. On a non-empty queue state that satisfies the heap invariant (and whose count fits
its buffer), `dequeue` returns the record stored at index 0; that record's priority is at most
the priority of every stored record; `size()` drops by one; and the stored records afterwards
are, as a multiset, the previous ones minus one occurrence of the returned record. -/
theorem dequeue_removes_minimum (h : PQHeap) (hw : h.WellFormed) (ho : h.HeapOrdered)
    (hn : 0 < h.size) :
    ∃ h1 : PQHeap, h.dequeue = (.ok (h.elemAt 0), h1) ∧
      (∀ k : Nat, (k : Int) < h.size → (h.elemAt 0).priority ≤ h.priorityAt k) ∧
      h1.size = h.size - 1 ∧
      (h1.stored : Multiset DataPoint) = (h.stored : Multiset DataPoint).erase (h.elemAt 0) := by
  have hn1 : 0 < h.numFilled := by simpa [PQHeap.size] using hn
  obtain ⟨l, hl1, _, _, hl4⟩ := dequeue_remove h hw ho hn1
  refine ⟨_, hl1, ?_, ?_, ?_⟩
  · intro k hk
    exact root_le_stored h ho k (by simpa [PQHeap.size] using hk)
  · simp only [PQHeap.size]; omega
  · rw [Multiset.coe_erase, Multiset.coe_eq_coe]
    have := List.Perm.erase (h.elemAt 0) hl4
    rw [List.erase_cons_head] at this
    exact this

/-- Witness of C3 at the queue holding `{Zoe,3}` and `{Elmo,2}`. -/
theorem dequeue_removes_minimum_witness :
    twoQueue.WellFormed ∧ twoQueue.HeapOrdered ∧ 0 < twoQueue.size ∧
    ∃ h1 : PQHeap, twoQueue.dequeue = (.ok (twoQueue.elemAt 0), h1) ∧
      (∀ k : Nat, (k : Int) < twoQueue.size →
        (twoQueue.elemAt 0).priority ≤ twoQueue.priorityAt k) ∧
      h1.size = twoQueue.size - 1 ∧
      (h1.stored : Multiset DataPoint) =
        (twoQueue.stored : Multiset DataPoint).erase (twoQueue.elemAt 0) :=
  ⟨⟨by rfl, by decide⟩, by unfold PQHeap.HeapOrdered; decide, by decide,
    dequeue_removes_minimum twoQueue ⟨by rfl, by decide⟩
      (by unfold PQHeap.HeapOrdered; decide) (by decide)⟩

/-- C4. On every non-empty reachable queue state `peek` returns the record at index 0 and
leaves the state as it was, and that record's priority is at most the priority of every
stored record.  After `{Zoe,3},{Elmo,2},{Bert,6}` the root priority is 2; after
`{Casey,1},{Zoe,3}` the priority of `peek()` is 1. -/
theorem peek_returns_minimum :
    (∀ h : PQHeap, Reachable h → h.isEmpty = false →
      h.peek = (.ok (h.elemAt 0), h) ∧
      ∀ k : Nat, (k : Int) < h.size → (h.elemAt 0).priority ≤ h.priorityAt k) ∧
    ((enqueueAll PQHeap.construct goodHeapInput).2.elemAt 0).priority = 2 ∧
    (enqueueAll PQHeap.construct peekInput).2.peek.1 = .ok ⟨"Casey", 1⟩ := by
  refine ⟨?_, by rfl, by rfl⟩
  intro h hr hne
  have hn : 0 < h.numFilled := by
    rcases Nat.eq_zero_or_pos h.numFilled with h0 | h0
    · rw [(isEmpty_iff h).mpr h0] at hne; exact absurd hne (by decide)
    · exact h0
  refine ⟨peek_nonempty h hn, ?_⟩
  intro k hk
  exact root_le_stored h (reachable_inv h hr).2 k (by simpa [PQHeap.size] using hk)

/-- Witness of C4 at the queue holding `{Zoe,3}` and `{Elmo,2}`. -/
theorem peek_returns_minimum_witness :
    Reachable twoQueue ∧ twoQueue.isEmpty = false ∧
    twoQueue.peek = (.ok (twoQueue.elemAt 0), twoQueue) ∧
    ∀ k : Nat, (k : Int) < twoQueue.size →
      (twoQueue.elemAt 0).priority ≤ twoQueue.priorityAt k :=
  have hr : Reachable twoQueue := Reachable.enqueue _ (Reachable.enqueue _ Reachable.construct)
  ⟨hr, by rfl, peek_returns_minimum.1 twoQueue hr (by rfl)⟩

/-- C5. Min extraction order: for every list of records enqueued one by one into a fresh
queue, every `enqueue` returns normally, dequeuing until `isEmpty()` returns normally and
leaves the queue empty, and the priorities of the dequeued records are in non-decreasing
order.  For `{R,4},{A,5},{B,3},{K,7},{G,2}` the records come out as G, B, R, A, K. -/
theorem min_extraction_order :
    (∀ rs : List DataPoint, ∃ (h1 : PQHeap) (out : List DataPoint) (h2 : PQHeap),
      enqueueAll PQHeap.construct rs = (.ok (), h1) ∧ drain h1 = (.ok out, h2) ∧
      h2.isEmpty = true ∧ (out.map DataPoint.priority).Sorted (· ≤ ·)) ∧
    (drain (enqueueAll PQHeap.construct writeupInput).2).1 =
      .ok [⟨"G", 2⟩, ⟨"B", 3⟩, ⟨"R", 4⟩, ⟨"A", 5⟩, ⟨"K", 7⟩] := by
  refine ⟨?_, by rfl⟩
  intro rs
  obtain ⟨h1, e1, hr1⟩ := enqueueAll_reachable rs _ Reachable.construct
  obtain ⟨hw, ho⟩ := reachable_inv h1 hr1
  obtain ⟨out, l, e2, _, e4⟩ := drainLoop_spec (h1.numFilled + 1) h1 hw ho (by omega)
  exact ⟨h1, out, _, e1, e2, by rfl, e4⟩

/-- C6, evaluated where it fails.  After the twelve records of the test input are enqueued
into a fresh queue (every call returning normally) `size()` is 11; eleven `dequeue` calls
return the priorities 1,2,3,4,5,6,7,8,8,8,9, one 8 short of the input; the twelfth call raises
the empty-queue error. -/
theorem round_trip_loses_eleventh_record :
    (enqueueAll PQHeap.construct repeatedInput).1 = .ok () ∧
    (enqueueAll PQHeap.construct repeatedInput).2.size = 11 ∧
    (dequeueN 11 (enqueueAll PQHeap.construct repeatedInput).2).1 =
      .ok [⟨"T", 1⟩, ⟨"G", 2⟩, ⟨"B", 3⟩, ⟨"R", 4⟩, ⟨"A", 5⟩, ⟨"S", 6⟩, ⟨"K", 7⟩, ⟨"O", 8⟩,
        ⟨"O", 8⟩, ⟨"O", 8⟩, ⟨"V", 9⟩] ∧
    (dequeueN 12 (enqueueAll PQHeap.construct repeatedInput).2).1 = .error .emptyQueue :=
  ⟨by rfl, by rfl, by rfl, by rfl⟩

/-- C7, evaluated where it fails.  Eleven `enqueue` calls on a fresh queue, with no `dequeue`
and no `clear`, all return normally and leave `size()` at 10. -/
theorem size_after_eleven_enqueues :
    (repeatedInput.take 11).length = 11 ∧
    (enqueueAll PQHeap.construct (repeatedInput.take 11)).1 = .ok () ∧
    (enqueueAll PQHeap.construct (repeatedInput.take 11)).2.size = 10 ∧
    (enqueueAll PQHeap.construct (repeatedInput.take 11)).2.isEmpty = false :=
  ⟨by rfl, by rfl, by rfl, by rfl⟩

/-- C8. On a freshly constructed queue and on any queue right after `clear()`, both `peek`
and `dequeue` raise the empty-queue error and leave count, capacity and buffer as they
were. -/
theorem empty_queue_failure_is_atomic :
    PQHeap.construct.peek = (.error .emptyQueue, PQHeap.construct) ∧
    PQHeap.construct.dequeue = (.error .emptyQueue, PQHeap.construct) ∧
    ∀ h : PQHeap, h.clear.peek = (.error .emptyQueue, h.clear) ∧
      h.clear.dequeue = (.error .emptyQueue, h.clear) :=
  ⟨peek_empty _ rfl, dequeue_empty _ rfl, fun _ => ⟨peek_empty _ rfl, dequeue_empty _ rfl⟩⟩


/-- C11. In every queue state reachable from a freshly constructed queue the count is between
zero and the capacity, the buffer has as many cells as the capacity says, and every read and
write that `enqueue` (its write of `_elements[_numFilled]` included) and `dequeue` make, their
sift walks included, is at an index inside the buffer it addresses. -/
theorem count_within_capacity (h : PQHeap) (hr : Reachable h) :
    ((0 : Int) ≤ h.size ∧ h.size ≤ (h.numAllocated : Int)) ∧
    h.elements.length = h.numAllocated ∧
    (∀ elem : DataPoint, ∀ e ∈ h.enqueueEvents elem, e.inBounds) ∧
    (∀ e ∈ h.dequeueEvents, e.inBounds) := by
  obtain ⟨⟨hw1, hw2⟩, _⟩ := reachable_inv h hr
  refine ⟨⟨?_, ?_⟩, hw1, ?_, ?_⟩
  · simp only [PQHeap.size]; omega
  · simp only [PQHeap.size]; omega
  · intro elem e he
    exact (enqueueEvents_safe h elem hw2 e he).1
  · intro e he
    exact (dequeueEvents_safe h hw2 e he).1

/-- Witness of C11 at the queue holding `{Zoe,3}` and `{Elmo,2}`, whose `enqueue` of a record
of priority 1 writes cell 2 and whose `dequeue` reads cell 1. -/
theorem count_within_capacity_witness :
    Reachable twoQueue ∧
    Event.write 2 10 ∈ twoQueue.enqueueEvents ⟨"Bert", 1⟩ ∧
    Event.read 1 10 ∈ twoQueue.dequeueEvents ∧
    ((0 : Int) ≤ twoQueue.size ∧ twoQueue.size ≤ (twoQueue.numAllocated : Int)) ∧
    twoQueue.elements.length = twoQueue.numAllocated ∧
    (∀ elem : DataPoint, ∀ e ∈ twoQueue.enqueueEvents elem, e.inBounds) ∧
    (∀ e ∈ twoQueue.dequeueEvents, e.inBounds) :=
  ⟨Reachable.enqueue _ (Reachable.enqueue _ Reachable.construct), by decide, by decide,
    count_within_capacity twoQueue
      (Reachable.enqueue _ (Reachable.enqueue _ Reachable.construct))⟩

/-- C12. In every queue state reachable from a freshly constructed queue, every call of
`swapElements` made by `enqueue` (through `bubbleUp`) and by `dequeue` (through `bubbleDown`)
passes two indices in `[0, _numFilled)`; `enqueue` returns normally; and `dequeue` either
returns the record at index 0 or raises the empty-queue error on an empty queue. -/
theorem invalid_index_unreachable (h : PQHeap) (hr : Reachable h) :
    (∀ elem : DataPoint,
      (∀ e ∈ h.enqueueEvents elem, e.validSwap) ∧ (h.enqueue elem).1 = .ok ()) ∧
    (∀ e ∈ h.dequeueEvents, e.validSwap) ∧
    (h.dequeue.1 = .ok (h.elemAt 0) ∨
      (h.isEmpty = true ∧ h.dequeue.1 = .error .emptyQueue)) := by
  obtain ⟨hw, ho⟩ := reachable_inv h hr
  refine ⟨?_, ?_, ?_⟩
  · intro elem
    exact ⟨fun e he => (enqueueEvents_safe h elem hw.2 e he).2, enqueue_ok h elem hw ho⟩
  · intro e he
    exact (dequeueEvents_safe h hw.2 e he).2
  · by_cases he : h.numFilled = 0
    · right
      refine ⟨(isEmpty_iff h).mpr he, ?_⟩
      rw [dequeue_empty h he]
    · left
      obtain ⟨l, hl1, _⟩ := dequeue_remove h hw ho (by omega)
      rw [hl1]

/-- Witness of C12 at the queue holding `{Zoe,3}` and `{Elmo,2}`, whose `enqueue` of a record
of priority 1 calls `swapElements(2, 0)`. -/
theorem invalid_index_unreachable_witness :
    Reachable twoQueue ∧
    Event.swapCall 2 0 3 ∈ twoQueue.enqueueEvents ⟨"Bert", 1⟩ ∧
    (∀ elem : DataPoint,
      (∀ e ∈ twoQueue.enqueueEvents elem, e.validSwap) ∧ (twoQueue.enqueue elem).1 = .ok ()) ∧
    (∀ e ∈ twoQueue.dequeueEvents, e.validSwap) ∧
    (twoQueue.dequeue.1 = .ok (twoQueue.elemAt 0) ∨
      (twoQueue.isEmpty = true ∧ twoQueue.dequeue.1 = .error .emptyQueue)) :=
  ⟨Reachable.enqueue _ (Reachable.enqueue _ Reachable.construct), by decide,
    invalid_index_unreachable twoQueue
      (Reachable.enqueue _ (Reachable.enqueue _ Reachable.construct))⟩

/-- C13. For every queue state, whatever the buffer holds, `validateInternalState` raises if
and only if the count exceeds the capacity or some index below the count has a child below
the count with a strictly smaller priority.  Its outcome is the same on any two states with
equal count, equal capacity and equal records at the indices below the count, whatever the
reads at the sentinel index find; and it leaves the state as it was.  On the two-record state
with priorities 3 and 1 it raises at index 0. -/
theorem validateInternalState_exact (h : PQHeap) (outside : Int → DataPoint) :
    ((h.validateInternalState outside).1 ≠ .ok () ↔
      (h.size > (h.numAllocated : Int) ∨
        ∃ i : Nat, (i : Int) < h.size ∧
          ((((2 * i + 1 : Nat)) < h.numFilled ∧ h.priorityAt (2 * i + 1) < h.priorityAt i) ∨
           (((2 * i + 2 : Nat)) < h.numFilled ∧ h.priorityAt (2 * i + 2) < h.priorityAt i)))) ∧
    (∀ (h1 : PQHeap) (outside1 : Int → DataPoint), h1.numFilled = h.numFilled →
      h1.numAllocated = h.numAllocated →
      (∀ k : Nat, k < h.numFilled → h1.elemAt k = h.elemAt k) →
      (h1.validateInternalState outside1).1 = (h.validateInternalState outside).1) ∧
    (h.validateInternalState outside).2 = h ∧
    (badQueue.validateInternalState outside).1 = .error (.heapViolation 0) := by
  refine ⟨?_, ?_, ?_, by rfl⟩
  · rw [validateInternalState_fails_iff h outside]
    simp only [PQHeap.size, priorityAt_eq, Nat.cast_lt, gt_iff_lt]
  · intro h1 outside1 hc ha hs
    refine validateInternalState_congr h h1 outside outside1 hc ha ?_
    intro k hk
    have := hs k hk
    rw [elemAt_nat, elemAt_nat] at this
    exact this
  · unfold PQHeap.validateInternalState
    split_ifs <;> rfl

/-- C14. In the downward walk, at an index `i` with both children stored and with the loop
condition true, the moved element is swapped with the right child `2i+2` exactly when the
right child's priority is at most the left child's, otherwise with the left child `2i+1`, and
the walk goes on from the child taken.  In particular two children of equal priority, below
the moved element's, send it right.  Dequeuing from the queue `root 1, left 2, right 2,
last 9` leaves `right, left, last`. -/
theorem sift_down_tie_break :
    (∀ (h : PQHeap) (dp : DataPoint) (i fuel : Nat), 2 * i + 2 < h.numFilled →
      h.elemAt i = dp → h.bubbleDownCond dp i = true →
      h.bubbleDownLoop (fuel + 1) dp i =
        if h.priorityAt (2 * i + 2) ≤ h.priorityAt (2 * i + 1) then
          PQHeap.bubbleDownLoop fuel (h.swapElements i ((2 * i + 2 : Nat) : Int)).2 dp
            ((2 * i + 2 : Nat) : Int)
        else
          PQHeap.bubbleDownLoop fuel (h.swapElements i ((2 * i + 1 : Nat) : Int)).2 dp
            ((2 * i + 1 : Nat) : Int)) ∧
    (∀ (h : PQHeap) (dp : DataPoint) (i fuel : Nat), 2 * i + 2 < h.numFilled →
      h.elemAt i = dp → h.priorityAt (2 * i + 2) = h.priorityAt (2 * i + 1) →
      h.priorityAt (2 * i + 1) < dp.priority →
      h.bubbleDownLoop (fuel + 1) dp i =
        PQHeap.bubbleDownLoop fuel (h.swapElements i ((2 * i + 2 : Nat) : Int)).2 dp
          ((2 * i + 2 : Nat) : Int)) ∧
    tieQueue.stored = [⟨"root", 1⟩, ⟨"left", 2⟩, ⟨"right", 2⟩, ⟨"last", 9⟩] ∧
    tieQueue.dequeue.1 = .ok ⟨"root", 1⟩ ∧
    tieQueue.dequeue.2.stored = [⟨"right", 2⟩, ⟨"left", 2⟩, ⟨"last", 9⟩] := by
  have gen : ∀ (h : PQHeap) (dp : DataPoint) (i fuel : Nat), 2 * i + 2 < h.numFilled →
      h.bubbleDownCond dp i = true →
      h.bubbleDownLoop (fuel + 1) dp i =
        if h.priorityAt (2 * i + 2) ≤ h.priorityAt (2 * i + 1) then
          PQHeap.bubbleDownLoop fuel (h.swapElements i ((2 * i + 2 : Nat) : Int)).2 dp
            ((2 * i + 2 : Nat) : Int)
        else
          PQHeap.bubbleDownLoop fuel (h.swapElements i ((2 * i + 1 : Nat) : Int)).2 dp
            ((2 * i + 1 : Nat) : Int) := by
    intro h dp i fuel hr hc
    rw [bubbleDownLoop_step_both h dp i fuel hr hc, priorityAt_eq, priorityAt_eq,
      swapElements_nat h i (2 * i + 2) (by omega) hr,
      swapElements_nat h i (2 * i + 1) (by omega) (by omega)]
  refine ⟨fun h dp i fuel hr _ hc => gen h dp i fuel hr hc, ?_, by rfl, by rfl, by rfl⟩
  intro h dp i fuel hr _ heq hlt
  have hc : h.bubbleDownCond dp i = true := by
    rw [bubbleDownCond_nat]
    left
    rw [priorityAt_eq] at hlt
    exact ⟨by omega, hlt⟩
  rw [gen h dp i fuel hr hc, if_pos (le_of_eq heq)]

/-- Witness of C14 at the root of the queue `root 1, left 2, right 2, last 9` once the last
record has been moved to the root by `dequeue`. -/
theorem sift_down_tie_break_witness :
    PQHeap.bubbleDownLoop 3
        { elements := [⟨"last", 9⟩, ⟨"left", 2⟩, ⟨"right", 2⟩], numAllocated := 3, numFilled := 3 }
        ⟨"last", 9⟩ ((0 : Nat) : Int) =
      PQHeap.bubbleDownLoop 2
        (PQHeap.swapElements
          { elements := [⟨"last", 9⟩, ⟨"left", 2⟩, ⟨"right", 2⟩], numAllocated := 3, numFilled := 3 }
          ((0 : Nat) : Int) ((2 * 0 + 2 : Nat) : Int)).2
        ⟨"last", 9⟩ ((2 * 0 + 2 : Nat) : Int) :=
  sift_down_tie_break.2.1
    { elements := [⟨"last", 9⟩, ⟨"left", 2⟩, ⟨"right", 2⟩], numAllocated := 3, numFilled := 3 }
    ⟨"last", 9⟩ 0 2 (by decide) (by rfl) (by decide) (by decide)

/-- C16. For every queue state and every operation, the capacity afterwards is the capacity
before or twice it; it differs only after `enqueue` on a queue whose count equals its
capacity, and then it is doubled while the cells below the count keep their records in
place; `clear` sets the count to zero and keeps the capacity. -/
theorem capacity_only_doubles (op : Op) (h : PQHeap) :
    ((op.post h).numAllocated = h.numAllocated ∨
      (op.post h).numAllocated = 2 * h.numAllocated) ∧
    ((op.post h).numAllocated ≠ h.numAllocated →
      ∃ elem : DataPoint, op = .enqueue elem ∧ h.size = (h.numAllocated : Int)) ∧
    (∀ elem : DataPoint, h.size = (h.numAllocated : Int) →
      (h.enqueue elem).2.numAllocated = 2 * h.numAllocated ∧
      ∀ k : Nat, (k : Int) < h.size → (h.enqueue elem).2.elemAt k = h.elemAt k) ∧
    (h.clear.size = 0 ∧ h.clear.numAllocated = h.numAllocated) := by
  have henq : ∀ elem : DataPoint,
      (h.numFilled = h.numAllocated → (h.enqueue elem).2.numAllocated = 2 * h.numAllocated) ∧
      (h.numFilled ≠ h.numAllocated → (h.enqueue elem).2.numAllocated = h.numAllocated) := by
    intro elem
    have := enqueue_numAllocated h elem
    exact ⟨fun hf => by rw [this.1 hf, Nat.mul_comm], this.2⟩
  refine ⟨?_, ?_, ?_, ⟨rfl, rfl⟩⟩
  · cases op with
    | enqueue elem =>
      by_cases hf : h.numFilled = h.numAllocated
      · exact Or.inr ((henq elem).1 hf)
      · exact Or.inl ((henq elem).2 hf)
    | dequeue => exact Or.inl (dequeue_numAllocated h)
    | peek => exact Or.inl (by simp only [Op.post]; rw [peek_post])
    | clear => exact Or.inl rfl
    | isEmpty => exact Or.inl rfl
    | size => exact Or.inl rfl
  · intro hne
    cases op with
    | enqueue elem =>
      refine ⟨elem, rfl, ?_⟩
      by_contra hf
      have hf1 : h.numFilled ≠ h.numAllocated := fun e => hf (by simp [PQHeap.size, e])
      exact hne ((henq elem).2 hf1)
    | dequeue => exact absurd (dequeue_numAllocated h) hne
    | peek => exact absurd (by simp only [Op.post]; rw [peek_post]) hne
    | clear => exact absurd rfl hne
    | isEmpty => exact absurd rfl hne
    | size => exact absurd rfl hne
  · intro elem hf
    have hf1 : h.numFilled = h.numAllocated := by
      simpa [PQHeap.size] using hf
    refine ⟨(henq elem).1 hf1, ?_⟩
    intro k hk
    have hk1 : k < h.numAllocated := by
      simp only [PQHeap.size] at hk; omega
    rw [enqueue_full h elem hf1, elemAt_nat, elemAt_nat]
    exact getD_expandMemory h k hk1

/-- C18. On a queue state with count below capacity that satisfies the heap invariant,
`enqueue` returns normally, `size()` grows by one, the capacity stays, the stored records
become the previous ones plus the new record, the heap invariant holds again, and every
buffer position off the path from the new last index to the root keeps its record. -/
theorem enqueue_below_capacity (h : PQHeap) (hw : h.WellFormed) (ho : h.HeapOrdered)
    (hlt : h.size < (h.numAllocated : Int)) (r : DataPoint) :
    ∃ h1 : PQHeap, h.enqueue r = (.ok (), h1) ∧
      h1.size = h.size + 1 ∧ h1.numAllocated = h.numAllocated ∧
      (h1.stored : Multiset DataPoint) = r ::ₘ (h.stored : Multiset DataPoint) ∧
      h1.HeapOrdered ∧
      ∀ k : Nat, ¬ OnPath h.numFilled k → h1.elemAt k = h.elemAt k := by
  have hne : h.numFilled ≠ h.numAllocated := by
    simp only [PQHeap.size] at hlt; omega
  obtain ⟨l, hl1, _, hl3, hl4⟩ := enqueue_insert h r hw ho hne
  refine ⟨_, hl1, ?_, rfl, ?_, ?_, ?_⟩
  · simp only [PQHeap.size]; omega
  · have h5 : (List.take (h.numFilled + 1) l).Perm (r :: h.stored) :=
      hl4.trans (List.perm_append_singleton _ _)
    rw [Multiset.cons_coe, Multiset.coe_eq_coe]
    exact h5
  · rw [heapOrdered_iff]; exact hl3
  · intro k hk
    have := enqueue_offPath h r hne k hk
    rw [hl1] at this
    exact this

/-- Witness of C18 at the queue holding `{Zoe,3}` and `{Elmo,2}` and the record `{Bert,1}`. -/
theorem enqueue_below_capacity_witness :
    twoQueue.WellFormed ∧ twoQueue.HeapOrdered ∧ twoQueue.size < (twoQueue.numAllocated : Int) ∧
    ∃ h1 : PQHeap, twoQueue.enqueue ⟨"Bert", 1⟩ = (.ok (), h1) ∧
      h1.size = twoQueue.size + 1 ∧ h1.numAllocated = twoQueue.numAllocated ∧
      (h1.stored : Multiset DataPoint) = ⟨"Bert", 1⟩ ::ₘ (twoQueue.stored : Multiset DataPoint) ∧
      h1.HeapOrdered ∧
      ∀ k : Nat, ¬ OnPath twoQueue.numFilled k → h1.elemAt k = twoQueue.elemAt k :=
  ⟨⟨by rfl, by decide⟩, by unfold PQHeap.HeapOrdered; decide, by decide,
    enqueue_below_capacity twoQueue ⟨by rfl, by decide⟩
      (by unfold PQHeap.HeapOrdered; decide) (by decide) ⟨"Bert", 1⟩⟩

end PQ

namespace Voting

/-! ## The claims about the power-index calculator

The claims are stated about the computation on 32-bit `int`s, `computePowerIndexesWith wrap32`
and the functions it calls. -/

/-- C9 as stated fails on 32-bit `int`s.  On the non-negative blocks
`{2147483647, 2147483647, 2, 2}` the sum of the blocks wraps, `computePowerIndexes` returns
`{25, 25, 25, 25}` and the reference percentages are `{33, 33, 16, 16}`.  On the 26
non-negative blocks `1, 0, ..., 0` the product `criticalVote * 100` wraps for the count
`2^25`, `computePowerIndexes` returns `-28, 0, ..., 0` and the reference percentages are
`100, 0, ..., 0`. -/
theorem computePowerIndexes_overflow_not_banzhaf :
    ((∀ b ∈ ([2147483647, 2147483647, 2, 2] : List Int), 0 ≤ b) ∧
      computePowerIndexesWith wrap32 [2147483647, 2147483647, 2, 2] = .ok [25, 25, 25, 25] ∧
      banzhafRef [2147483647, 2147483647, 2, 2] = [33, 33, 16, 16]) ∧
    ((∀ b ∈ oneAndZeros 25, 0 ≤ b) ∧ (oneAndZeros 25).length = 26 ∧
      computePowerIndexesWith wrap32 (oneAndZeros 25) = .ok (-28 :: List.replicate 25 0) ∧
      banzhafRef (oneAndZeros 25) = 100 :: List.replicate 25 0) :=
  ⟨⟨by decide, by rfl, by decide⟩,
    ⟨oneAndZeros_nonneg 25, by rfl, computePowerIndexesWith_26_blocks, banzhafRef_26_blocks⟩⟩

/-- C9, amended.  On non-negative blocks whose sum, whose total `T` of critical counts and
whose products `100 * c_i` are below `2^31` (and whose number is below `2^31`), whenever
`computePowerIndexes` returns, its result is the reference Banzhaf list: entry `i` is
`floor (100 * c_i / T)` with `majority = floor (sum blocks / 2)`, `c_i` the number of
sub-collections of the other blocks (by position) whose sum is at most `majority` and exceeds
it once block `i` is added, and `T` the sum of all `c_j`.  In particular `computeCritical`,
early return included, returns exactly the count `c_i` for block `i`.  The five test inputs
give the five expected lists. -/
theorem computePowerIndexes_is_banzhaf :
    (∀ blocks : List Int, (∀ b ∈ blocks, 0 ≤ b) → countsFit32 blocks → productsFit32 blocks →
      ∀ r : List Int, computePowerIndexesWith wrap32 blocks = .ok r → r = banzhafRef blocks) ∧
    (∀ blocks : List Int, (∀ b ∈ blocks, 0 ≤ b) → countsFit32 blocks →
      ∀ k : Nat, k < blocks.length →
        computeCriticalWith wrap32 (blocks.eraseIdx k) (blocks.getD k 0) 0 0
          (halfBlocksWith wrap32 blocks) = .ok (criticalOfRef blocks k)) ∧
    computePowerIndexesWith wrap32 [50, 49, 1] = .ok [60, 20, 20] ∧
    computePowerIndexesWith wrap32 [55, 38, 16] = .ok [100, 0, 0] ∧
    computePowerIndexesWith wrap32 [1, 1, 3, 7, 9, 9] = .ok [0, 0, 0, 33, 33, 33] ∧
    computePowerIndexesWith wrap32 [55, 38, 29] = .ok [33, 33, 33] ∧
    computePowerIndexesWith wrap32 [55] = .ok [100] := by
  refine ⟨?_, ?_, by rfl, by rfl, by rfl, by rfl, by rfl⟩
  · intro blocks hb hc hp r hr
    rw [computePowerIndexesWith_eq_of_range wrap32 wrap32_of_fits blocks hb hc.1 hc.2.1 hc.2.2
      hp] at hr
    exact computePowerIndexes_ref blocks hb r hr
  · intro blocks hb hc k hk
    exact computeCriticalWith_ref wrap32 wrap32_of_fits blocks hb hc.1 hc.2.1 k hk
      (lt_of_le_of_lt (criticalOfRef_le_total blocks k hk) hc.2.2)

/-- Witness of the amended C9 at the blocks `{50,49,1}`. -/
theorem computePowerIndexes_is_banzhaf_witness :
    (∀ b ∈ ([50, 49, 1] : List Int), 0 ≤ b) ∧ countsFit32 [50, 49, 1] ∧
    productsFit32 [50, 49, 1] ∧
    computePowerIndexesWith wrap32 [50, 49, 1] = .ok [60, 20, 20] ∧
    [60, 20, 20] = banzhafRef [50, 49, 1] :=
  ⟨by decide, by unfold countsFit32; decide, by unfold productsFit32; decide, by rfl,
    computePowerIndexes_is_banzhaf.1 [50, 49, 1] (by decide) (by unfold countsFit32; decide)
      (by unfold productsFit32; decide) [60, 20, 20] (by rfl)⟩

/-- C10 as stated fails.  On the single block `0` the total of the critical counts is zero and
`computePowerIndexes` divides by it.  On the blocks `{2147483647, 2147483647}`, of positive
sum, the 32-bit sum wraps to `-2`, every count is 0 and `computePowerIndexes` divides by zero
again.  On the 33 blocks `1, 0, ..., 0`, of sum 1, the count `2^32` of the first block wraps
to 0 and so does the total. -/
theorem computePowerIndexes_zero_block_undefined :
    ((∀ b ∈ ([0] : List Int), 0 ≤ b) ∧
      computePowerIndexesWith wrap32 [0] = .error .divisionByZero ∧
      ¬ ∃ r : List Int, computePowerIndexesWith wrap32 [0] = .ok r) ∧
    ((∀ b ∈ ([2147483647, 2147483647] : List Int), 0 ≤ b) ∧
      (0 : Int) < ([2147483647, 2147483647] : List Int).sum ∧
      halfBlocksWith wrap32 [2147483647, 2147483647] = -1 ∧
      computePowerIndexesWith wrap32 [2147483647, 2147483647] = .error .divisionByZero) ∧
    ((∀ b ∈ oneAndZeros 32, 0 ≤ b) ∧ (oneAndZeros 32).length = 33 ∧
      (oneAndZeros 32).sum = 1 ∧
      computePowerIndexesWith wrap32 (oneAndZeros 32) = .error .divisionByZero) := by
  refine ⟨⟨by decide, by rfl, ?_⟩, ⟨by decide, by decide, by decide, by rfl⟩,
    ⟨oneAndZeros_nonneg 32, by rfl, oneAndZeros_sum 32, computePowerIndexesWith_33_blocks⟩⟩
  rintro ⟨r, hr⟩
  have h0 : computePowerIndexesWith wrap32 [0] = .error .divisionByZero := by rfl
  rw [h0] at hr
  cases hr

/-- C10, amended.  On every sequence of non-negative integers that is empty or has a positive
sum, and whose number of blocks, sum of blocks and total of critical counts are below `2^31`,
`computePowerIndexes` returns a list with exactly one entry per block; on a non-empty sequence
of zeros it stops at the division by a zero total. -/
theorem computePowerIndexes_defined_iff_votes (blocks : List Int) (hb : ∀ b ∈ blocks, 0 ≤ b)
    (hc : countsFit32 blocks) :
    ((blocks = [] ∨ 0 < blocks.sum) →
      ∃ r : List Int, computePowerIndexesWith wrap32 blocks = .ok r ∧
        r.length = blocks.length) ∧
    ((blocks ≠ [] ∧ blocks.sum = 0) →
      computePowerIndexesWith wrap32 blocks = .error .divisionByZero) :=
  computePowerIndexesWith_defined blocks hb hc

/-- Witness of the amended C10 at the blocks `{50,49,1}`. -/
theorem computePowerIndexes_defined_iff_votes_witness :
    (∀ b ∈ ([50, 49, 1] : List Int), 0 ≤ b) ∧ countsFit32 [50, 49, 1] ∧
    (0 : Int) < ([50, 49, 1] : List Int).sum ∧
    ∃ r : List Int, computePowerIndexesWith wrap32 [50, 49, 1] = .ok r ∧
      r.length = ([50, 49, 1] : List Int).length :=
  ⟨by decide, by unfold countsFit32; decide, by decide,
    (computePowerIndexes_defined_iff_votes [50, 49, 1] (by decide)
      (by unfold countsFit32; decide)).1 (Or.inr (by decide))⟩


/-- C15 as stated fails.  On the empty sequence of blocks `computePowerIndexes` returns the
empty list, whose entries sum to 0, which is not more than 100 minus the number of blocks.  On
the 26 blocks `1, 0, ..., 0` the product `criticalVote * 100` wraps for the count `2^25` and
the entry of the first block is `-28`, which is not in `[0, 100]`. -/
theorem percentages_empty_input_sum :
    (∃ r : List Int, computePowerIndexesWith wrap32 [] = .ok r ∧
      ¬ (100 - ((([] : List Int).length : Nat) : Int) < r.sum)) ∧
    (∃ r : List Int, computePowerIndexesWith wrap32 (oneAndZeros 25) = .ok r ∧
      (oneAndZeros 25).length = 26 ∧ r.getD 0 0 = -28 ∧
      ¬ ∀ x ∈ r, 0 ≤ x ∧ x ≤ 100) :=
  ⟨⟨[], by rfl, by decide⟩,
    ⟨-28 :: List.replicate 25 0, computePowerIndexesWith_26_blocks, by rfl, by rfl,
      fun h => absurd (h (-28) (List.mem_cons_self _ _)).1 (by decide)⟩⟩

/-- C15, amended.  Whenever `computePowerIndexes` returns on an input of at most 25 blocks, or
on non-negative blocks whose number, sum, total of critical counts and products
`100 * c_i` are below `2^31`, every entry lies between 0 and 100 and the entries sum to at
most 100; when there is at least one block they sum to more than 100 minus the number of
blocks.  The sum can be below 100: `{55,38,29}` gives `{33,33,33}`, of sum 99. -/
theorem percentages_truncated :
    (∀ blocks : List Int, blocks.length ≤ 25 →
      ∀ r : List Int, computePowerIndexesWith wrap32 blocks = .ok r →
        (∀ x ∈ r, 0 ≤ x ∧ x ≤ 100) ∧ r.sum ≤ 100 ∧
        (blocks ≠ [] → 100 - (blocks.length : Int) < r.sum)) ∧
    (∀ blocks : List Int, (∀ b ∈ blocks, 0 ≤ b) → countsFit32 blocks → productsFit32 blocks →
      ∀ r : List Int, computePowerIndexesWith wrap32 blocks = .ok r →
        (∀ x ∈ r, 0 ≤ x ∧ x ≤ 100) ∧ r.sum ≤ 100 ∧
        (blocks ≠ [] → 100 - (blocks.length : Int) < r.sum)) ∧
    computePowerIndexesWith wrap32 [55, 38, 29] = .ok [33, 33, 33] ∧
    ([33, 33, 33] : List Int).sum = 99 :=
  ⟨fun blocks hlen r hr => computePowerIndexesWith_bounds wrap32 wrap32_of_fits blocks hlen r hr,
    fun blocks hb hc hp r hr => computePowerIndexesWith_bounds_of_range blocks hb hc hp r hr,
    by rfl, by decide⟩

/-- Witness of the amended C15 at the blocks `{55,38,29}`. -/
theorem percentages_truncated_witness :
    ([55, 38, 29] : List Int).length ≤ 25 ∧
    computePowerIndexesWith wrap32 [55, 38, 29] = .ok [33, 33, 33] ∧
    (∀ x ∈ ([33, 33, 33] : List Int), 0 ≤ x ∧ x ≤ 100) ∧
    ([33, 33, 33] : List Int).sum ≤ 100 ∧
    (([55, 38, 29] : List Int) ≠ [] →
      100 - ((([55, 38, 29] : List Int).length : Nat) : Int) < ([33, 33, 33] : List Int).sum) :=
  ⟨by decide, by rfl,
    percentages_truncated.1 [55, 38, 29] (by decide) [33, 33, 33] (by rfl)⟩

/-- C17 as stated fails on 32-bit `int`s.  On the non-negative blocks
`{2147483647, 2147483647}`, of positive sum, the 32-bit sum wraps to `-2`, the majority is
`-1`, every call of `computeCritical` returns 0, the total is 0 and `computePowerIndexes`
divides by zero.  On the 32 blocks `1, 0, ..., 0`, of sum 1, the count `2^31` of the first
block wraps to `-2^31`: no count is positive and the total is `-2^31`. -/
theorem divisor_not_positive_on_overflow :
    ((∀ b ∈ ([2147483647, 2147483647] : List Int), 0 ≤ b) ∧
      (0 : Int) < ([2147483647, 2147483647] : List Int).sum ∧
      halfBlocksWith wrap32 [2147483647, 2147483647] = -1 ∧
      criticalLoopWith wrap32 (halfBlocksWith wrap32 [2147483647, 2147483647]) 3 0
        [2147483647, 2147483647] [] = .ok ([2147483647, 2147483647], [0, 0]) ∧
      computePowerIndexesWith wrap32 [2147483647, 2147483647] = .error .divisionByZero) ∧
    ((∀ b ∈ oneAndZeros 31, 0 ≤ b) ∧ (oneAndZeros 31).length = 32 ∧
      (oneAndZeros 31).sum = 1 ∧
      criticalLoopWith wrap32 (halfBlocksWith wrap32 (oneAndZeros 31)) 33 0 (oneAndZeros 31) []
        = .ok (oneAndZeros 31, -2147483648 :: List.replicate 31 0) ∧
      (∀ c ∈ (-2147483648 :: List.replicate 31 0 : List Int), c < 1) ∧
      (-2147483648 :: List.replicate 31 0 : List Int).foldl
        (fun total criticalVote => wrap32 (total + criticalVote)) 0 = -2147483648)
        := by
  have hw : wrap32 (2 ^ 31) = -2147483648 := by decide
  refine ⟨⟨by decide, by decide, by decide, by rfl, by rfl⟩,
    ⟨oneAndZeros_nonneg 31, by rfl, oneAndZeros_sum 31, ?_, ?_, ?_⟩⟩
  · have h := criticalLoopWith_oneAndZeros 31 (by omega)
    rw [hw] at h
    exact h
  · intro c hc
    rcases List.mem_cons.mp hc with h | h
    · omega
    · have := List.eq_of_mem_replicate h
      omega
  · rw [List.foldl_cons, foldl_wrap32_zeros 31 _ (wrap32_fits _)]
    decide

/-- C17, amended.  For non-negative blocks of positive sum whose number, sum and total of
critical counts are below `2^31`, `computeCritical` returns at least 1 for some block, the
total of the critical counts that `computePowerIndexes` divides by is positive, and
`computePowerIndexes` returns. -/
theorem divisor_positive (blocks : List Int) (hb : ∀ b ∈ blocks, 0 ≤ b)
    (hs : 0 < blocks.sum) (hc : countsFit32 blocks) :
    (∃ k : Nat, k < blocks.length ∧ ∃ c : Int,
      computeCriticalWith wrap32 (blocks.eraseIdx k) (blocks.getD k 0) 0 0
        (halfBlocksWith wrap32 blocks) = .ok c ∧ 1 ≤ c) ∧
    (∃ result : List Int,
      criticalLoopWith wrap32 (halfBlocksWith wrap32 blocks) (blocks.length + 1) 0 blocks []
        = .ok (blocks, result) ∧
      0 < result.foldl (fun total criticalVote => wrap32 (total + criticalVote)) 0) ∧
    ∃ r : List Int, computePowerIndexesWith wrap32 blocks = .ok r := by
  have href : ∀ k : Nat, k < blocks.length →
      computeCriticalWith wrap32 (blocks.eraseIdx k) (blocks.getD k 0) 0 0
        (halfBlocksWith wrap32 blocks) = .ok (criticalOfRef blocks k) :=
    fun k hk => computeCriticalWith_ref wrap32 wrap32_of_fits blocks hb hc.1 hc.2.1 k hk
      (lt_of_le_of_lt (criticalOfRef_le_total blocks k hk) hc.2.2)
  have hT := total_pos blocks hb hs
  refine ⟨?_, ?_, ?_⟩
  · obtain ⟨k, hk1, hk2⟩ := exists_critical blocks hb hs
    exact ⟨k, hk1, _, href k hk1, hk2⟩
  · refine ⟨_, criticalLoopWith_spec wrap32 _ blocks _ href (blocks.length + 1) 0 []
      (Nat.zero_le _) (by omega), ?_⟩
    simp only [List.nil_append, Nat.sub_zero, ← List.range_eq_range']
    rw [foldl_norm_eq wrap32 wrap32_of_fits _ 0 (le_refl _)
      (fun c hc' => by
        obtain ⟨i, _, rfl⟩ := List.mem_map.mp hc'
        exact criticalOfRef_nonneg blocks i)
      (by have := hc.2.2; omega), ← List.sum_eq_foldl]
    exact hT
  · obtain ⟨r, hr, _⟩ := (computePowerIndexesWith_defined blocks hb hc).1 (Or.inr hs)
    exact ⟨r, hr⟩

/-- Witness of the amended C17 at the blocks `{50,49,1}`. -/
theorem divisor_positive_witness :
    (∀ b ∈ ([50, 49, 1] : List Int), 0 ≤ b) ∧ (0 : Int) < ([50, 49, 1] : List Int).sum ∧
    countsFit32 [50, 49, 1] ∧
    (∃ k : Nat, k < ([50, 49, 1] : List Int).length ∧ ∃ c : Int,
      computeCriticalWith wrap32 (([50, 49, 1] : List Int).eraseIdx k)
        (([50, 49, 1] : List Int).getD k 0) 0 0 (halfBlocksWith wrap32 [50, 49, 1]) = .ok c ∧
      1 ≤ c) ∧
    (∃ result : List Int,
      criticalLoopWith wrap32 (halfBlocksWith wrap32 [50, 49, 1])
        (([50, 49, 1] : List Int).length + 1) 0 [50, 49, 1] [] = .ok ([50, 49, 1], result) ∧
      0 < result.foldl (fun total criticalVote => wrap32 (total + criticalVote)) 0) ∧
    ∃ r : List Int, computePowerIndexesWith wrap32 [50, 49, 1] = .ok r :=
  ⟨by decide, by decide, by unfold countsFit32; decide,
    divisor_positive [50, 49, 1] (by decide) (by decide) (by unfold countsFit32; decide)⟩

/-- C19 as stated fails on 32-bit `int`s.  On the non-negative blocks
`{2147483647, 2147483647, 3, 1}` the 32-bit sum wraps to the positive value 2:
`computeCritical` returns 1 for block 0 and 2 for the lighter block 2, and
`computePowerIndexes` returns `{25, 25, 50, 0}`.  On the 26 blocks `1, 0, ..., 0` the product
`criticalVote * 100` wraps and the block of weight 1 gets `-28`, less than the 0 of the
lighter blocks. -/
theorem power_index_not_monotone_on_overflow :
    ((∀ b ∈ ([2147483647, 2147483647, 3, 1] : List Int), 0 ≤ b) ∧
      (0 : Int) < ([2147483647, 2147483647, 3, 1] : List Int).sum ∧
      ([2147483647, 2147483647, 3, 1] : List Int).getD 2 0 ≤
        ([2147483647, 2147483647, 3, 1] : List Int).getD 0 0 ∧
      halfBlocksWith wrap32 [2147483647, 2147483647, 3, 1] = 1 ∧
      computeCriticalWith wrap32 (([2147483647, 2147483647, 3, 1] : List Int).eraseIdx 0)
        (([2147483647, 2147483647, 3, 1] : List Int).getD 0 0) 0 0
        (halfBlocksWith wrap32 [2147483647, 2147483647, 3, 1]) = .ok 1 ∧
      computeCriticalWith wrap32 (([2147483647, 2147483647, 3, 1] : List Int).eraseIdx 2)
        (([2147483647, 2147483647, 3, 1] : List Int).getD 2 0) 0 0
        (halfBlocksWith wrap32 [2147483647, 2147483647, 3, 1]) = .ok 2 ∧
      computePowerIndexesWith wrap32 [2147483647, 2147483647, 3, 1] = .ok [25, 25, 50, 0] ∧
      ([25, 25, 50, 0] : List Int).getD 0 0 < ([25, 25, 50, 0] : List Int).getD 2 0) ∧
    ((∀ b ∈ oneAndZeros 25, 0 ≤ b) ∧ (0 : Int) < (oneAndZeros 25).sum ∧
      (oneAndZeros 25).length = 26 ∧
      (oneAndZeros 25).getD 1 0 ≤ (oneAndZeros 25).getD 0 0 ∧
      computePowerIndexesWith wrap32 (oneAndZeros 25) = .ok (-28 :: List.replicate 25 0) ∧
      (-28 :: List.replicate 25 0 : List Int).getD 0 0 <
        (-28 :: List.replicate 25 0 : List Int).getD 1 0) :=
  ⟨⟨by decide, by decide, by decide, by decide, by rfl, by rfl, by rfl, by decide⟩,
    ⟨oneAndZeros_nonneg 25, by rw [oneAndZeros_sum]; decide, by rfl, by decide,
      computePowerIndexesWith_26_blocks, by decide⟩⟩

/-- C19, amended.  For non-negative blocks of positive sum whose number, sum, total of
critical counts and products `100 * c_i` are below `2^31`, and two positions `i`, `j` with
`blocks[i] ≥ blocks[j]`, the critical count `computeCritical` returns for block `i` is at
least the one it returns for block `j`, and so is the entry of the result of
`computePowerIndexes`; blocks of equal weight get equal counts and equal entries. -/
theorem power_index_monotone (blocks : List Int) (hb : ∀ b ∈ blocks, 0 ≤ b)
    (hs : 0 < blocks.sum) (hc : countsFit32 blocks) (hp : productsFit32 blocks) (i j : Nat)
    (hi : i < blocks.length) (hj : j < blocks.length)
    (hij : blocks.getD j 0 ≤ blocks.getD i 0) :
    ∃ (ci cj : Int) (r : List Int),
      computeCriticalWith wrap32 (blocks.eraseIdx i) (blocks.getD i 0) 0 0
        (halfBlocksWith wrap32 blocks) = .ok ci ∧
      computeCriticalWith wrap32 (blocks.eraseIdx j) (blocks.getD j 0) 0 0
        (halfBlocksWith wrap32 blocks) = .ok cj ∧
      computePowerIndexesWith wrap32 blocks = .ok r ∧ r.length = blocks.length ∧
      cj ≤ ci ∧ r.getD j 0 ≤ r.getD i 0 ∧
      (blocks.getD i 0 = blocks.getD j 0 → ci = cj ∧ r.getD i 0 = r.getD j 0) := by
  have href : ∀ k : Nat, k < blocks.length →
      computeCriticalWith wrap32 (blocks.eraseIdx k) (blocks.getD k 0) 0 0
        (halfBlocksWith wrap32 blocks) = .ok (criticalOfRef blocks k) :=
    fun k hk => computeCriticalWith_ref wrap32 wrap32_of_fits blocks hb hc.1 hc.2.1 k hk
      (lt_of_le_of_lt (criticalOfRef_le_total blocks k hk) hc.2.2)
  have heq := computePowerIndexesWith_eq_of_range wrap32 wrap32_of_fits blocks hb hc.1 hc.2.1
    hc.2.2 hp
  obtain ⟨r, hr, hrl⟩ := computePowerIndexes_defined blocks hb (Or.inr hs)
  have hmono := criticalOfRef_mono blocks i j hi hj hij
  refine ⟨_, _, r, href i hi, href j hj, heq.trans hr, hrl, hmono,
    computePowerIndexes_mono blocks hb r hr i j hi hj hmono, ?_⟩
  intro heq1
  have hmono1 := criticalOfRef_mono blocks j i hj hi (le_of_eq heq1)
  exact ⟨le_antisymm hmono1 hmono,
    le_antisymm (computePowerIndexes_mono blocks hb r hr j i hj hi hmono1)
      (computePowerIndexes_mono blocks hb r hr i j hi hj hmono)⟩

/-- Witness of the amended C19 at the blocks `{50,49,1}` and the positions 0 and 2. -/
theorem power_index_monotone_witness :
    (∀ b ∈ ([50, 49, 1] : List Int), 0 ≤ b) ∧ (0 : Int) < ([50, 49, 1] : List Int).sum ∧
    countsFit32 [50, 49, 1] ∧ productsFit32 [50, 49, 1] ∧
    ([50, 49, 1] : List Int).getD 2 0 ≤ ([50, 49, 1] : List Int).getD 0 0 ∧
    ∃ (ci cj : Int) (r : List Int),
      computeCriticalWith wrap32 (([50, 49, 1] : List Int).eraseIdx 0)
        (([50, 49, 1] : List Int).getD 0 0) 0 0 (halfBlocksWith wrap32 [50, 49, 1]) = .ok ci ∧
      computeCriticalWith wrap32 (([50, 49, 1] : List Int).eraseIdx 2)
        (([50, 49, 1] : List Int).getD 2 0) 0 0 (halfBlocksWith wrap32 [50, 49, 1]) = .ok cj ∧
      computePowerIndexesWith wrap32 [50, 49, 1] = .ok r ∧
      r.length = ([50, 49, 1] : List Int).length ∧
      cj ≤ ci ∧ r.getD 2 0 ≤ r.getD 0 0 ∧
      (([50, 49, 1] : List Int).getD 0 0 = ([50, 49, 1] : List Int).getD 2 0 →
        ci = cj ∧ r.getD 0 0 = r.getD 2 0) :=
  ⟨by decide, by decide, by unfold countsFit32; decide, by unfold productsFit32; decide,
    by decide,
    power_index_monotone [50, 49, 1] (by decide) (by decide) (by unfold countsFit32; decide)
      (by unfold productsFit32; decide) 0 2 (by decide) (by decide) (by decide)⟩

/-- C20. For at most 25 non-negative blocks of sum below `2^31`: every running sum of blocks,
the majority, every critical count (at most `2^(n-1)`), their total (at most `n * 2^(n-1)`)
and every product `criticalVote * 100` lie in the signed 32-bit range; and
`computePowerIndexes` computed with any arithmetic that agrees with exact arithmetic on that
range, wrap-around modulo `2^32` among them, returns what exact arithmetic returns. -/
theorem no_overflow_up_to_25_blocks (blocks : List Int) (hb : ∀ b ∈ blocks, 0 ≤ b)
    (hlen : blocks.length ≤ 25) (hs : blocks.sum < 2147483648) :
    (∀ k : Nat, fits32 ((blocks.take k).sum)) ∧ fits32 (halfBlocks blocks) ∧
    (∀ k : Nat, k < blocks.length → ∃ c : Int,
      computeCritical (blocks.eraseIdx k) (blocks.getD k 0) 0 0 (halfBlocks blocks) = .ok c ∧
      0 ≤ c ∧ c ≤ 2 ^ (blocks.length - 1) ∧ fits32 c ∧ fits32 (c * 100)) ∧
    (∃ result : List Int,
      criticalLoop (halfBlocks blocks) (blocks.length + 1) 0 blocks [] = .ok (blocks, result) ∧
      result.foldl (fun total criticalVote => total + criticalVote) 0 ≤
        (blocks.length : Int) * 2 ^ (blocks.length - 1) ∧
      fits32 (result.foldl (fun total criticalVote => total + criticalVote) 0)) ∧
    (∀ norm : Int → Int, (∀ x, fits32 x → norm x = x) →
      computePowerIndexesWith norm blocks = computePowerIndexes blocks) ∧
    computePowerIndexesWith wrap32 blocks = computePowerIndexes blocks := by
  have h0 : 0 ≤ blocks.sum := List.sum_nonneg hb
  obtain ⟨hc, hs0, hs1, hs2⟩ := critical_counts_bounds blocks hlen
  refine ⟨?_, ?_, ?_, ?_, ?_, ?_⟩
  · intro k
    obtain ⟨t0, t1⟩ := take_sum_bounds blocks hb k
    exact ⟨by omega, by omega⟩
  · rw [halfBlocks_eq blocks hb, Int.fdiv_eq_ediv _ (by omega)]
    exact ⟨by omega, by omega⟩
  · intro k hk
    refine ⟨_, computeCritical_eq _ _ _ (mem_eraseIdx_nonneg blocks k hb), ?_⟩
    rw [halfBlocks_eq blocks hb]
    have hmem : criticalOfRef blocks k ∈ (List.range blocks.length).map (criticalOfRef blocks) :=
      List.mem_map.mpr ⟨k, List.mem_range.mpr hk, rfl⟩
    obtain ⟨c0, c1, c2⟩ := hc _ hmem
    have c0' : 0 ≤ criticalCountRef (blocks.eraseIdx k) (blocks.getD k 0) (blocks.sum.fdiv 2) := c0
    have c1' : criticalCountRef (blocks.eraseIdx k) (blocks.getD k 0) (blocks.sum.fdiv 2) ≤
        2 ^ (blocks.length - 1) := c1
    have c2' : criticalCountRef (blocks.eraseIdx k) (blocks.getD k 0) (blocks.sum.fdiv 2) ≤
        16777216 := c2
    exact ⟨c0', c1', ⟨by omega, by omega⟩, ⟨by omega, by omega⟩⟩
  · refine ⟨_, criticalLoop_eq _ blocks hb (blocks.length + 1) 0 [] (Nat.zero_le _)
      (by omega), ?_⟩
    simp only [halfBlocks_eq blocks hb, List.nil_append, Nat.sub_zero, ← List.sum_eq_foldl,
      ← List.range_eq_range']
    have e1 : (List.map (fun j => criticalCountRef (blocks.eraseIdx j) (blocks.getD j 0)
        (blocks.sum.fdiv 2)) (List.range blocks.length)) =
        (List.range blocks.length).map (criticalOfRef blocks) := rfl
    rw [e1]
    exact ⟨hs1, ⟨by omega, by omega⟩⟩
  · intro norm hn
    exact computePowerIndexesWith_eq norm hn blocks hb hlen hs
  · exact computePowerIndexesWith_eq wrap32 wrap32_of_fits blocks hb hlen hs

/-- Witness of C20 at the blocks `{50,49,1}`. -/
theorem no_overflow_up_to_25_blocks_witness :
    (∀ b ∈ ([50, 49, 1] : List Int), 0 ≤ b) ∧ ([50, 49, 1] : List Int).length ≤ 25 ∧
    ([50, 49, 1] : List Int).sum < 2147483648 ∧
    computePowerIndexesWith wrap32 [50, 49, 1] = computePowerIndexes [50, 49, 1] :=
  ⟨by decide, by decide, by decide,
    (no_overflow_up_to_25_blocks [50, 49, 1] (by decide) (by decide) (by decide)).2.2.2.2.2⟩

end Voting
